import Mathlib

/-!
# Verification of the `crack` graph/hypergraph partitioner

A shallow embedding, in Lean 4, of the parts of the `crack` partitioning
library that the specification's claims are about:

* the λ−1 cut evaluator (`src/models/cut.py`),
* the imbalance bookkeeping (`src/models/imbalance.py`),
* weight coarsening (`src/models/eweights.py`, `src/models/nweights.py`),
* matching, prolongation and the trivial partitioner
  (`src/operators/aggregate.py`, `src/operators/prolong.py`,
  `src/algos/direct_algos/all_in_one_part.py`),
* the Fiduccia–Mattheyses gain table, move loop and rollback
  (`src/algos/gain_tables/gain_table_cut.py`,
  `src/algos/refine_algos/fm_part.py`, `src/algos/refine_algos/fm_fcts.py`),
* the vector-of-numbers balancing refiners
  (`src/algos/refine_algos/vn_first_part.py`,
  `src/algos/refine_algos/vn_best_part.py`).

Python lists become Lean `List`s, in-place mutation becomes explicit state
passing, Python floats used for (normalized) weights and imbalances become
`Rat` (the code only ever divides weights by totals, so its real arithmetic
is exact rational arithmetic), and raised exceptions become `Except` /
`Option` results.  Out-of-range list reads are embedded with `List.getD`;
whenever a theorem depends on an index being in range this is an explicit
hypothesis or is checked on concrete data.
-/

set_option maxRecDepth 8000

namespace Crack

/-! ## Small list helpers -/

/-- `getD` after `set` at the same (in-range) position. -/
theorem getD_set_self {α : Type} (l : List α) (n : Nat) (a d : α)
    (h : n < l.length) : (l.set n a).getD n d = a := by
  induction l generalizing n with
  | nil => simp at h
  | cons x xs ih =>
    cases n with
    | zero => simp [List.set, List.getD]
    | succ m =>
      simp only [List.set, List.getD, List.getElem?_cons_succ]
      exact ih m (by simpa using h)

/-- `getD` after `set` at another position. -/
theorem getD_set_other {α : Type} (l : List α) (m n : Nat) (a d : α)
    (h : m ≠ n) : (l.set m a).getD n d = l.getD n d := by
  induction l generalizing m n with
  | nil => simp [List.set]
  | cons x xs ih =>
    cases m with
    | zero =>
      cases n with
      | zero => exact absurd rfl h
      | succ k => simp [List.set, List.getD]
    | succ m' =>
      cases n with
      | zero => simp [List.set, List.getD]
      | succ k =>
        simp only [List.set, List.getD, List.getElem?_cons_succ]
        exact ih m' k (fun hh => h (by simpa using hh))

/-- `set` out of range leaves the list unchanged. -/
theorem set_getD_out {α : Type} (l : List α) (n : Nat) (a : α)
    (h : l.length ≤ n) : l.set n a = l := by
  induction l generalizing n with
  | nil => simp
  | cons x xs ih =>
    cases n with
    | zero => simp at h
    | succ m => simp only [List.set]; rw [ih m (by simpa using h)]

/-! ## Errors

`crack.utils.errors` is not part of the sources we were given; the spec's
§7 states that all errors are fatal to the current phase.  Raised Python
exceptions (whether raised by `crack_error` or directly by the runtime)
are embedded as `Except.error` carrying one of the following kinds. -/

/-- Modelled from the spec: `crack.utils.errors.crack_error(kind, fct, msg)`
is not under `src/`; per the spec (§7, "All errors are fatal to the current
phase and surface to the orchestrator") it raises the given exception kind.
Runtime exceptions (`IndexError`, `TypeError`, `NameError`) raised directly
by Python are embedded with the same type. -/
inductive CrackErr where
  | valueError (fct msg : String)
  | indexError (msg : String)
  | typeError (msg : String)
  | nameError (msg : String)
deriving DecidableEq, Repr

/-! ## Criteria specifications (`src/models/weights.py`, `format_crit`)

`format_crit` accepts an int, a list of ints, or a string; the string form
is a comma/dash syntax parsed into a list.  We embed the int and list
forms, which are the forms the partitioning engine itself passes around
(`weights_crit=0` by default); a string spec is parsed into exactly one of
these two shapes before use. -/

inductive CritSpec where
  | int (c : Nat)
  | list (cs : List Nat)
deriving DecidableEq

/-- `format_crit` (src/models/weights.py lines 24-51): an int becomes a
one-element list, a list is returned unchanged. -/
def format_crit : CritSpec → List Nat
  | .int c => [c]
  | .list cs => cs

/-! ## Topologies (`src/models/graph.py`, `src/models/hypergraph.py`)

A graph's `edges` field is a list of endpoint pairs; a hypergraph's is a
list of endpoint lists. -/

inductive Topo where
  | graph (edges : List (Nat × Nat))
  | hypergraph (edges : List (List Nat))

/-! ## λ−1 cut (`src/models/cut.py`) -/

/-- The graph branch of `cut_lambda_minus_one` (src/models/cut.py lines
52-55): `sum(wgts[e][c] for e, (i, j) in enumerate(edges) if parts[i] !=
parts[j])`. -/
def cutGraphBranch (edges : List (Nat × Nat)) (wgts : List (List Int))
    (parts : List Nat) (c : Nat) : Int :=
  (edges.enum.map (fun ei =>
    if parts.getD ei.2.1 0 ≠ parts.getD ei.2.2 0
    then (wgts.getD ei.1 []).getD c 0 else 0)).sum

/-- The hypergraph branch of `cut_lambda_minus_one` (src/models/cut.py
lines 57-60), embedded exactly as written:
`sum(wgts[i][c] * len([j for j in ends if parts[j] != parts[i]]) for
i, ends in enumerate(edges))` — note that `i` is the *hyperedge* index
and is nevertheless used to index `parts`. -/
def cutHyperBranch (edges : List (List Nat)) (wgts : List (List Int))
    (parts : List Nat) (c : Nat) : Int :=
  (edges.enum.map (fun ie =>
    (wgts.getD ie.1 []).getD c 0 *
      ((ie.2.filter (fun j => parts.getD j 0 ≠ parts.getD ie.1 0)).length : Int))).sum

/-- `cut_lambda_minus_one` (src/models/cut.py lines 30-60).  The criteria
specification is formatted; more than one criterion raises `ValueError`
via `crack_error`; an empty criteria list would make `crit[0]` raise
`IndexError`. -/
def cut_lambda_minus_one (topo : Topo) (wgts : List (List Int))
    (parts : List Nat) (weights_crit : CritSpec) : Except CrackErr Int :=
  let crit := format_crit weights_crit
  if 1 < crit.length then
    .error (.valueError "cut" "Does not handle multiple criteria yet...")
  else
    match crit with
    | [] => .error (.indexError "list index out of range")
    | c :: _ =>
      match topo with
      | .graph edges => .ok (cutGraphBranch edges wgts parts c)
      | .hypergraph edges => .ok (cutHyperBranch edges wgts parts c)

/-- The λ−1 cut as the spec defines it (spec §4.B and glossary): each
(hyper)edge of weight `w` whose endpoints occupy `λ` distinct parts
contributes `w·(λ−1)`. -/
def lambdaOf (parts : List Nat) (ends : List Nat) : Nat :=
  ((ends.map (fun j => parts.getD j 0)).dedup).length

/-- Spec-side definition of the hypergraph λ−1 cut, used to compare the
code's hypergraph branch against the specification's words. -/
def cutLambdaMinusOneSpec (edges : List (List Nat)) (wgts : List (List Int))
    (parts : List Nat) (c : Nat) : Int :=
  (edges.enum.map (fun ie =>
    (wgts.getD ie.1 []).getD c 0 * ((lambdaOf parts ie.2 : Int) - 1))).sum

/-- Predicate: the result is a `ValueError` (raised through `crack_error`). -/
def isValueError : Except CrackErr Int → Prop
  | .error (.valueError _ _) => True
  | _ => False

instance (r : Except CrackErr Int) : Decidable (isValueError r) := by
  unfold isValueError
  cases r with
  | error e => cases e <;> simp <;> infer_instance
  | ok v => simp; infer_instance

/-- C2.  The hypergraph branch of `cut_lambda_minus_one` does not compute
the λ−1 cut: on 4 vertices with the single unit-weight hyperedge
`{0,1,2,3}` and `parts = [0,1,1,1]` the code returns `3` (it counts the
endpoints whose part differs from `parts[e]`, where `e` is the *hyperedge*
index, here `parts[0] = 0`), while the λ−1 value — per the spec and per
the docstring of `src/models/cut.py` itself — is `w·(λ−1) = 1·(2−1) = 1`.
On the spec's own test vector `parts = [0,0,1,2]` the two definitions
coincide at `2`, which is why the discrepancy is invisible there. -/
theorem cut_hypergraph_code_bug :
    cut_lambda_minus_one (.hypergraph [[0, 1, 2, 3]]) [[1]] [0, 1, 1, 1] (.int 0)
        = .ok 3
    ∧ cutLambdaMinusOneSpec [[0, 1, 2, 3]] [[1]] [0, 1, 1, 1] 0 = 1
    ∧ cut_lambda_minus_one (.hypergraph [[0, 1, 2, 3]]) [[1]] [0, 0, 1, 2] (.int 0)
        = .ok 2
    ∧ cutLambdaMinusOneSpec [[0, 1, 2, 3]] [[1]] [0, 0, 1, 2] 0 = 2 := by
  exact ⟨rfl, by decide, rfl, by decide⟩

/-! ### The error-raising evaluation of `cut_lambda_minus_one`

The definitions above read out-of-range subscripts as `getD` defaults,
which is only valid on in-range data.  The following `..Go` functions
re-embed the two branch comprehensions with every Python list subscript
modelled as fallible, in the source's evaluation order, so that the
function's whole error behaviour — `ValueError` for several criteria and
`IndexError` from any out-of-range read — is captured. -/

/-- Python list subscript `l[n]`: `IndexError` when `n` is out of
range. -/
def pyGet {α : Type} (l : List α) (n : Nat) : Except CrackErr α :=
  match l.get? n with
  | some a => .ok a
  | none => .error (.indexError "list index out of range")

/-- The graph branch with fallible subscripts (src/models/cut.py lines
52-55): per edge the generator evaluates `parts[i]`, `parts[j]`, and —
only for a cut edge — `wgts[e]` then `[c]`, stopping at the first
`IndexError`. -/
def cutGraphGo (wgts : List (List Int)) (parts : List Nat) (c : Nat) :
    List (Nat × (Nat × Nat)) → Int → Except CrackErr Int
  | [], acc => .ok acc
  | ep :: rest, acc =>
    match pyGet parts ep.2.1 with
    | .error e => .error e
    | .ok pi =>
      match pyGet parts ep.2.2 with
      | .error e => .error e
      | .ok pj =>
        if pi ≠ pj then
          match pyGet wgts ep.1 with
          | .error e => .error e
          | .ok row =>
            match pyGet row c with
            | .error e => .error e
            | .ok w => cutGraphGo wgts parts c rest (acc + w)
        else cutGraphGo wgts parts c rest acc

/-- The inner comprehension of the hypergraph branch
(`[j for j in ends if parts[j] != parts[i]]`, src/models/cut.py line 59):
for each `j` it reads `parts[j]` and then `parts[i]` — `i` being the
*hyperedge* index. -/
def lamCountGo (parts : List Nat) (i : Nat) : List Nat → Nat →
    Except CrackErr Nat
  | [], k => .ok k
  | j :: rest, k =>
    match pyGet parts j with
    | .error e => .error e
    | .ok pj =>
      match pyGet parts i with
      | .error e => .error e
      | .ok pi => lamCountGo parts i rest (if pj ≠ pi then k + 1 else k)

/-- The hypergraph branch with fallible subscripts (src/models/cut.py
lines 57-60): per hyperedge `wgts[i]` then `[c]` are read before the
inner comprehension runs. -/
def cutHyperGo (wgts : List (List Int)) (parts : List Nat) (c : Nat) :
    List (Nat × List Nat) → Int → Except CrackErr Int
  | [], acc => .ok acc
  | ie :: rest, acc =>
    match pyGet wgts ie.1 with
    | .error e => .error e
    | .ok row =>
      match pyGet row c with
      | .error e => .error e
      | .ok w =>
        match lamCountGo parts ie.1 ie.2 0 with
        | .error e => .error e
        | .ok cnt => cutHyperGo wgts parts c rest (acc + w * (cnt : Int))

/-- `cut_lambda_minus_one` (src/models/cut.py lines 30-60) with every
list subscript fallible: the multi-criteria check raises `ValueError`
first, then `crit[0]` is read, then the branch sum runs and propagates
the first `IndexError` of its subscripts. -/
def cut_lambda_minus_one_checked (topo : Topo) (wgts : List (List Int))
    (parts : List Nat) (weights_crit : CritSpec) : Except CrackErr Int :=
  let crit := format_crit weights_crit
  if 1 < crit.length then
    .error (.valueError "cut" "Does not handle multiple criteria yet...")
  else
    match pyGet crit 0 with
    | .error e => .error e
    | .ok c =>
      match topo with
      | .graph edges => cutGraphGo wgts parts c edges.enum 0
      | .hypergraph edges => cutHyperGo wgts parts c edges.enum 0

/-- An in-range subscript returns the default-read value. -/
theorem pyGet_ok {α : Type} (l : List α) (n : Nat) (d : α)
    (h : n < l.length) : pyGet l n = .ok (l.getD n d) := by
  unfold pyGet
  rw [show l.get? n = some (l.getD n d) from by
    rw [List.get?_eq_getElem?, List.getElem?_eq_getElem h,
      List.getD_eq_getElem l d h]]

/-- A subscript either returns a value or raises `IndexError`. -/
theorem pyGet_shape {α : Type} (l : List α) (n : Nat) :
    (∃ v, pyGet l n = .ok v)
    ∨ pyGet l n = .error (.indexError "list index out of range") := by
  unfold pyGet
  cases l.get? n with
  | none => exact Or.inr rfl
  | some a => exact Or.inl ⟨a, rfl⟩

/-- The graph branch produces a value or an `IndexError` — never a
`ValueError`. -/
theorem cutGraphGo_shape (wgts : List (List Int)) (parts : List Nat)
    (c : Nat) :
    ∀ (L : List (Nat × (Nat × Nat))) (acc : Int),
      (∃ v, cutGraphGo wgts parts c L acc = .ok v)
      ∨ cutGraphGo wgts parts c L acc
        = .error (.indexError "list index out of range") := by
  intro L
  induction L with
  | nil => intro acc; exact Or.inl ⟨acc, rfl⟩
  | cons ep rest ih =>
    intro acc
    rcases pyGet_shape parts ep.2.1 with ⟨pi, h1⟩ | h1
    · rcases pyGet_shape parts ep.2.2 with ⟨pj, h2⟩ | h2
      · by_cases hne : pi ≠ pj
        · rcases pyGet_shape wgts ep.1 with ⟨row, h3⟩ | h3
          · rcases pyGet_shape row c with ⟨w, h4⟩ | h4
            · simp only [cutGraphGo, h1, h2, if_pos hne, h3, h4]
              exact ih (acc + w)
            · right
              simp only [cutGraphGo, h1, h2, if_pos hne, h3, h4]
          · right
            simp only [cutGraphGo, h1, h2, if_pos hne, h3]
        · simp only [cutGraphGo, h1, h2, if_neg hne]
          exact ih acc
      · right
        simp only [cutGraphGo, h1, h2]
    · right
      simp only [cutGraphGo, h1]

/-- The inner comprehension produces a value or an `IndexError`. -/
theorem lamCountGo_shape (parts : List Nat) (i : Nat) :
    ∀ (l : List Nat) (k : Nat),
      (∃ v, lamCountGo parts i l k = .ok v)
      ∨ lamCountGo parts i l k
        = .error (.indexError "list index out of range") := by
  intro l
  induction l with
  | nil => intro k; exact Or.inl ⟨k, rfl⟩
  | cons j rest ih =>
    intro k
    rcases pyGet_shape parts j with ⟨pj, h1⟩ | h1
    · rcases pyGet_shape parts i with ⟨pi, h2⟩ | h2
      · simp only [lamCountGo, h1, h2]
        exact ih _
      · right
        simp only [lamCountGo, h1, h2]
    · right
      simp only [lamCountGo, h1]

/-- The hypergraph branch produces a value or an `IndexError` — never a
`ValueError`. -/
theorem cutHyperGo_shape (wgts : List (List Int)) (parts : List Nat)
    (c : Nat) :
    ∀ (L : List (Nat × List Nat)) (acc : Int),
      (∃ v, cutHyperGo wgts parts c L acc = .ok v)
      ∨ cutHyperGo wgts parts c L acc
        = .error (.indexError "list index out of range") := by
  intro L
  induction L with
  | nil => intro acc; exact Or.inl ⟨acc, rfl⟩
  | cons ie rest ih =>
    intro acc
    rcases pyGet_shape wgts ie.1 with ⟨row, h1⟩ | h1
    · rcases pyGet_shape row c with ⟨w, h2⟩ | h2
      · rcases lamCountGo_shape parts ie.1 ie.2 0 with ⟨cnt, h3⟩ | h3
        · simp only [cutHyperGo, h1, h2, h3]
          exact ih _
        · right
          simp only [cutHyperGo, h1, h2, h3]
      · right
        simp only [cutHyperGo, h1, h2]
    · right
      simp only [cutHyperGo, h1]

/-- On in-range data the fallible graph branch computes the `getD`-based
sum. -/
theorem cutGraphGo_ok (wgts : List (List Int)) (parts : List Nat)
    (c : Nat) :
    ∀ (L : List (Nat × (Nat × Nat))) (acc : Int),
      (∀ ep ∈ L, ep.2.1 < parts.length ∧ ep.2.2 < parts.length
        ∧ ep.1 < wgts.length ∧ c < (wgts.getD ep.1 []).length) →
      cutGraphGo wgts parts c L acc
        = .ok (acc + (L.map (fun ei =>
            if parts.getD ei.2.1 0 ≠ parts.getD ei.2.2 0
            then (wgts.getD ei.1 []).getD c 0 else 0)).sum) := by
  intro L
  induction L with
  | nil =>
    intro acc _
    simp [cutGraphGo]
  | cons ep rest ih =>
    intro acc hall
    obtain ⟨h1, h2, h3, h4⟩ := hall ep (List.mem_cons_self _ _)
    have htail := fun ep2 h2m => hall ep2 (List.mem_cons_of_mem _ h2m)
    simp only [cutGraphGo, pyGet_ok parts ep.2.1 0 h1,
      pyGet_ok parts ep.2.2 0 h2, List.map_cons, List.sum_cons]
    by_cases hne : parts.getD ep.2.1 0 ≠ parts.getD ep.2.2 0
    · simp only [if_pos hne, pyGet_ok wgts ep.1 [] h3,
        pyGet_ok (wgts.getD ep.1 []) c 0 h4]
      rw [ih _ htail]
      exact congrArg Except.ok (by ring)
    · simp only [if_neg hne]
      rw [ih _ htail]
      exact congrArg Except.ok (by ring)

/-- On in-range data the inner comprehension counts the endpoints on the
other side of `parts[i]`. -/
theorem lamCountGo_ok (parts : List Nat) (i : Nat) (hi : i < parts.length) :
    ∀ (l : List Nat) (k : Nat),
      (∀ j ∈ l, j < parts.length) →
      lamCountGo parts i l k
        = .ok (k + (l.filter (fun j =>
            parts.getD j 0 ≠ parts.getD i 0)).length) := by
  intro l
  induction l with
  | nil =>
    intro k _
    simp [lamCountGo]
  | cons j rest ih =>
    intro k hall
    have hj := hall j (List.mem_cons_self _ _)
    have htail := fun j2 h2m => hall j2 (List.mem_cons_of_mem _ h2m)
    simp only [lamCountGo, pyGet_ok parts j 0 hj, pyGet_ok parts i 0 hi,
      List.filter_cons, decide_eq_true_eq]
    by_cases hne : parts.getD j 0 ≠ parts.getD i 0
    · rw [if_pos hne, if_pos hne, ih _ htail]
      exact congrArg Except.ok (by simp only [List.length_cons]; omega)
    · rw [if_neg hne, if_neg hne, ih _ htail]

/-- On in-range data the fallible hypergraph branch computes the
`getD`-based sum. -/
theorem cutHyperGo_ok (wgts : List (List Int)) (parts : List Nat)
    (c : Nat) :
    ∀ (L : List (Nat × List Nat)) (acc : Int),
      (∀ ie ∈ L, ie.1 < wgts.length ∧ c < (wgts.getD ie.1 []).length
        ∧ ie.1 < parts.length ∧ ∀ j ∈ ie.2, j < parts.length) →
      cutHyperGo wgts parts c L acc
        = .ok (acc + (L.map (fun ie =>
            (wgts.getD ie.1 []).getD c 0 *
              ((ie.2.filter (fun j =>
                parts.getD j 0 ≠ parts.getD ie.1 0)).length : Int))).sum) := by
  intro L
  induction L with
  | nil =>
    intro acc _
    simp [cutHyperGo]
  | cons ie rest ih =>
    intro acc hall
    obtain ⟨h1, h2, h3, h4⟩ := hall ie (List.mem_cons_self _ _)
    have htail := fun ie2 h2m => hall ie2 (List.mem_cons_of_mem _ h2m)
    simp only [cutHyperGo, pyGet_ok wgts ie.1 [] h1,
      pyGet_ok (wgts.getD ie.1 []) c 0 h2,
      lamCountGo_ok parts ie.1 h3 ie.2 0 h4, List.map_cons, List.sum_cons]
    rw [ih _ htail]
    exact congrArg Except.ok (by push_cast; ring)

/-- Members of `enumFrom` have their payload in the base list. -/
theorem snd_mem_of_mem_enumFrom {α : Type} :
    ∀ (l : List α) (k : Nat) (p : Nat × α), p ∈ l.enumFrom k → p.2 ∈ l := by
  intro l
  induction l with
  | nil => intro k p hp; simp [List.enumFrom] at hp
  | cons x xs ih =>
    intro k p hp
    rcases List.mem_cons.mp hp with h | h
    · rw [h]; exact List.mem_cons_self _ _
    · exact List.mem_cons_of_mem _ (ih (k + 1) p h)

/-- Members of `enumFrom` have their index below the end. -/
theorem fst_lt_of_mem_enumFrom {α : Type} :
    ∀ (l : List α) (k : Nat) (p : Nat × α),
      p ∈ l.enumFrom k → p.1 < k + l.length := by
  intro l
  induction l with
  | nil =>
    intro k p hp
    simp [List.enumFrom] at hp
  | cons x xs ih =>
    intro k p hp
    rcases List.mem_cons.mp hp with h | h
    · rw [h]
      simp only [List.length_cons]
      omega
    · have := ih (k + 1) p h
      simp only [List.length_cons]
      omega

/-- An in-range default read is a member. -/
theorem getD_mem {α : Type} (l : List α) (n : Nat) (d : α)
    (h : n < l.length) : l.getD n d ∈ l := by
  rw [List.getD_eq_getElem l d h]
  exact List.getElem_mem h

/-- C10.  Amended error law of `cut_lambda_minus_one`, over the
embedding with fallible subscripts.  The `ValueError` through
`crack_error` is raised exactly when `weights_crit` formats to more than
one criterion.  The original claim's second half — a single-criterion
call "returns a numeric cut value and raises no error" — is false (see
the companion counterexample): a single-criterion call returns the
branch value only when every subscript it performs is in range — for
the graph branch both endpoints of every edge and one weight entry per
edge, and for the hypergraph branch additionally `parts[i]` for every
*hyperedge* index `i`, the same misuse C2 exposes, which raises
`IndexError` whenever a hypergraph has more hyperedges than vertices. -/
theorem cut_valueError_amended (topo : Topo) (wgts : List (List Int))
    (parts : List Nat) (spec : CritSpec) :
    (isValueError (cut_lambda_minus_one_checked topo wgts parts spec)
      ↔ 1 < (format_crit spec).length)
    ∧ (∀ c edges, format_crit spec = [c] → topo = .graph edges →
        (∀ e ∈ edges, e.1 < parts.length ∧ e.2 < parts.length) →
        edges.length ≤ wgts.length →
        (∀ row ∈ wgts, c < row.length) →
        cut_lambda_minus_one_checked topo wgts parts spec
          = .ok (cutGraphBranch edges wgts parts c))
    ∧ (∀ c edges, format_crit spec = [c] → topo = .hypergraph edges →
        (∀ ends ∈ edges, ∀ j ∈ ends, j < parts.length) →
        edges.length ≤ parts.length →
        edges.length ≤ wgts.length →
        (∀ row ∈ wgts, c < row.length) →
        cut_lambda_minus_one_checked topo wgts parts spec
          = .ok (cutHyperBranch edges wgts parts c)) := by
  refine ⟨⟨?_, ?_⟩, ?_, ?_⟩
  · intro h
    by_contra hlen
    unfold cut_lambda_minus_one_checked at h
    rw [if_neg hlen] at h
    rcases pyGet_shape (format_crit spec) 0 with ⟨c, h0⟩ | h0
    · rw [h0] at h
      cases topo with
      | graph edges =>
        rcases cutGraphGo_shape wgts parts c edges.enum 0 with ⟨v, hv⟩ | hv <;>
          simp [hv, isValueError] at h
      | hypergraph edges =>
        rcases cutHyperGo_shape wgts parts c edges.enum 0 with ⟨v, hv⟩ | hv <;>
          simp [hv, isValueError] at h
    · rw [h0] at h
      simp [isValueError] at h
  · intro hlen
    unfold cut_lambda_minus_one_checked
    rw [if_pos hlen]
    simp [isValueError]
  · intro c edges hcrit htopo hparts hlenw hrows
    subst htopo
    have hall : ∀ ep ∈ edges.enum, ep.2.1 < parts.length
        ∧ ep.2.2 < parts.length ∧ ep.1 < wgts.length
        ∧ c < (wgts.getD ep.1 []).length := by
      intro ep hep
      have hmem : ep.2 ∈ edges := snd_mem_of_mem_enumFrom edges 0 ep hep
      have hfst : ep.1 < edges.length := by
        have := fst_lt_of_mem_enumFrom edges 0 ep hep
        omega
      have h3 : ep.1 < wgts.length := by omega
      exact ⟨(hparts ep.2 hmem).1, (hparts ep.2 hmem).2, h3,
        hrows _ (getD_mem wgts ep.1 [] h3)⟩
    unfold cut_lambda_minus_one_checked
    rw [if_neg (by rw [hcrit]; simp)]
    simp only [show pyGet (format_crit spec) 0 = .ok c from by
        rw [hcrit]; rfl,
      cutGraphGo_ok wgts parts c edges.enum 0 hall]
    unfold cutGraphBranch
    exact congrArg Except.ok (zero_add _)
  · intro c edges hcrit htopo hends hlenp hlenw hrows
    subst htopo
    have hall : ∀ ie ∈ edges.enum, ie.1 < wgts.length
        ∧ c < (wgts.getD ie.1 []).length ∧ ie.1 < parts.length
        ∧ ∀ j ∈ ie.2, j < parts.length := by
      intro ie hie
      have hmem : ie.2 ∈ edges := snd_mem_of_mem_enumFrom edges 0 ie hie
      have hfst : ie.1 < edges.length := by
        have := fst_lt_of_mem_enumFrom edges 0 ie hie
        omega
      have h1 : ie.1 < wgts.length := by omega
      exact ⟨h1, hrows _ (getD_mem wgts ie.1 [] h1), by omega,
        hends ie.2 hmem⟩
    unfold cut_lambda_minus_one_checked
    rw [if_neg (by rw [hcrit]; simp)]
    simp only [show pyGet (format_crit spec) 0 = .ok c from by
        rw [hcrit]; rfl,
      cutHyperGo_ok wgts parts c edges.enum 0 hall]
    unfold cutHyperBranch
    exact congrArg Except.ok (zero_add _)

/-- C10 counterexample to the unamended claim: with the single default
criterion `0`, a well-formed hypergraph with more hyperedges than
vertices makes `cut_lambda_minus_one` raise `IndexError` instead of
returning a value — the hypergraph branch reads `parts[i]` with the
hyperedge index `i = 2` on a 2-vertex partition (src/models/cut.py
line 59). -/
theorem cut_single_crit_counterexample :
    (format_crit (.int 0)).length = 1
    ∧ cut_lambda_minus_one_checked (.hypergraph [[0], [1], [0, 1]])
        [[1], [1], [1]] [0, 1] (.int 0)
      = .error (.indexError "list index out of range") :=
  ⟨rfl, rfl⟩

/-- C10 witness: the amended law at concrete inputs — the one-edge graph
and the spec's hypergraph vector (all subscripts in range) evaluate to
their branch values and raise nothing, while the two-criteria list
`[0, 1]` on the latter is a `ValueError`. -/
theorem cut_valueError_amended_witness :
    (isValueError (cut_lambda_minus_one_checked (.graph [(0, 1)]) [[2]]
        [0, 1] (.int 0))
      ↔ 1 < (format_crit (.int 0)).length)
    ∧ cut_lambda_minus_one_checked (.graph [(0, 1)]) [[2]] [0, 1] (.int 0)
      = .ok (cutGraphBranch [(0, 1)] [[2]] [0, 1] 0)
    ∧ cut_lambda_minus_one_checked (.hypergraph [[0, 1, 2, 3]]) [[1]]
        [0, 0, 1, 2] (.int 0)
      = .ok (cutHyperBranch [[0, 1, 2, 3]] [[1]] [0, 0, 1, 2] 0)
    ∧ isValueError (cut_lambda_minus_one_checked (.hypergraph [[0, 1, 2, 3]])
        [[1]] [0, 0, 1, 2] (.list [0, 1])) :=
  ⟨(cut_valueError_amended (.graph [(0, 1)]) [[2]] [0, 1] (.int 0)).1,
   (cut_valueError_amended (.graph [(0, 1)]) [[2]] [0, 1] (.int 0)).2.1
     0 [(0, 1)] rfl rfl (by decide) (by decide) (by decide),
   (cut_valueError_amended (.hypergraph [[0, 1, 2, 3]]) [[1]]
       [0, 0, 1, 2] (.int 0)).2.2
     0 [[0, 1, 2, 3]] rfl rfl (by decide) (by decide) (by decide)
     (by decide),
   (cut_valueError_amended (.hypergraph [[0, 1, 2, 3]]) [[1]]
       [0, 0, 1, 2] (.list [0, 1])).1.mpr (by decide)⟩

/-! ## Imbalance bookkeeping (`src/models/imbalance.py`) -/

/-- The per-criterion row update shared by `imbalances_after_move` and
`ConstraintsImbalance.moved`: `imbs_per_c[p_src] -= nbr_p * w;
imbs_per_c[p_tgt] += nbr_p * w` (src/models/imbalance.py lines 172-174
and 254-256). -/
def rowAfterMove (nbr_p : Nat) (w : Rat) (p_src p_tgt : Nat)
    (row : List Rat) : List Rat :=
  let row1 := row.set p_src (row.getD p_src 0 - (nbr_p : Rat) * w)
  row1.set p_tgt (row1.getD p_tgt 0 + (nbr_p : Rat) * w)

/-- `imbalances_after_move(ws, p_src, p_tgt, nbr_p, imbs)`
(src/models/imbalance.py lines 167-175): a fresh copy of `imbs` in which,
for each criterion paired with a weight by `zip(ws, new_imbs)`, the source
entry loses `nbr_p·w` and the target entry gains it.  Rows beyond
`len(ws)` are returned unchanged, exactly as `zip` leaves them. -/
def imbalances_after_move (ws : List Rat) (p_src p_tgt : Nat) (nbr_p : Nat)
    (imbs : List (List Rat)) : List (List Rat) :=
  List.zipWith (fun w row => rowAfterMove nbr_p w p_src p_tgt row) ws imbs
    ++ imbs.drop ws.length

/-- The imbalance-constraint object (src/models/imbalance.py lines
178-269): normalized vertex weights, part count, per-criterion tolerances
and the working imbalance matrix. -/
structure ConstraintsImbalance where
  nwgts : List (List Rat)
  nbr_p : Nat
  tols : List Rat
  imbs : List (List Rat)
deriving DecidableEq, Repr

namespace ConstraintsImbalance

/-- `can_move(i, p_src, p_tgt, stats)` (src/models/imbalance.py lines
238-251): admissible iff no criterion has
`imbs[c][p_tgt] + nbr_p * w > tol_c`. -/
def can_move (ci : ConstraintsImbalance) (i : Nat) (_p_src p_tgt : Nat) : Bool :=
  (List.zip (ci.nwgts.getD i []) (List.zip ci.imbs ci.tols)).all
    (fun wit => ¬ ((wit.2.1.getD p_tgt 0) + (ci.nbr_p : Rat) * wit.1 > wit.2.2))

/-- `moved(i, p_src, p_tgt, stats)` (src/models/imbalance.py lines
253-258): applies the same in-place update that `imbalances_after_move`
performs on a copy. -/
def moved (ci : ConstraintsImbalance) (i : Nat) (p_src p_tgt : Nat) :
    ConstraintsImbalance :=
  { ci with imbs := imbalances_after_move (ci.nwgts.getD i []) p_src p_tgt ci.nbr_p ci.imbs }

/-- `copy` (src/models/imbalance.py lines 260-269): deep-copies the `imbs`
matrix, shares everything else.  In the embedding state is a value, so
this is the identity. -/
def copy (ci : ConstraintsImbalance) : ConstraintsImbalance := ci

end ConstraintsImbalance

/-- Row access of `imbalances_after_move` under a length agreement. -/
theorem imbalances_after_move_getD (ws : List Rat) (p_src p_tgt nbr_p : Nat)
    (imbs : List (List Rat)) (hlen : ws.length = imbs.length)
    (c : Nat) (hc : c < imbs.length) :
    (imbalances_after_move ws p_src p_tgt nbr_p imbs).getD c [] =
      rowAfterMove nbr_p (ws.getD c 0) p_src p_tgt (imbs.getD c []) := by
  induction ws generalizing imbs c with
  | nil =>
    simp only [List.length_nil] at hlen
    exact absurd hc (by omega)
  | cons w ws ih =>
    cases imbs with
    | nil => simp at hc
    | cons row rows =>
      cases c with
      | zero => simp [imbalances_after_move, List.getD]
      | succ c' =>
        have h1 : ws.length = rows.length := by simpa using hlen
        have h2 : c' < rows.length := by simpa using hc
        have := ih rows h1 c' h2
        simpa [imbalances_after_move, List.getD] using this

/-- Effect of `rowAfterMove` on the source entry. -/
theorem rowAfterMove_src (nbr_p : Nat) (w : Rat) (p_src p_tgt : Nat)
    (row : List Rat) (hne : p_src ≠ p_tgt) (hs : p_src < row.length) :
    (rowAfterMove nbr_p w p_src p_tgt row).getD p_src 0 =
      row.getD p_src 0 - (nbr_p : Rat) * w := by
  unfold rowAfterMove
  rw [getD_set_other _ _ _ _ _ (fun h => hne h.symm),
    getD_set_self _ _ _ _ hs]

/-- Effect of `rowAfterMove` on the target entry. -/
theorem rowAfterMove_tgt (nbr_p : Nat) (w : Rat) (p_src p_tgt : Nat)
    (row : List Rat) (hne : p_src ≠ p_tgt) (ht : p_tgt < row.length) :
    (rowAfterMove nbr_p w p_src p_tgt row).getD p_tgt 0 =
      row.getD p_tgt 0 + (nbr_p : Rat) * w := by
  unfold rowAfterMove
  rw [getD_set_self _ _ _ _ (by simpa using ht),
    getD_set_other _ _ _ _ _ hne]

/-- `rowAfterMove` leaves every other entry alone. -/
theorem rowAfterMove_other (nbr_p : Nat) (w : Rat) (p_src p_tgt p : Nat)
    (row : List Rat) (h1 : p ≠ p_src) (h2 : p ≠ p_tgt) :
    (rowAfterMove nbr_p w p_src p_tgt row).getD p 0 = row.getD p 0 := by
  unfold rowAfterMove
  rw [getD_set_other _ _ _ _ _ (fun h => h2 h.symm),
    getD_set_other _ _ _ _ _ (fun h => h1 h.symm)]

/-- `rowAfterMove` preserves the row length. -/
theorem rowAfterMove_length (nbr_p : Nat) (w : Rat) (p_src p_tgt : Nat)
    (row : List Rat) :
    (rowAfterMove nbr_p w p_src p_tgt row).length = row.length := by
  simp [rowAfterMove]

/-- `imbalances_after_move` preserves the matrix shape. -/
theorem imbalances_after_move_length (ws : List Rat) (p_src p_tgt nbr_p : Nat)
    (imbs : List (List Rat)) :
    (imbalances_after_move ws p_src p_tgt nbr_p imbs).length = imbs.length := by
  simp only [imbalances_after_move, List.length_append, List.length_zipWith,
    List.length_drop]
  omega

/-- C7.  For every normalized weight vector `ws`, distinct parts
`p_src ≠ p_tgt` and imbalance matrix (one row per criterion, all entries
in range): both `imbalances_after_move` and `ConstraintsImbalance.moved`
change row `c` by `−nbr_p·ws[c]` at `p_src` and `+nbr_p·ws[c]` at `p_tgt`
for every criterion `c`, and leave every other entry of the matrix
unchanged. -/
theorem imbalances_after_move_frame (ws : List Rat) (p_src p_tgt nbr_p : Nat)
    (imbs : List (List Rat))
    (hlen : ws.length = imbs.length) (hne : p_src ≠ p_tgt)
    (hrows : ∀ row ∈ imbs, p_src < row.length ∧ p_tgt < row.length) :
    (∀ c < imbs.length,
      ((imbalances_after_move ws p_src p_tgt nbr_p imbs).getD c []).getD p_src 0
          = (imbs.getD c []).getD p_src 0 - (nbr_p : Rat) * ws.getD c 0
      ∧ ((imbalances_after_move ws p_src p_tgt nbr_p imbs).getD c []).getD p_tgt 0
          = (imbs.getD c []).getD p_tgt 0 + (nbr_p : Rat) * ws.getD c 0
      ∧ ∀ p, p ≠ p_src → p ≠ p_tgt →
          ((imbalances_after_move ws p_src p_tgt nbr_p imbs).getD c []).getD p 0
            = (imbs.getD c []).getD p 0)
    ∧ ∀ ci : ConstraintsImbalance, ∀ i : Nat,
        ci.imbs = imbs → ci.nbr_p = nbr_p → ci.nwgts.getD i [] = ws →
        (ci.moved i p_src p_tgt).imbs =
          imbalances_after_move ws p_src p_tgt nbr_p imbs := by
  constructor
  · intro c hc
    have hrow := imbalances_after_move_getD ws p_src p_tgt nbr_p imbs hlen c hc
    have hmem : imbs.getD c [] ∈ imbs := by
      rw [List.getD_eq_getElem imbs [] hc]
      exact List.getElem_mem hc
    obtain ⟨hs, ht⟩ := hrows _ hmem
    refine ⟨?_, ?_, ?_⟩
    · rw [hrow]; exact rowAfterMove_src _ _ _ _ _ hne hs
    · rw [hrow]; exact rowAfterMove_tgt _ _ _ _ _ hne ht
    · intro p h1 h2
      rw [hrow]; exact rowAfterMove_other _ _ _ _ _ _ h1 h2
  · intro ci i h1 h2 h3
    show imbalances_after_move (ci.nwgts.getD i []) p_src p_tgt ci.nbr_p ci.imbs
      = imbalances_after_move ws p_src p_tgt nbr_p imbs
    rw [h1, h2, h3]

/-- Witness for `imbalances_after_move_frame` at a concrete input:
one criterion, `nbr_p = 2`, moving weight `1/4` from part `0` to part `1`
on the matrix `[[1/2, -1/2]]`. -/
theorem imbalances_after_move_frame_witness :
    ([(1:Rat)/4] : List Rat).length = ([[(1:Rat)/2, -(1:Rat)/2]] : List (List Rat)).length
    ∧ ((imbalances_after_move [(1:Rat)/4] 0 1 2 [[(1:Rat)/2, -(1:Rat)/2]]).getD 0 []).getD 0 0
      = (([[(1:Rat)/2, -(1:Rat)/2]] : List (List Rat)).getD 0 []).getD 0 0 - (2 : Rat) * ((1:Rat)/4) := by
  constructor
  · decide
  · have h := (imbalances_after_move_frame [(1:Rat)/4] 0 1 2 [[(1:Rat)/2, -(1:Rat)/2]]
      (by decide) (by decide) (by decide)).1 0 (by decide)
    rw [h.1]
    norm_num

/-! ## Weight models and coarsening
(`src/models/weights.py`, `src/models/nweights.py`, `src/models/eweights.py`) -/

/-- A weights model (src/models/weights.py module docstring): a matrix
`weights[i][c]` plus per-criterion `totals[c]`. -/
structure WeightsModel where
  nbr_n : Nat
  nbr_c : Nat
  weights : List (List Int)
  totals : List Int
deriving DecidableEq, Repr

/-- Column sum of a weights matrix: `Σ_i m[i][c]`. -/
def colSum (c : Nat) (m : List (List Int)) : Int :=
  (m.map (fun r => r.getD c 0)).sum

/-- The accumulation loop of `coarsen_NWeights` (src/models/nweights.py
lines 202-204): `for i, i_ in enumerate(aggregation): for c in
range(nbr_c): nwgts_[i_][c] += nwgts[i][c]`, walking the pairs
`(aggregation[i], nwgts[i])`. -/
def coarsenNWGo : List (Nat × List Int) → List (List Int) → List (List Int)
  | [], m => m
  | (i_, w) :: rest, m =>
    coarsenNWGo rest (m.set i_ (List.zipWith (· + ·) (m.getD i_ []) w))

/-- `coarsen_NWeights` (src/models/nweights.py lines 194-212): the coarse
vertex count is `len(set(aggregation))`, each fine row is added into the
row of its coarse image, and — exactly as in the source — the `totals`
field of the coarse model is copied from the *fine* model. -/
def coarsen_NWeights (fine : WeightsModel) (aggr : List Nat) : WeightsModel :=
  let nbr_n_ := aggr.dedup.length
  { nbr_n := nbr_n_
    nbr_c := fine.nbr_c
    weights := coarsenNWGo (aggr.zip fine.weights)
      (List.replicate nbr_n_ (List.replicate fine.nbr_c 0))
    totals := fine.totals }

/-- The edge loop of `coarsen_EWeights` (src/models/eweights.py lines
138-147), on the enumerated edge list `(e, u, v)`.  The accumulator holds
the coarse matrix `ewgts_` and the running `tots_`.  A fine edge whose
endpoints aggregate to the same coarse vertex is skipped (its weight is
dropped); otherwise the coarse slot is found through the coarse adjacency
`nodes_[i]` and the weight row is added there and into `tots_`.  Every
Python `IndexError` / `StopIteration` site is a `none`. -/
def coarsenEWGo (ewgts : List (List Int)) (aggr : List Nat)
    (nodes_ : List (List Nat × List Nat)) (nbr_c : Nat) :
    List (Nat × Nat × Nat) → List (List Int) × List Int →
      Option (List (List Int) × List Int)
  | [], acc => some acc
  | (e, u, v) :: rest, (m, t) =>
    match aggr[u]?, aggr[v]? with
    | some i, some j =>
      if i = j then coarsenEWGo ewgts aggr nodes_ nbr_c rest (m, t)
      else
        match nodes_[i]? with
        | some nd =>
          match nd.1.findIdx? (fun j_ => j_ = j) with
          | some f =>
            match nd.2[f]?, ewgts[e]? with
            | some e_, some w =>
              if e_ < m.length ∧ nbr_c ≤ w.length then
                coarsenEWGo ewgts aggr nodes_ nbr_c rest
                  (m.set e_ (List.zipWith (· + ·) (m.getD e_ []) w),
                   List.zipWith (· + ·) t w)
              else none
            | _, _ => none
          | none => none
        | none => none
    | _, _ => none

/-- Enumerated edges `(e, u, v)`, mirroring `enumerate(edges)` starting
at index `k`. -/
def enumEdgesFrom (k : Nat) : List (Nat × Nat) → List (Nat × Nat × Nat)
  | [] => []
  | (u, v) :: rest => (k, u, v) :: enumEdgesFrom (k + 1) rest

/-- `coarsen_EWeights` (src/models/eweights.py lines 125-155): runs the
edge loop from a zero matrix of `nbr_e_` rows, and assembles the coarse
model.  Exactly as in the source, the computed `tots_` is *discarded* and
the coarse model's `totals` field keeps the fine totals (the pair returned
alongside the model is the unused `tots_`, kept so the slip is visible). -/
def coarsen_EWeights (fine : WeightsModel) (edges : List (Nat × Nat))
    (aggr : List Nat) (nbr_e_ : Nat) (nodes_ : List (List Nat × List Nat)) :
    Option (WeightsModel × List Int) :=
  (coarsenEWGo fine.weights aggr nodes_ fine.nbr_c (enumEdgesFrom 0 edges)
      (List.replicate nbr_e_ (List.replicate fine.nbr_c 0),
       List.replicate fine.nbr_c 0)).map
    (fun mt =>
      ({ nbr_n := nbr_e_
         nbr_c := fine.nbr_c
         weights := mt.1
         totals := fine.totals }, mt.2))

/-! ## Partitions, the trivial partitioner, matching, prolongation
(`src/models/partition.py`, `src/algos/direct_algos/all_in_one_part.py`,
`src/operators/aggregate.py`, `src/operators/prolong.py`) -/

/-- A partition model (src/models/partition.py): `nbr_n` is
`len(parts)`. -/
structure PartitionModel where
  nbr_p : Nat
  parts : List Nat
deriving DecidableEq, Repr

/-- `init_Partition_from_args` (src/models/partition.py lines 20-36). -/
def init_Partition_from_args (nbr_p : Option Nat) (parts : List Nat) :
    PartitionModel :=
  { nbr_p := nbr_p.getD parts.dedup.length, parts := parts }

/-- `all_in_one_part` (src/algos/direct_algos/all_in_one_part.py lines
15-47): `parts = [part] * nbr_n`. -/
def all_in_one_part (nbr_p : Nat) (nbr_n : Nat) (part : Nat) :
    PartitionModel :=
  init_Partition_from_args (some nbr_p) (List.replicate nbr_n part)

/-- The loop of `match_first` (src/operators/aggregate.py lines 26-33)
over the `zip(order, nodes)` pairs: an unmatched vertex `i` pairs with its
first unmatched neighbour `j` allowed by the restrictions, and both
receive the next coarse index `n_`. -/
def matchFirstGo (allowed : Nat × Nat → Bool) :
    List (Nat × (List Nat × List Nat)) → List (Option Nat) → Nat →
      List (Option Nat) × Nat
  | [], matching, n_ => (matching, n_)
  | (i, nd) :: rest, matching, n_ =>
    if (matching.getD i none).isSome then
      matchFirstGo allowed rest matching n_
    else
      let matching1 :=
        match nd.1.find? (fun j =>
            (matching.getD j none).isNone && allowed (i, j)) with
        | some j => matching.set j (some n_)
        | none => matching
      matchFirstGo allowed rest (matching1.set i (some n_)) (n_ + 1)

/-- `match_first` (src/operators/aggregate.py lines 18-35).  Also returns
the final coarse-vertex counter `n_`. -/
def match_first (nbr_n : Nat) (nodes : List (List Nat × List Nat))
    (order : List Nat) (allowed : Nat × Nat → Bool) :
    List (Option Nat) × Nat :=
  matchFirstGo allowed (order.zip nodes) (List.replicate nbr_n none) 0

/-- One level of the multilevel stack, as `prolong_same_part` sees it:
the lead topology's vertex count and the partition assigned to the level
(if any). -/
structure ModelsLevel where
  nbr_n : Nat
  partition : Option PartitionModel

/-- `prolong_same_part` (src/operators/prolong.py lines 11-45): pop the
top aggregation and the top (coarse) model set, read the coarse partition,
assign `parts_fine[i] = parts_coarse[aggregation[i]]` for every fine
vertex `i` of the new top level, and store the result as that level's
partition.  Missing stack levels or a missing coarse partition are
`none`. -/
def prolong_same_part (l_models : List ModelsLevel)
    (l_aggr : List (List Nat)) :
    Option (List ModelsLevel × List (List Nat)) := do
  let aggr ← l_aggr.getLast?
  let c ← l_models.getLast?
  let lm := l_models.dropLast
  let la := l_aggr.dropLast
  let cpart ← c.partition
  let f ← lm.getLast?
  let parts := (List.range f.nbr_n).map
    (fun i => cpart.parts.getD (aggr.getD i 0) 0)
  pure (lm.dropLast ++
    [{ f with partition := some (init_Partition_from_args (some cpart.nbr_p) parts) }], la)

/-! ### Mass-conservation lemmas for coarsening -/

/-- Pointwise reading of `zipWith (+)` on equal-length lists. -/
theorem zipWith_add_getD_eq (a b : List Int) (h : a.length = b.length)
    (c : Nat) :
    (List.zipWith (· + ·) a b).getD c 0 = a.getD c 0 + b.getD c 0 := by
  induction a generalizing b c with
  | nil => cases b with
    | nil => simp [List.getD]
    | cons y ys => simp at h
  | cons x xs ih =>
    cases b with
    | nil => simp at h
    | cons y ys =>
      cases c with
      | zero => simp [List.getD]
      | succ c' =>
        simp only [List.zipWith, List.getD, List.getElem?_cons_succ]
        exact ih ys (by simpa using h) c'

/-- Pointwise reading of `zipWith (+)` when the right list is at least as
long and the index hits the left list. -/
theorem zipWith_add_getD_le (a b : List Int) (h : a.length ≤ b.length)
    (c : Nat) (hc : c < a.length) :
    (List.zipWith (· + ·) a b).getD c 0 = a.getD c 0 + b.getD c 0 := by
  induction a generalizing b c with
  | nil => simp at hc
  | cons x xs ih =>
    cases b with
    | nil => simp at h
    | cons y ys =>
      cases c with
      | zero => simp [List.getD]
      | succ c' =>
        simp only [List.zipWith, List.getD, List.getElem?_cons_succ]
        exact ih ys (by simpa using h) c' (by simpa using hc)

/-- Effect of `List.set` on a column sum. -/
theorem colSum_set (c : Nat) (m : List (List Int)) (i : Nat) (r : List Int)
    (hi : i < m.length) :
    colSum c (m.set i r) = colSum c m - (m.getD i []).getD c 0 + r.getD c 0 := by
  induction m generalizing i with
  | nil => simp at hi
  | cons row rows ih =>
    cases i with
    | zero => simp [colSum, List.getD]; ring
    | succ i' =>
      have hi' : i' < rows.length := by simpa using hi
      show colSum c (row :: rows.set i' r) = _
      have hcons : ∀ (x : List Int) (xs : List (List Int)),
          colSum c (x :: xs) = x.getD c 0 + colSum c xs := by
        intro x xs; simp [colSum]
      rw [hcons, hcons, ih i' hi']
      rw [show ((row :: rows).getD (i' + 1) []) = rows.getD i' [] from rfl]
      ring

/-- Row lengths are preserved by one add-into-row step. -/
theorem setAdd_rowlen (nbr_c : Nat) (m : List (List Int)) (i_ : Nat)
    (w : List Int) (hm : ∀ row ∈ m, row.length = nbr_c)
    (hw : nbr_c ≤ w.length) :
    ∀ row ∈ m.set i_ (List.zipWith (· + ·) (m.getD i_ []) w),
      row.length = nbr_c := by
  by_cases hi : i_ < m.length
  · intro row hrow
    rcases List.mem_or_eq_of_mem_set hrow with h | h
    · exact hm row h
    · subst h
      rw [List.length_zipWith]
      have : (m.getD i_ []) ∈ m := by
        rw [List.getD_eq_getElem m [] hi]; exact List.getElem_mem hi
      rw [hm _ this]; omega
  · rw [set_getD_out m i_ _ (by omega)]
    exact hm

/-- Column-sum effect of one add-into-row step. -/
theorem setAdd_colSum (nbr_c c : Nat) (m : List (List Int)) (i_ : Nat)
    (w : List Int) (hm : ∀ row ∈ m, row.length = nbr_c)
    (hw : nbr_c ≤ w.length) (hi : i_ < m.length) (hc : c < nbr_c) :
    colSum c (m.set i_ (List.zipWith (· + ·) (m.getD i_ []) w))
      = colSum c m + w.getD c 0 := by
  have hrowmem : (m.getD i_ []) ∈ m := by
    rw [List.getD_eq_getElem m [] hi]; exact List.getElem_mem hi
  have hrowlen : (m.getD i_ []).length = nbr_c := hm _ hrowmem
  rw [colSum_set c m i_ _ hi,
    zipWith_add_getD_le _ _ (by omega) c (by omega)]
  ring

/-- Row lengths are preserved by the `coarsen_NWeights` accumulation. -/
theorem coarsenNWGo_rowlen (nbr_c : Nat) :
    ∀ (l : List (Nat × List Int)) (m : List (List Int)),
      (∀ row ∈ m, row.length = nbr_c) → (∀ p ∈ l, p.2.length = nbr_c) →
      (∀ row ∈ coarsenNWGo l m, row.length = nbr_c)
      ∧ (coarsenNWGo l m).length = m.length := by
  intro l
  induction l with
  | nil => intro m hm _; exact ⟨hm, rfl⟩
  | cons p rest ih =>
    intro m hm hl
    obtain ⟨i_, w⟩ := p
    have hw : w.length = nbr_c := hl (i_, w) (List.mem_cons_self _ _)
    have hm' := setAdd_rowlen nbr_c m i_ w hm (by omega)
    have := ih (m.set i_ (List.zipWith (· + ·) (m.getD i_ []) w)) hm'
      (fun p hp => hl p (List.mem_cons_of_mem _ hp))
    refine ⟨this.1, ?_⟩
    rw [show coarsenNWGo ((i_, w) :: rest) m
        = coarsenNWGo rest (m.set i_ (List.zipWith (· + ·) (m.getD i_ []) w)) from rfl,
      this.2, List.length_set]

/-- Column-sum effect of the full `coarsen_NWeights` accumulation. -/
theorem coarsenNWGo_colSum (nbr_c c : Nat) (hc : c < nbr_c) :
    ∀ (l : List (Nat × List Int)) (m : List (List Int)),
      (∀ row ∈ m, row.length = nbr_c) →
      (∀ p ∈ l, p.2.length = nbr_c ∧ p.1 < m.length) →
      colSum c (coarsenNWGo l m)
        = colSum c m + (l.map (fun p => p.2.getD c 0)).sum := by
  intro l
  induction l with
  | nil => intro m _ _; simp [coarsenNWGo]
  | cons p rest ih =>
    intro m hm hl
    obtain ⟨i_, w⟩ := p
    have hw : w.length = nbr_c := (hl (i_, w) (List.mem_cons_self _ _)).1
    have hi : i_ < m.length := (hl (i_, w) (List.mem_cons_self _ _)).2
    have hm' := setAdd_rowlen nbr_c m i_ w hm (by omega)
    have hlen' : (m.set i_ (List.zipWith (· + ·) (m.getD i_ []) w)).length
        = m.length := List.length_set ..
    rw [show coarsenNWGo ((i_, w) :: rest) m
        = coarsenNWGo rest (m.set i_ (List.zipWith (· + ·) (m.getD i_ []) w)) from rfl,
      ih _ hm' (fun q hq => ⟨(hl q (List.mem_cons_of_mem _ hq)).1,
        by rw [hlen']; exact (hl q (List.mem_cons_of_mem _ hq)).2⟩),
      setAdd_colSum nbr_c c m i_ w hm (by omega) hi hc]
    simp
    ring

/-- Summing the second components of `zip aggr wgts` column-wise equals
the fine column sum. -/
theorem zip_snd_colSum (c : Nat) :
    ∀ (aggr : List Nat) (wgts : List (List Int)),
      aggr.length = wgts.length →
      ((aggr.zip wgts).map (fun p => p.2.getD c 0)).sum = colSum c wgts := by
  intro aggr
  induction aggr with
  | nil =>
    intro wgts h
    cases wgts with
    | nil => simp [colSum]
    | cons _ _ => simp at h
  | cons a rest ih =>
    intro wgts h
    cases wgts with
    | nil => simp at h
    | cons w ws =>
      rw [List.zip_cons_cons, List.map_cons, List.sum_cons,
        ih ws (by simpa using h)]
      simp [colSum]

/-- Reading any position of a constant list with the same default. -/
theorem getD_replicate_self {α : Type} (a : α) :
    ∀ (k c : Nat), (List.replicate k a).getD c a = a := by
  intro k
  induction k with
  | zero => intro c; simp [List.getD]
  | succ k ih =>
    intro c
    cases c with
    | zero => simp [List.replicate, List.getD]
    | succ c' =>
      simp only [List.replicate, List.getD, List.getElem?_cons_succ]
      exact ih c'

/-- Column sum of a zero matrix. -/
theorem colSum_replicate_zero (c n k : Nat) :
    colSum c (List.replicate n (List.replicate k (0 : Int))) = 0 := by
  induction n with
  | zero => simp [colSum]
  | succ n ih =>
    simp only [List.replicate, colSum, List.map, List.sum_cons] at ih ⊢
    rw [ih]
    simp [getD_replicate_self]

/-- Column-sum effect of the `coarsen_EWeights` edge loop: when it
succeeds, the coarse column sum grows by exactly the weights of the
non-collapsed edges; the weight of every collapsed edge is dropped. -/
theorem coarsenEWGo_colSum (ewgts : List (List Int)) (aggr : List Nat)
    (nodes_ : List (List Nat × List Nat)) (nbr_c c : Nat) (hc : c < nbr_c) :
    ∀ (l : List (Nat × Nat × Nat)) (m : List (List Int)) (t : List Int)
      (m' : List (List Int)) (t' : List Int),
      coarsenEWGo ewgts aggr nodes_ nbr_c l (m, t) = some (m', t') →
      (∀ row ∈ m, row.length = nbr_c) →
      colSum c m' = colSum c m
        + (l.map (fun evu =>
            if aggr.getD evu.2.1 0 ≠ aggr.getD evu.2.2 0
            then (ewgts.getD evu.1 []).getD c 0 else 0)).sum := by
  intro l
  induction l with
  | nil =>
    intro m t m' t' hgo _
    simp only [coarsenEWGo, Option.some.injEq, Prod.mk.injEq] at hgo
    rw [← hgo.1]
    simp
  | cons evu rest ih =>
    intro m t m' t' hgo hm
    obtain ⟨e, u, v⟩ := evu
    cases hu : aggr[u]? with
    | none => simp [coarsenEWGo, hu] at hgo
    | some i =>
      cases hv : aggr[v]? with
      | none => simp [coarsenEWGo, hu, hv] at hgo
      | some j =>
        have hgu : aggr.getD u 0 = i := by simp [List.getD, hu]
        have hgv : aggr.getD v 0 = j := by simp [List.getD, hv]
        by_cases hij : i = j
        · have hrec : coarsenEWGo ewgts aggr nodes_ nbr_c rest (m, t)
              = some (m', t') := by
            simpa [coarsenEWGo, hu, hv, hij] using hgo
          rw [ih m t m' t' hrec hm]
          have hcond : ¬ (aggr.getD u 0 ≠ aggr.getD v 0) := by
            rw [hgu, hgv, hij]; simp
          simp only [List.map_cons, List.sum_cons]
          rw [if_neg hcond]
          ring
        · cases hnd : nodes_[i]? with
          | none => simp [coarsenEWGo, hu, hv, hij, hnd] at hgo
          | some nd =>
            cases hf : nd.1.findIdx? (fun j_ => j_ = j) with
            | none => simp [coarsenEWGo, hu, hv, hij, hnd, hf] at hgo
            | some f =>
              cases he : nd.2[f]? with
              | none => simp [coarsenEWGo, hu, hv, hij, hnd, hf, he] at hgo
              | some e_ =>
                cases hw : ewgts[e]? with
                | none => simp [coarsenEWGo, hu, hv, hij, hnd, hf, he, hw] at hgo
                | some w =>
                  by_cases hguard : e_ < m.length ∧ nbr_c ≤ w.length
                  · have hrec : coarsenEWGo ewgts aggr nodes_ nbr_c rest
                        (m.set e_ (List.zipWith (· + ·) (m.getD e_ []) w),
                         List.zipWith (· + ·) t w) = some (m', t') := by
                      simpa [coarsenEWGo, hu, hv, hij, hnd, hf, he, hw, hguard]
                        using hgo
                    have hm1 := setAdd_rowlen nbr_c m e_ w hm hguard.2
                    rw [ih _ _ _ _ hrec hm1,
                      setAdd_colSum nbr_c c m e_ w hm hguard.2 hguard.1 hc]
                    have hcond : aggr.getD u 0 ≠ aggr.getD v 0 := by
                      rw [hgu, hgv]; exact hij
                    have hwe : (ewgts.getD e []) = w := by simp [List.getD, hw]
                    simp only [List.map_cons, List.sum_cons]
                    rw [if_pos hcond, hwe]
                    ring
                  · simp [coarsenEWGo, hu, hv, hij, hnd, hf, he, hw, hguard] at hgo

/-- Splitting a `drop` that produced a cons cell. -/
theorem drop_eq_cons_getD {α : Type} :
    ∀ (l : List α) (k : Nat) (h : α) (t : List α) (d : α),
      l.drop k = h :: t → l.getD k d = h ∧ l.drop (k + 1) = t := by
  intro l
  induction l with
  | nil => intro k h t d hd; simp at hd
  | cons x xs ih =>
    intro k h t d hd
    cases k with
    | zero =>
      simp only [List.drop] at hd
      cases hd
      exact ⟨rfl, by simp [List.drop]⟩
    | succ k' =>
      simp only [List.drop] at hd
      have := ih k' h t d hd
      exact ⟨this.1, this.2⟩

/-- Summing the per-edge weights over the enumerated edges, when no edge
collapses, gives the fine column sum. -/
theorem enumEdgesFrom_sum (aggr : List Nat) (ewgts : List (List Int)) (c : Nat) :
    ∀ (edges : List (Nat × Nat)) (k : Nat) (tail : List (List Int)),
      ewgts.drop k = tail → edges.length = tail.length →
      (∀ p ∈ edges, aggr.getD p.1 0 ≠ aggr.getD p.2 0) →
      ((enumEdgesFrom k edges).map (fun evu =>
          if aggr.getD evu.2.1 0 ≠ aggr.getD evu.2.2 0
          then (ewgts.getD evu.1 []).getD c 0 else 0)).sum = colSum c tail := by
  intro edges
  induction edges with
  | nil =>
    intro k tail hdrop hlen _
    cases tail with
    | nil => simp [enumEdgesFrom, colSum]
    | cons _ _ => simp at hlen
  | cons p rest ih =>
    intro k tail hdrop hlen hnc
    obtain ⟨u, v⟩ := p
    cases tail with
    | nil => simp at hlen
    | cons w ws =>
      obtain ⟨hget, hdrop'⟩ := drop_eq_cons_getD ewgts k w ws [] hdrop
      have hcond : aggr.getD u 0 ≠ aggr.getD v 0 :=
        hnc (u, v) (List.mem_cons_self _ _)
      show ((if aggr.getD u 0 ≠ aggr.getD v 0
          then (ewgts.getD k []).getD c 0 else 0)
          :: (enumEdgesFrom (k + 1) rest).map _).sum = _
      rw [List.sum_cons, if_pos hcond, hget,
        ih (k + 1) ws hdrop' (by simpa using hlen)
          (fun q hq => hnc q (List.mem_cons_of_mem _ hq))]
      simp [colSum]

/-- C3 (counterexample).  Coarsening the edge weights of the one-edge
graph `0 – 1` (weight 1) with the collapsing aggregation `[0, 0]` drops
the edge: the coarse matrix is empty (column sum `0`), while the stored
`totals` field — copied from the fine model — still says `1`, which is
also the fine column sum.  Both equalities claimed by C3 fail. -/
theorem coarsen_eweights_counterexample :
    coarsen_EWeights ⟨1, 1, [[1]], [1]⟩ [(0, 1)] [0, 0] 0 [([], [])]
      = some (⟨0, 1, [], [1]⟩, [0])
    ∧ (⟨0, 1, [], [1]⟩ : WeightsModel).totals.getD 0 0 = 1
    ∧ colSum 0 (⟨0, 1, [], [1]⟩ : WeightsModel).weights = 0
    ∧ colSum 0 ([[1]] : List (List Int)) = 1 := by
  refine ⟨rfl, by decide, by decide, by decide⟩

/-- C3 (amended).  After `coarsen_NWeights`, for every aggregation (with
in-range images) the coarse column sums equal the fine column sums and the
stored totals stay consistent; after `coarsen_EWeights` the same holds
*provided no edge collapses* (both endpoints aggregated together) — a
collapsed edge's weight is dropped from the coarse matrix while the stored
`totals` keeps the fine value, breaking both equalities. -/
theorem coarsen_weights_mass :
    (∀ (fine : WeightsModel) (aggr : List Nat),
      (∀ row ∈ fine.weights, row.length = fine.nbr_c) →
      aggr.length = fine.weights.length →
      (∀ a ∈ aggr, a < aggr.dedup.length) →
      ∀ c, c < fine.nbr_c →
        colSum c (coarsen_NWeights fine aggr).weights = colSum c fine.weights
        ∧ (fine.totals.getD c 0 = colSum c fine.weights →
            (coarsen_NWeights fine aggr).totals.getD c 0
              = colSum c (coarsen_NWeights fine aggr).weights))
    ∧ (∀ (fine : WeightsModel) (edges : List (Nat × Nat)) (aggr : List Nat)
        (nbr_e_ : Nat) (nodes_ : List (List Nat × List Nat))
        (cm : WeightsModel) (tots_ : List Int),
        coarsen_EWeights fine edges aggr nbr_e_ nodes_ = some (cm, tots_) →
        edges.length = fine.weights.length →
        (∀ p ∈ edges, aggr.getD p.1 0 ≠ aggr.getD p.2 0) →
        ∀ c, c < fine.nbr_c →
          colSum c cm.weights = colSum c fine.weights
          ∧ (fine.totals.getD c 0 = colSum c fine.weights →
              cm.totals.getD c 0 = colSum c cm.weights)) := by
  constructor
  · intro fine aggr hrows hlen hran c hc
    have hzrows : ∀ row ∈ List.replicate aggr.dedup.length
        (List.replicate fine.nbr_c (0 : Int)), row.length = fine.nbr_c := by
      intro row hrow
      rw [List.eq_of_mem_replicate hrow]
      simp
    have hpairs : ∀ p ∈ aggr.zip fine.weights, p.2.length = fine.nbr_c
        ∧ p.1 < (List.replicate aggr.dedup.length
            (List.replicate fine.nbr_c (0 : Int))).length := by
      intro p hp
      have hmem := List.of_mem_zip hp
      refine ⟨hrows _ hmem.2, ?_⟩
      rw [List.length_replicate]
      exact hran _ hmem.1
    have hgo := coarsenNWGo_colSum fine.nbr_c c hc (aggr.zip fine.weights)
      _ hzrows hpairs
    have hsum := zip_snd_colSum c aggr fine.weights hlen
    have hmain : colSum c (coarsen_NWeights fine aggr).weights
        = colSum c fine.weights := by
      show colSum c (coarsenNWGo (aggr.zip fine.weights) _) = _
      rw [hgo, colSum_replicate_zero, hsum]
      ring
    exact ⟨hmain, fun htot => by
      show fine.totals.getD c 0 = _
      rw [htot, hmain]⟩
  · intro fine edges aggr nbr_e_ nodes_ cm tots_ hcoarse hlen hnc c hc
    unfold coarsen_EWeights at hcoarse
    rcases hgo : coarsenEWGo fine.weights aggr nodes_ fine.nbr_c
        (enumEdgesFrom 0 edges)
        (List.replicate nbr_e_ (List.replicate fine.nbr_c 0),
         List.replicate fine.nbr_c 0) with _ | ⟨m1, t1⟩
    · rw [hgo] at hcoarse; simp at hcoarse
    · rw [hgo] at hcoarse
      simp only [Option.map_some', Option.some.injEq, Prod.mk.injEq] at hcoarse
      have hw : cm.weights = m1 := by rw [← hcoarse.1]
      have ht : cm.totals = fine.totals := by rw [← hcoarse.1]
      have hzrows : ∀ row ∈ List.replicate nbr_e_
          (List.replicate fine.nbr_c (0 : Int)), row.length = fine.nbr_c := by
        intro row hrow
        rw [List.eq_of_mem_replicate hrow]
        simp
      have hcs := coarsenEWGo_colSum fine.weights aggr nodes_ fine.nbr_c c hc
        (enumEdgesFrom 0 edges) _ _ m1 t1 hgo hzrows
      have hsum := enumEdgesFrom_sum aggr fine.weights c edges 0 fine.weights
        (by simp) hlen hnc
      have hmain : colSum c cm.weights = colSum c fine.weights := by
        rw [hw, hcs, colSum_replicate_zero, hsum]
        ring
      exact ⟨hmain, fun htot => by rw [ht, htot, hmain]⟩

/-- Witness for `coarsen_weights_mass` at concrete inputs: vertex weights
`[[2], [3]]` aggregated by `[0, 0]` conserve the column sum, and the edge
weight `[[5]]` of the single edge `0 – 1` coarsened by the identity
aggregation `[0, 1]` (no collapse) conserves it as well. -/
theorem coarsen_weights_mass_witness :
    colSum 0 (coarsen_NWeights ⟨2, 1, [[2], [3]], [5]⟩ [0, 0]).weights
      = colSum 0 [[2], [3]]
    ∧ colSum 0 (⟨1, 1, [[5]], [5]⟩ : WeightsModel).weights = colSum 0 [[5]] := by
  constructor
  · exact ((coarsen_weights_mass.1 ⟨2, 1, [[2], [3]], [5]⟩ [0, 0]
      (by decide) (by decide) (by decide) 0 (by decide)).1)
  · exact (coarsen_weights_mass.2 ⟨1, 1, [[5]], [5]⟩ [(0, 1)] [0, 1] 1
      [([1], [0]), ([0], [0])] ⟨1, 1, [[5]], [5]⟩ [5] rfl (by decide)
      (by decide) 0 (by decide)).1

/-! ### Matching and prolongation lemmas -/

/-- Step equation: an already-matched vertex is skipped. -/
theorem matchFirstGo_cons_matched (allowed : Nat × Nat → Bool)
    (i : Nat) (nd : List Nat × List Nat)
    (rest : List (Nat × (List Nat × List Nat)))
    (matching : List (Option Nat)) (n_ : Nat)
    (h : (matching.getD i none).isSome) :
    matchFirstGo allowed ((i, nd) :: rest) matching n_
      = matchFirstGo allowed rest matching n_ := by
  conv_lhs => unfold matchFirstGo
  rw [if_pos h]

/-- Step equation: an unmatched vertex with no available neighbour is
aggregated alone. -/
theorem matchFirstGo_cons_alone (allowed : Nat × Nat → Bool)
    (i : Nat) (nd : List Nat × List Nat)
    (rest : List (Nat × (List Nat × List Nat)))
    (matching : List (Option Nat)) (n_ : Nat)
    (h : ¬ (matching.getD i none).isSome)
    (hf : nd.1.find? (fun j =>
        (matching.getD j none).isNone && allowed (i, j)) = none) :
    matchFirstGo allowed ((i, nd) :: rest) matching n_
      = matchFirstGo allowed rest (matching.set i (some n_)) (n_ + 1) := by
  conv_lhs => unfold matchFirstGo
  rw [if_neg h, hf]

/-- Step equation: an unmatched vertex pairs with its first available
neighbour. -/
theorem matchFirstGo_cons_pair (allowed : Nat × Nat → Bool)
    (i : Nat) (nd : List Nat × List Nat)
    (rest : List (Nat × (List Nat × List Nat)))
    (matching : List (Option Nat)) (n_ j : Nat)
    (h : ¬ (matching.getD i none).isSome)
    (hf : nd.1.find? (fun j =>
        (matching.getD j none).isNone && allowed (i, j)) = some j) :
    matchFirstGo allowed ((i, nd) :: rest) matching n_
      = matchFirstGo allowed rest
          ((matching.set j (some n_)).set i (some n_)) (n_ + 1) := by
  conv_lhs => unfold matchFirstGo
  rw [if_neg h, hf]

/-- The matching loop preserves the length of the matching array. -/
theorem matchFirstGo_length (allowed : Nat × Nat → Bool) :
    ∀ (l : List (Nat × (List Nat × List Nat))) (matching : List (Option Nat))
      (n_ : Nat),
      (matchFirstGo allowed l matching n_).1.length = matching.length := by
  intro l
  induction l with
  | nil => intro matching n_; rfl
  | cons p rest ih =>
    intro matching n_
    obtain ⟨i, nd⟩ := p
    by_cases h : (matching.getD i none).isSome
    · rw [matchFirstGo_cons_matched allowed i nd rest matching n_ h]
      exact ih matching n_
    · rcases hf : nd.1.find? (fun j =>
          (matching.getD j none).isNone && allowed (i, j)) with _ | j
      · rw [matchFirstGo_cons_alone allowed i nd rest matching n_ h hf, ih]
        simp
      · rw [matchFirstGo_cons_pair allowed i nd rest matching n_ j h hf, ih]
        simp

/-- Every coarse index produced by the matching loop is below the final
counter, and the counter never decreases. -/
theorem matchFirstGo_bound (allowed : Nat × Nat → Bool) :
    ∀ (l : List (Nat × (List Nat × List Nat))) (matching : List (Option Nat))
      (n_ : Nat),
      (∀ v : Nat, some v ∈ matching → v < n_) →
      (∀ v : Nat, some v ∈ (matchFirstGo allowed l matching n_).1 →
          v < (matchFirstGo allowed l matching n_).2)
      ∧ n_ ≤ (matchFirstGo allowed l matching n_).2 := by
  intro l
  induction l with
  | nil => intro matching n_ hm; exact ⟨hm, Nat.le_refl _⟩
  | cons p rest ih =>
    intro matching n_ hm
    obtain ⟨i, nd⟩ := p
    by_cases h : (matching.getD i none).isSome
    · rw [matchFirstGo_cons_matched allowed i nd rest matching n_ h]
      exact ih matching n_ hm
    · have hstep : ∀ (m1 : List (Option Nat)),
          (∀ v : Nat, some v ∈ m1 → v < n_ + 1) →
          (∀ v : Nat, some v ∈ (matchFirstGo allowed rest m1 (n_ + 1)).1 →
              v < (matchFirstGo allowed rest m1 (n_ + 1)).2)
          ∧ n_ ≤ (matchFirstGo allowed rest m1 (n_ + 1)).2 := by
        intro m1 hm1
        have := ih m1 (n_ + 1) hm1
        exact ⟨this.1, Nat.le_of_succ_le this.2⟩
      have hsetmem : ∀ (m : List (Option Nat)) (k : Nat),
          (∀ v : Nat, some v ∈ m → v < n_ + 1) →
          ∀ v : Nat, some v ∈ m.set k (some n_) → v < n_ + 1 := by
        intro m k hmem v hv
        rcases List.mem_or_eq_of_mem_set hv with hin | heq
        · exact hmem v hin
        · cases heq; omega
      have hm1 : ∀ v : Nat, some v ∈ matching → v < n_ + 1 := by
        intro v hv; exact Nat.lt_succ_of_lt (hm v hv)
      rcases hf : nd.1.find? (fun j =>
          (matching.getD j none).isNone && allowed (i, j)) with _ | j
      · rw [matchFirstGo_cons_alone allowed i nd rest matching n_ h hf]
        exact hstep _ (hsetmem matching i hm1)
      · rw [matchFirstGo_cons_pair allowed i nd rest matching n_ j h hf]
        exact hstep _ (hsetmem _ i (hsetmem matching j hm1))

/-- Every vertex that appears in the remaining order (or is already
matched) ends up matched. -/
theorem matchFirstGo_total (allowed : Nat × Nat → Bool) :
    ∀ (l : List (Nat × (List Nat × List Nat))) (matching : List (Option Nat))
      (n_ : Nat) (i : Nat),
      i < matching.length →
      ((matching.getD i none).isSome ∨ i ∈ l.map (·.1)) →
      (((matchFirstGo allowed l matching n_).1).getD i none).isSome := by
  intro l
  induction l with
  | nil =>
    intro matching n_ i _ hyp
    rcases hyp with hs | habs
    · exact hs
    · simp at habs
  | cons p rest ih =>
    intro matching n_ i hilen hyp
    obtain ⟨i0, nd⟩ := p
    by_cases h : (matching.getD i0 none).isSome
    · rw [matchFirstGo_cons_matched allowed i0 nd rest matching n_ h]
      refine ih matching n_ i hilen ?_
      rcases hyp with hs | hmem
      · exact Or.inl hs
      · have hsplit : i = i0 ∨ ∃ a b, (i, a, b) ∈ rest := by simpa using hmem
        rcases hsplit with heq | ⟨a, b, htl⟩
        · exact Or.inl (heq ▸ h)
        · refine Or.inr ?_
          simp only [List.mem_map]
          exact ⟨(i, a, b), htl, rfl⟩
    · -- i0 is unmatched: it receives `some n_` now
      have key : ∀ (m1 : List (Option Nat)), m1.length = matching.length →
          (∀ k : Nat, (matching.getD k none).isSome → (m1.getD k none).isSome) →
          (((matchFirstGo allowed rest (m1.set i0 (some n_)) (n_ + 1)).1).getD i
              none).isSome := by
        intro m1 hlen1 hpres
        refine ih _ (n_ + 1) i (by rw [List.length_set, hlen1]; exact hilen) ?_
        by_cases hi0 : i = i0
        · subst hi0
          left
          rw [getD_set_self _ _ _ _ (by rw [hlen1]; exact hilen)]
          rfl
        · rcases hyp with hs | hmem
          · left
            rw [getD_set_other _ _ _ _ _ (fun hh => hi0 hh.symm)]
            exact hpres i hs
          · have hsplit : i = i0 ∨ ∃ a b, (i, a, b) ∈ rest := by simpa using hmem
            rcases hsplit with heq | ⟨a, b, htl⟩
            · exact absurd heq hi0
            · refine Or.inr ?_
              simp only [List.mem_map]
              exact ⟨(i, a, b), htl, rfl⟩
      rcases hf : nd.1.find? (fun j =>
          (matching.getD j none).isNone && allowed (i0, j)) with _ | j
      · rw [matchFirstGo_cons_alone allowed i0 nd rest matching n_ h hf]
        exact key matching rfl (fun k hk => hk)
      · rw [matchFirstGo_cons_pair allowed i0 nd rest matching n_ j h hf]
        refine key (matching.set j (some n_)) (by simp) ?_
        intro k hk
        by_cases hkj : j = k
        · subst hkj
          by_cases hjlen : j < matching.length
          · rw [getD_set_self _ _ _ _ hjlen]; rfl
          · rw [set_getD_out _ _ _ (by omega)]; exact hk
        · rw [getD_set_other _ _ _ _ _ hkj]; exact hk

/-- Reading an in-range position of a constant list, any default. -/
theorem getD_replicate_of_lt {α : Type} (a d : α) :
    ∀ (k v : Nat), v < k → (List.replicate k a).getD v d = a := by
  intro k
  induction k with
  | zero => intro v hv; omega
  | succ k ih =>
    intro v hv
    cases v with
    | zero => simp [List.replicate, List.getD]
    | succ v' =>
      simp only [List.replicate, List.getD, List.getElem?_cons_succ]
      exact ih v' (by omega)

/-- C6.  `prolong_same_part` pops one level off the model and aggregation
stacks and assigns `parts_fine[i] = parts_coarse[aggregation[i]]` to every
fine vertex (first conjunct, an exact equation for the result).
Consequently — second conjunct — coarsening by `match_first` (identity
order), partitioning the coarse level by `all_in_one_part` with any part
`p` (the spec's scenario uses `p = 0`), and prolonging gives every fine
vertex the part of its coarse image, namely `p`. -/
theorem prolong_same_part_law :
    (∀ (pre : List ModelsLevel) (f c : ModelsLevel) (aggrs : List (List Nat))
      (aggr : List Nat) (cpart : PartitionModel),
      c.partition = some cpart →
      prolong_same_part (pre ++ [f, c]) (aggrs ++ [aggr])
        = some (pre ++ [{ f with partition := some ⟨cpart.nbr_p,
            (List.range f.nbr_n).map
              (fun i => cpart.parts.getD (aggr.getD i 0) 0)⟩ }], aggrs))
    ∧ (∀ (n : Nat) (nodes : List (List Nat × List Nat))
        (allowed : Nat × Nat → Bool) (p nbr_p : Nat),
        nodes.length = n →
        ∀ i, i < n →
          (all_in_one_part nbr_p (match_first n nodes (List.range n) allowed).2
              p).parts.getD
            (((match_first n nodes (List.range n) allowed).1.map
              (fun o => o.getD 0)).getD i 0) 0 = p) := by
  constructor
  · intro pre f c aggrs aggr cpart hc
    have h2 : (pre ++ [f, c]).getLast? = some c := by
      rw [show pre ++ [f, c] = (pre ++ [f]) ++ [c] by simp]
      simp
    have h3 : (pre ++ [f, c]).dropLast = pre ++ [f] := by
      rw [show pre ++ [f, c] = (pre ++ [f]) ++ [c] by simp]
      simp
    simp [prolong_same_part, h2, h3, hc, init_Partition_from_args]
  · intro n nodes allowed p nbr_p hnodes i hi
    have hlen1 : (match_first n nodes (List.range n) allowed).1.length = n := by
      show (matchFirstGo allowed _ _ _).1.length = n
      rw [matchFirstGo_length]
      simp
    have hsome : (((match_first n nodes (List.range n) allowed).1).getD i
        none).isSome := by
      show (((matchFirstGo allowed ((List.range n).zip nodes)
          (List.replicate n none) 0).1).getD i none).isSome
      refine matchFirstGo_total allowed _ _ _ i (by simp; exact hi) (Or.inr ?_)
      rw [List.map_fst_zip _ _ (by rw [hnodes]; simp)]
      exact List.mem_range.mpr hi
    have hbound := matchFirstGo_bound allowed ((List.range n).zip nodes)
      (List.replicate n none) 0
      (fun v hv => absurd (List.eq_of_mem_replicate hv) (by simp))
    rcases hio : (match_first n nodes (List.range n) allowed).1.get? i with _ | o
    · exfalso
      unfold List.getD at hsome
      rw [hio] at hsome
      simp at hsome
    · have hov : ∃ v, o = some v := by
        have : ((match_first n nodes (List.range n) allowed).1.getD i none)
            = o := by unfold List.getD; rw [hio]; rfl
        rcases o with _ | v
        · rw [this] at hsome; simp at hsome
        · exact ⟨v, rfl⟩
      obtain ⟨v, rfl⟩ := hov
      have hvlt : v < (match_first n nodes (List.range n) allowed).2 := by
        refine hbound.1 v ?_
        exact List.get?_mem hio
      have hmap : ((match_first n nodes (List.range n) allowed).1.map
          (fun o => o.getD 0)).getD i 0 = v := by
        unfold List.getD
        rw [List.get?_map, hio]
        rfl
      rw [hmap]
      show (List.replicate (match_first n nodes (List.range n) allowed).2
          p).getD v 0 = p
      exact getD_replicate_of_lt p 0 _ v hvlt

/-- Witness for `prolong_same_part_law`: a two-level stack whose coarse
partition is `[4, 7]` and aggregation `[0, 0, 1]`, giving fine parts
`[4, 4, 7]`; and the 2-vertex single-edge graph matched by `match_first`
with everything allowed, all-in-one part `5`, where fine vertex `0` gets
part `5`. -/
theorem prolong_same_part_law_witness :
    prolong_same_part
        [⟨3, none⟩, ⟨2, some ⟨2, [4, 7]⟩⟩] [[0, 0, 1]]
      = some ([⟨3, some ⟨2, [4, 4, 7]⟩⟩], [])
    ∧ (all_in_one_part 1 (match_first 2 [([1], [0]), ([0], [0])]
          (List.range 2) (fun _ => true)).2 5).parts.getD
        (((match_first 2 [([1], [0]), ([0], [0])] (List.range 2)
            (fun _ => true)).1.map (fun o => o.getD 0)).getD 0 0) 0 = 5 := by
  constructor
  · have h := prolong_same_part_law.1 [] ⟨3, none⟩ ⟨2, some ⟨2, [4, 7]⟩⟩ []
      [0, 0, 1] ⟨2, [4, 7]⟩ rfl
    simpa using h
  · exact prolong_same_part_law.2 2 [([1], [0]), ([0], [0])] (fun _ => true)
      5 1 rfl 0 (by decide)

/-! ## Fiduccia–Mattheyses machinery for the cut objective
(`src/algos/gain_tables/gain_table_cut.py`, `src/algos/refine_algos/fm_part.py`,
`src/algos/refine_algos/fm_fcts.py`)

The bipartition gain table on a graph is embedded in full.  The problem
data fixed over a run: -/

/-- Problem context of a graph FM run: vertex count, edge list, edge
weights (`eweights`, one row per edge), normalized vertex weights (the
`_normalized_nweights` model used by `ConstraintsImbalance`), and the
per-criterion tolerance vector. -/
structure FMCtx where
  n : Nat
  edges : List (Nat × Nat)
  ew : List (List Int)
  nwgtsN : List (List Rat)
  tols : List Rat
deriving DecidableEq, Repr

/-- The adjacency `graph["nodes"][i]` as `(neighbour, edge)` pairs,
derived canonically from the edge table (the loaders build `nodes` this
way: each edge `e = (u, v)` contributes `(v, e)` to `u`'s entry and
`(u, e)` to `v`'s, in edge order — see the worked example in
src/models/graph.py lines 28-52). -/
def nodesOf (edges : List (Nat × Nat)) (i : Nat) : List (Nat × Nat) :=
  edges.enum.filterMap (fun ep =>
    if ep.2.1 = i then some (ep.2.2, ep.1)
    else if ep.2.2 = i then some (ep.2.1, ep.1) else none)

/-- `gain__cut_lambda_minus_one__graph` (src/models/cut.py lines 63-76):
`old − new` where `old` sums the weights of `i`'s cut edges and `new`
those that would be cut after moving `i` to `p_tgt`. -/
def gainCut (edges : List (Nat × Nat)) (ew : List (List Int))
    (parts : List Nat) (i p_tgt : Nat) : Int :=
  ((nodesOf edges i).map (fun je =>
      if parts.getD je.1 0 ≠ parts.getD i 0 then (ew.getD je.2 []).getD 0 0 else 0)).sum
  - ((nodesOf edges i).map (fun je =>
      if parts.getD je.1 0 ≠ p_tgt then (ew.getD je.2 []).getD 0 0 else 0)).sum

/-- The graph cut as the gain table's `stats["obj_value"]` computes it
(`cut_lambda_minus_one` with the default criterion `0`). -/
def cutOf (ctx : FMCtx) (parts : List Nat) : Int :=
  cutGraphBranch ctx.edges ctx.ew parts 0

/-! ### The bucket table

`gain_table` is a `defaultdict(list)`: an insertion-ordered mapping from a
gain value to the list of vertices currently holding that gain. -/

/-- `gain_table[g]` (a `defaultdict`: missing keys read as `[]`). -/
def gtLookup (t : List (Int × List Nat)) (g : Int) : List Nat :=
  ((t.find? (fun kl => kl.1 = g)).map (fun kl => kl.2)).getD []

/-- `gain_table[g].append(v)` (creating the key at the end on first
access, as a `defaultdict` does). -/
def gtAppend (t : List (Int × List Nat)) (g : Int) (v : Nat) :
    List (Int × List Nat) :=
  if t.any (fun kl => kl.1 = g) then
    t.map (fun kl => if kl.1 = g then (kl.1, kl.2 ++ [v]) else kl)
  else t ++ [(g, [v])]

/-- `gain_table[g].remove(v)` (removes the first occurrence). -/
def gtRemove (t : List (Int × List Nat)) (g : Int) (v : Nat) :
    List (Int × List Nat) :=
  t.map (fun kl => if kl.1 = g then (kl.1, kl.2.erase v) else kl)

/-- `list(gain_table.keys())`. -/
def gtKeys (t : List (Int × List Nat)) : List Int := t.map (fun kl => kl.1)

/-- The recovery snapshot taken by `GainTableFMCutBipart.copy`
(src/algos/gain_tables/gain_table_cut.py lines 322-343): deep copies of
the per-vertex gains, the bucket table, the constraint state and the
partition. -/
structure GTSnap where
  gainNodes : List Int
  gainTable : List (Int × List Nat)
  constraints : ConstraintsImbalance
  parts : List Nat
deriving DecidableEq, Repr

/-- The live state of `GainTableFMCutBipart`. -/
structure GTState where
  gainNodes : List Int
  gainTable : List (Int × List Nat)
  constraints : ConstraintsImbalance
  parts : List Nat
  recovery : Option GTSnap
deriving DecidableEq, Repr

/-- `GainTableFMCutBipart.copy` (the new object's `recovery` is `None`;
here the snapshot type has no recovery field at all). -/
def gtCopy (s : GTState) : GTSnap :=
  ⟨s.gainNodes, s.gainTable, s.constraints, s.parts⟩

/-- The `stats` dictionary entries driving the FM loops
(src/algos/refine_algos/fm_part.py lines 66-73, plus
`last_obj_value` written by `stop__no_improvement`). -/
structure FMStats where
  obj : Int
  best : Int
  movesDone : Nat
  innerMovesDone : Nat
  innerMovesNeg : Nat
  innerMovesNegRow : Nat
  lastObj : Option Int
deriving DecidableEq, Repr

/-- `GainTableFMCutBipart.init_gains` (src/algos/gain_tables/
gain_table_cut.py lines 182-196): every vertex's gain of moving to the
other part, recorded in `gain_nodes` and the bucket table. -/
def initGainsBipart (ctx : FMCtx) (parts : List Nat) :
    List Int × List (Int × List Nat) :=
  (List.range ctx.n).foldl
    (fun gngt i =>
      let g := gainCut ctx.edges ctx.ew parts i (1 - parts.getD i 0)
      (gngt.1 ++ [g], gtAppend gngt.2 g i))
    ([], [])

/-- `imbalances` (src/models/imbalance.py lines 69-116):
`imb[c][p] = nbr_p * (pwgt_c_p / totals[c] − targets[c][p])`. -/
def imbalances (wgts : List (List Rat)) (parts : List Nat) (tots : List Rat)
    (targets : List (List Rat)) (nbr_p nbr_c : Nat) : List (List Rat) :=
  (List.range nbr_c).map (fun c =>
    (List.range nbr_p).map (fun p =>
      let pwgt := ((wgts.enum.filter (fun iw => parts.getD iw.1 0 = p)).map
        (fun iw => iw.2.getD c 0)).sum
      (nbr_p : Rat) * (pwgt / tots.getD c 0 - (targets.getD c []).getD p 0)))

/-- `init_even_targets` (src/models/imbalance.py lines 65-66). -/
def init_even_targets (nbr_p nbr_c : Nat) : List (List Rat) :=
  List.replicate nbr_c (List.replicate nbr_p (1 / (nbr_p : Rat)))

/-- `ConstraintsImbalance.__init__` on normalized weights (whose totals
are all `1`) and default even targets. -/
def constraintsInit (ctx : FMCtx) (parts : List Nat) (nbr_p nbr_c : Nat) :
    ConstraintsImbalance :=
  { nwgts := ctx.nwgtsN
    nbr_p := nbr_p
    tols := ctx.tols
    imbs := imbalances ctx.nwgtsN parts (List.replicate nbr_c 1)
      (init_even_targets nbr_p nbr_c) nbr_p nbr_c }

/-- Tie-breaking policies of the gain table (`break_ties__first` /
`break_ties__last`; the default is `last`). -/
inductive TieBreak where
  | first
  | last
deriving DecidableEq, Repr

/-- `break_ties__first` / `break_ties__last`
(src/algos/gain_tables/gain_table_cut.py lines 149-153). -/
def breakTies : TieBreak → List (Nat × Nat × Nat) → Option (Nat × Nat × Nat)
  | .first, l => l.head?
  | .last, l => l.getLast?

/-- `Python max()` over a list of gains. -/
def listMax : List Int → Option Int
  | [] => none
  | x :: xs => some (xs.foldl max x)

/-- The admissible candidates of one bucket:
`[(i, parts[i], 1-parts[i]) for i in gain_table[g] if not locks[i] and
can_move(i, parts[i], 1-parts[i], stats)]`. -/
def selectCandidates (s : GTState) (locks : List Bool) (g : Int) :
    List (Nat × Nat × Nat) :=
  (gtLookup s.gainTable g).filterMap (fun i =>
    if ¬ (locks.getD i false)
        ∧ s.constraints.can_move i (s.parts.getD i 0) (1 - s.parts.getD i 0)
          = true then
      some (i, s.parts.getD i 0, 1 - s.parts.getD i 0)
    else none)

/-- `select__best_valid` (src/algos/gain_tables/gain_table_cut.py lines
287-316, the `CLEAN_GAINS` branch): scan the key list from the maximum
downward until some bucket yields admissible candidates.  `none` stands
for returning an empty candidate list. -/
def selectBestValid (s : GTState) (locks : List Bool) :
    Nat → List Int → Option (Int × List (Nat × Nat × Nat))
  | 0, _ => none
  | fuel + 1, lg =>
    match listMax lg with
    | none => none
    | some g =>
      let l := selectCandidates s locks g
      if l.isEmpty then selectBestValid s locks fuel (lg.erase g)
      else some (g, l)

/-- `GainTableFMCutBipart.move` (src/algos/gain_tables/gain_table_cut.py
lines 223-281): select a move, possibly snapshot (`g < 0` and the
resulting objective strictly below the best), perform it, update the
moved vertex's and its neighbours' gains (`±2·w_e`), inform the
constraints, and update the statistics.  Returns the new state and
whether a move was made. -/
def fmMove (ctx : FMCtx) (tie : TieBreak) (s : GTState) (locks : List Bool)
    (st : FMStats) : GTState × List Bool × FMStats × Bool :=
  match selectBestValid s locks (gtKeys s.gainTable).length
      (gtKeys s.gainTable) with
  | none => (s, locks, st, false)
  | some (g, l) =>
    match breakTies tie l with
    | none => (s, locks, st, false)
    | some (i, p_src, p_tgt) =>
      let new_obj := st.obj - g
      let recbest :=
        if g < 0 ∧ new_obj < st.best then (some (gtCopy s), st.obj)
        else (s.recovery, st.best)
      let parts1 := s.parts.set i p_tgt
      let locks1 := locks.set i true
      let new_gains := (nodesOf ctx.edges i).foldl
        (fun acc je =>
          if acc.any (fun kv => kv.1 = je.1) then acc
          else acc ++ [(je.1,
            if parts1.getD je.1 0 = p_tgt then
              s.gainNodes.getD je.1 0 - 2 * (ctx.ew.getD je.2 []).getD 0 0
            else
              s.gainNodes.getD je.1 0 + 2 * (ctx.ew.getD je.2 []).getD 0 0)])
        [(i, -g)]
      let gngt := new_gains.foldl
        (fun (p : List Int × List (Int × List Nat)) kv =>
          let oldg := p.1.getD kv.1 0
          if oldg = kv.2 then p
          else (p.1.set kv.1 kv.2, gtAppend (gtRemove p.2 oldg kv.1) kv.2 kv.1))
        (s.gainNodes, s.gainTable)
      let cons1 := s.constraints.moved i p_src p_tgt
      let st1 : FMStats :=
        { st with
          obj := new_obj
          best := recbest.2
          movesDone := st.movesDone + 1
          innerMovesDone := st.innerMovesDone + 1
          innerMovesNeg := if g ≤ 0 then st.innerMovesNeg + 1
            else st.innerMovesNeg
          innerMovesNegRow := if g ≤ 0 then st.innerMovesNegRow + 1 else 0 }
      let s1 : GTState :=
        { gainNodes := gngt.1
          gainTable := gngt.2
          constraints := cons1
          parts := parts1
          recovery := recbest.1 }
      (s1, locks1, st1, true)

/-- `clean_gains` (src/algos/gain_tables/gain_table_cut.py lines
198-204): drop empty buckets. -/
def clean_gains (t : List (Int × List Nat)) : List (Int × List Nat) :=
  t.filter (fun kl => ¬ kl.2.isEmpty)

/-- `GainTableFMCut.recover_best` (src/algos/gain_tables/gain_table_cut.py
lines 162-177).  When the pass ended worse than the best, the snapshot —
if one exists — becomes the active state and partition and the objective
is reset to the best; with no snapshot the (worsened) live partition
simply stays in the models and the returned gain table is `None`.
Returns the (optional) gain table for the next pass, the active
partition, and the updated stats (`inner__moves_neg`,
`inner__moves_neg_row` reset; `inner__moves_done` untouched). -/
def recover_best (s : GTState) (st : FMStats) :
    Option GTState × List Nat × FMStats :=
  let s0 : GTState := { s with gainTable := clean_gains s.gainTable }
  if st.obj > st.best then
    let active := match s0.recovery with
      | some r => r.parts
      | none => s0.parts
    (s0.recovery.map (fun r =>
        { gainNodes := r.gainNodes, gainTable := r.gainTable,
          constraints := r.constraints, parts := r.parts, recovery := none }),
     active,
     { st with obj := st.best, innerMovesNeg := 0, innerMovesNegRow := 0 })
  else
    (some s0, s0.parts,
     { st with innerMovesNeg := 0, innerMovesNegRow := 0 })

/-- `stop__all_locked` (src/algos/refine_algos/fm_fcts.py lines 33-39):
the default inner stop consults the *never-reset* counter
`inner__moves_done` against the partition's vertex count. -/
def stop_all_locked (st : FMStats) (nbr_n : Nat) : Bool :=
  st.innerMovesDone ≥ nbr_n

/-- `stop__no_improvement` (src/algos/refine_algos/fm_fcts.py lines
13-26): stop when the previous pass's objective is not worse; always
records the current objective. -/
def stop_no_improvement (st : FMStats) : Bool × FMStats :=
  match st.lastObj with
  | none => (false, { st with lastObj := some st.obj })
  | some last => (decide (last ≤ st.obj), { st with lastObj := some st.obj })

/-- The FM inner loop (src/algos/refine_algos/fm_part.py lines 84-87)
with the default `all_locked` stop predicate, fuel-indexed. -/
def innerPass (ctx : FMCtx) (tie : TieBreak) :
    Nat → GTState → List Bool → FMStats → GTState × List Bool × FMStats
  | 0, s, locks, st => (s, locks, st)
  | fuel + 1, s, locks, st =>
    if stop_all_locked st ctx.n then (s, locks, st)
    else
      match fmMove ctx tie s locks st with
      | (s', locks', st', moved) =>
        if moved then innerPass ctx tie fuel s' locks' st'
        else (s', locks', st')

/-- The FM outer loop (src/algos/refine_algos/fm_part.py lines 82-88):
check `stop_outer`, run an inner pass on fresh locks, recover the best.
A recovery that returns `None` for the gain table makes the next pass
fail with `AttributeError`/`TypeError` on `None.move`, exactly as
`gt_obj = gt_obj.recover_best(stats)` can in the source. -/
def fmOuter (ctx : FMCtx) (tie : TieBreak) (innerFuel : Nat) :
    Nat → Option GTState → List Nat → FMStats →
      Except CrackErr (List Nat × FMStats)
  | 0, _, active, st => .ok (active, st)
  | fuel + 1, gtOpt, active, st =>
    match stop_no_improvement st with
    | (stop, st1) =>
      if stop then .ok (active, st1)
      else
        match gtOpt with
        | none => .error (.typeError "NoneType object has no attribute move")
        | some s =>
          match innerPass ctx tie innerFuel s (List.replicate ctx.n false) st1 with
          | (s1, _, st2) =>
            match recover_best s1 st2 with
            | (gt', active', st3) => fmOuter ctx tie innerFuel fuel gt' active' st3

/-- `fm_part` with the cut objective (src/algos/refine_algos/fm_part.py
lines 30-88 together with `GainTableFMCut.init`, lines 57-80 of
src/algos/gain_tables/gain_table_cut.py).  For `nbr_p = 2` the bipartition
gain table is built and the outer loop runs; for any other `nbr_p` the
dispatch instantiates `GainTableFMCutKPart`, a class that does not inherit
`GainTableFMCut` and defines no `__init__` (its body is a TODO), so
`gt_cls(models, records, algopt, stats)` raises
`TypeError: object() takes no parameters`. -/
def fm_part (ctx : FMCtx) (tie : TieBreak) (nbr_p : Nat) (parts0 : List Nat)
    (nbr_c : Nat) (outerFuel innerFuel : Nat) :
    Except CrackErr (List Nat × FMStats) :=
  if nbr_p = 2 then
    let gngt := initGainsBipart ctx parts0
    let s0 : GTState :=
      { gainNodes := gngt.1, gainTable := gngt.2,
        constraints := constraintsInit ctx parts0 nbr_p nbr_c,
        parts := parts0, recovery := none }
    let st0 : FMStats :=
      { obj := cutOf ctx parts0, best := cutOf ctx parts0,
        movesDone := 0, innerMovesDone := 0, innerMovesNeg := 0,
        innerMovesNegRow := 0, lastObj := none }
    fmOuter ctx tie innerFuel outerFuel (some s0) parts0 st0
  else
    .error (.typeError "object() takes no parameters")

/-! ### Concrete FM scenarios -/

/-- The single-edge graph `0 – 1` with unit weight, uniform vertex
weights and tolerance `1.0`. -/
def fmCtxEdge : FMCtx :=
  { n := 2, edges := [(0, 1)], ew := [[1]],
    nwgtsN := [[1/2], [1/2]], tols := [1] }

/-- The path `0 – 1 – 2 – 3 – 4` with unit weights, uniform vertex
weights and tolerance `1.0`. -/
def fmCtxPath5 : FMCtx :=
  { n := 5, edges := [(0, 1), (1, 2), (2, 3), (3, 4)],
    ew := [[1], [1], [1], [1]],
    nwgtsN := [[1/5], [1/5], [1/5], [1/5], [1/5]], tols := [1] }

/-- The 6-cycle `0 – 1 – 2 – 3 – 4 – 5 – 0` with unit weights, uniform
vertex weights and tolerance `0.0` (the spec's k-way scenario 3). -/
def fmCtxCycle6 : FMCtx :=
  { n := 6, edges := [(0, 1), (1, 2), (2, 3), (3, 4), (4, 5), (0, 5)],
    ew := [[1], [1], [1], [1], [1], [1]],
    nwgtsN := [[1/6], [1/6], [1/6], [1/6], [1/6], [1/6]], tols := [0] }

/-- Start state of a bipartition FM run on `fmCtxPath5` from
`parts = [0, 1, 1, 0, 0]` (cut 2). -/
def fmPath5S0 : GTState :=
  { gainNodes := (initGainsBipart fmCtxPath5 [0, 1, 1, 0, 0]).1
    gainTable := (initGainsBipart fmCtxPath5 [0, 1, 1, 0, 0]).2
    constraints := constraintsInit fmCtxPath5 [0, 1, 1, 0, 0] 2 1
    parts := [0, 1, 1, 0, 0]
    recovery := none }

/-- Start stats of that run. -/
def fmPath5St0 : FMStats :=
  { obj := cutOf fmCtxPath5 [0, 1, 1, 0, 0]
    best := cutOf fmCtxPath5 [0, 1, 1, 0, 0]
    movesDone := 0, innerMovesDone := 0, innerMovesNeg := 0,
    innerMovesNegRow := 0, lastObj := none }

/-- First move of the `fmCtxPath5` run. -/
def fmPath5R1 : GTState × List Bool × FMStats × Bool :=
  fmMove fmCtxPath5 .last fmPath5S0 (List.replicate 5 false) fmPath5St0

/-- Second move of the `fmCtxPath5` run. -/
def fmPath5R2 : GTState × List Bool × FMStats × Bool :=
  fmMove fmCtxPath5 .last fmPath5R1.1 fmPath5R1.2.1 fmPath5R1.2.2.1

/-- C5.  On the spec's k-way scenario — the 6-cycle with `nbr_p = 3`,
initial `parts = [0, 1, 2, 0, 1, 2]`, tolerance `0.0` — FM does *not*
terminate cleanly: `GainTableFMCut.init` dispatches to
`GainTableFMCutKPart`, whose body is a TODO (it inherits `object` and has
no `__init__` accepting arguments), so construction raises `TypeError`.
The spec says the run "terminates without improvement". -/
theorem fm_kway_type_error :
    fm_part fmCtxCycle6 .last 3 [0, 1, 2, 0, 1, 2] 1 10 10
      = .error (.typeError "object() takes no parameters") := rfl

/-- C1 (counterexample).  A full bipartition FM run on the single-edge
graph from `parts = [0, 0]` (cut 0) with tolerance `1.0` ends — after the
inner pass and `recover_best` — with the *different* partition `[1, 1]`
of the *same* cut `0`: both zero-gain... in fact one `−1`-gain and one
`+1`-gain move are performed, each admissible, and the pass ends at the
same objective, so `recover_best` keeps the live partition.  The active
partition neither equals the pre-pass partition nor has a strictly
smaller cut. -/
theorem fm_pass_counterexample :
    (fm_part fmCtxEdge .last 2 [0, 0] 1 10 10).toOption.map Prod.fst
        = some [1, 1]
    ∧ cutOf fmCtxEdge [1, 1] = cutOf fmCtxEdge [0, 0]
    ∧ ([1, 1] : List Nat) ≠ [0, 0] := by
  refine ⟨by with_unfolding_all decide, by decide, by decide⟩

/-- C4 (counterexample).  On the 5-path from `parts = [0, 1, 1, 0, 0]`
(cut 2, `best_obj = 2`): the first move (vertex 0, gain `+1`) brings the
objective to `1 < 2`; the second move has gain `0 ≤ 0` and resulting
objective `1 < best_obj = 2` — by the claim this first
`g ≤ 0`-below-best move must take the snapshot — yet the code's condition
is `g < 0`, so no snapshot exists after either move. -/
theorem fm_snapshot_counterexample :
    fmPath5R1.2.2.2 = true
    ∧ fmPath5St0.obj - fmPath5R1.2.2.1.obj = 1
    ∧ fmPath5R2.2.2.2 = true
    ∧ fmPath5R1.2.2.1.obj - fmPath5R2.2.2.1.obj = 0
    ∧ fmPath5R2.2.2.1.obj < fmPath5R1.2.2.1.best
    ∧ fmPath5R1.1.recovery = none
    ∧ fmPath5R2.1.recovery = none := by
  refine ⟨?_, ?_, ?_, ?_, ?_, ?_, ?_⟩ <;> with_unfolding_all decide

/-- C4 (amended).  At every performed move with selected gain `g`, the
snapshot is (re)taken *iff* `g < 0` (strictly — zero-gain moves never
snapshot) *and* the resulting objective is strictly below
`best_obj_value`; at such a move `best_obj_value` is set to the pre-move
objective.  Nothing restricts this to the first such move: the condition
can retrigger later in the pass, replacing the snapshot. -/
theorem fm_snapshot_amended (ctx : FMCtx) (tie : TieBreak) (s : GTState)
    (locks : List Bool) (st : FMStats) (g : Int)
    (l : List (Nat × Nat × Nat)) (i ps pt : Nat)
    (hsel : selectBestValid s locks (gtKeys s.gainTable).length
      (gtKeys s.gainTable) = some (g, l))
    (htie : breakTies tie l = some (i, ps, pt)) :
    ((fmMove ctx tie s locks st).1.recovery,
     (fmMove ctx tie s locks st).2.2.1.best)
      = if g < 0 ∧ st.obj - g < st.best then (some (gtCopy s), st.obj)
        else (s.recovery, st.best) := by
  by_cases h : g < 0 ∧ st.obj - g < st.best
  · simp only [fmMove, hsel, htie, if_pos h]
  · simp only [fmMove, hsel, htie, if_neg h]

/-- Witness for `fm_snapshot_amended`: the second move of the
`fmCtxPath5` run selects gain `0`, and the characterization confirms that
the snapshot and best objective are unchanged there. -/
theorem fm_snapshot_amended_witness :
    selectBestValid fmPath5R1.1 fmPath5R1.2.1
        (gtKeys fmPath5R1.1.gainTable).length (gtKeys fmPath5R1.1.gainTable)
      = some (0, [(2, 1, 0), (3, 0, 1)])
    ∧ breakTies .last [(2, 1, 0), (3, 0, 1)] = some (3, 0, 1)
    ∧ ((fmMove fmCtxPath5 .last fmPath5R1.1 fmPath5R1.2.1
          fmPath5R1.2.2.1).1.recovery,
       (fmMove fmCtxPath5 .last fmPath5R1.1 fmPath5R1.2.1
          fmPath5R1.2.2.1).2.2.1.best)
      = if (0 : Int) < 0 ∧ fmPath5R1.2.2.1.obj - 0 < fmPath5R1.2.2.1.best
        then (some (gtCopy fmPath5R1.1), fmPath5R1.2.2.1.obj)
        else (fmPath5R1.1.recovery, fmPath5R1.2.2.1.best) := by
  refine ⟨?_, by decide, ?_⟩
  · with_unfolding_all decide
  · exact fm_snapshot_amended fmCtxPath5 .last fmPath5R1.1 fmPath5R1.2.1
      fmPath5R1.2.2.1 0 [(2, 1, 0), (3, 0, 1)] 3 0 1
      (by with_unfolding_all decide) (by decide)

/-! ### Move-counter bookkeeping (C9) -/

/-- Each performed move increments both `moves_done` and
`inner__moves_done` by exactly one; a refused move leaves the stats
untouched. -/
theorem fmMove_counters (ctx : FMCtx) (tie : TieBreak) (s : GTState)
    (locks : List Bool) (st : FMStats) :
    ((fmMove ctx tie s locks st).2.2.2 = true →
      (fmMove ctx tie s locks st).2.2.1.innerMovesDone = st.innerMovesDone + 1
      ∧ (fmMove ctx tie s locks st).2.2.1.movesDone = st.movesDone + 1)
    ∧ ((fmMove ctx tie s locks st).2.2.2 = false →
      (fmMove ctx tie s locks st).2.2.1 = st) := by
  rcases hsel : selectBestValid s locks (gtKeys s.gainTable).length
      (gtKeys s.gainTable) with _ | ⟨g, l⟩
  · exact ⟨fun h => by simp [fmMove, hsel] at h,
      fun _ => by simp [fmMove, hsel]⟩
  · rcases htie : breakTies tie l with _ | ⟨i, ps, pt⟩
    · exact ⟨fun h => by simp [fmMove, hsel, htie] at h,
        fun _ => by simp [fmMove, hsel, htie]⟩
    · refine ⟨fun _ => ?_, fun h => by simp [fmMove, hsel, htie] at h⟩
      constructor <;> simp [fmMove, hsel, htie]

/-- Properties of the inner pass driven by `stop__all_locked`: the two
per-move counters stay equal, `inner__moves_done` never exceeds `nbr_n`
(when it starts no larger), and a pass entered with the counter already
at `nbr_n` performs nothing at all. -/
theorem innerPass_counters (ctx : FMCtx) (tie : TieBreak) :
    ∀ (fuel : Nat) (s : GTState) (locks : List Bool) (st : FMStats),
      (st.innerMovesDone = st.movesDone →
        (innerPass ctx tie fuel s locks st).2.2.innerMovesDone
          = (innerPass ctx tie fuel s locks st).2.2.movesDone)
      ∧ (st.innerMovesDone ≤ ctx.n →
        (innerPass ctx tie fuel s locks st).2.2.innerMovesDone ≤ ctx.n)
      ∧ (st.innerMovesDone ≥ ctx.n →
        innerPass ctx tie fuel s locks st = (s, locks, st)) := by
  intro fuel
  induction fuel with
  | zero =>
    intro s locks st
    exact ⟨fun h => h, fun h => h, fun _ => rfl⟩
  | succ fuel ih =>
    intro s locks st
    by_cases hstop : stop_all_locked st ctx.n
    · have hge : ctx.n ≤ st.innerMovesDone := by
        simpa [stop_all_locked] using hstop
      have hps : innerPass ctx tie (fuel + 1) s locks st = (s, locks, st) := by
        simp [innerPass, hstop]
      rw [hps]
      exact ⟨fun h => h, fun h => h, fun _ => rfl⟩
    · have hlt : ¬ (ctx.n ≤ st.innerMovesDone) := by
        simpa [stop_all_locked] using hstop
      rcases hmv : fmMove ctx tie s locks st with ⟨s', locks', st', moved⟩
      have hmc := fmMove_counters ctx tie s locks st
      rw [hmv] at hmc
      cases moved with
      | true =>
        have h1 : st'.innerMovesDone = st.innerMovesDone + 1
            ∧ st'.movesDone = st.movesDone + 1 := by
          simpa using hmc.1 rfl
        have hps : innerPass ctx tie (fuel + 1) s locks st
            = innerPass ctx tie fuel s' locks' st' := by
          simp [innerPass, hstop, hmv]
        rw [hps]
        have ihh := ih s' locks' st'
        refine ⟨fun h => ihh.1 (by omega), fun _ => ihh.2.1 (by omega),
          fun h => absurd h (by omega)⟩
      | false =>
        have h0 : st' = st := by simpa using hmc.2 rfl
        have hps : innerPass ctx tie (fuel + 1) s locks st
            = (s', locks', st') := by
          simp [innerPass, hstop, hmv]
        rw [hps, h0]
        exact ⟨fun h => h, fun h => h, fun h => absurd h (by omega)⟩

/-- `stop__no_improvement` only records the current objective. -/
theorem stop_no_improvement_stats (st : FMStats) :
    (stop_no_improvement st).2 = { st with lastObj := some st.obj } := by
  unfold stop_no_improvement
  cases st.lastObj <;> rfl

/-- `recover_best` leaves both move counters untouched. -/
theorem recover_best_counters (s : GTState) (st : FMStats) :
    (recover_best s st).2.2.innerMovesDone = st.innerMovesDone
    ∧ (recover_best s st).2.2.movesDone = st.movesDone := by
  constructor <;>
    (unfold recover_best
     by_cases h : st.obj > st.best <;> simp [h])

/-- The outer loop keeps the counter invariants. -/
theorem fmOuter_counters (ctx : FMCtx) (tie : TieBreak) (innerFuel : Nat) :
    ∀ (fuel : Nat) (gtOpt : Option GTState) (active : List Nat)
      (st : FMStats) (out : List Nat × FMStats),
      fmOuter ctx tie innerFuel fuel gtOpt active st = .ok out →
      st.innerMovesDone = st.movesDone →
      st.innerMovesDone ≤ ctx.n →
      out.2.movesDone ≤ ctx.n ∧ out.2.movesDone = out.2.innerMovesDone := by
  intro fuel
  induction fuel with
  | zero =>
    intro gtOpt active st out hout h1 h2
    have : out = (active, st) := by
      simpa [fmOuter] using hout.symm
    rw [this]
    refine ⟨?_, ?_⟩
    · show st.movesDone ≤ ctx.n
      omega
    · show st.movesDone = st.innerMovesDone
      omega
  | succ fuel ih =>
    intro gtOpt active st out hout h1 h2
    rcases hstop : stop_no_improvement st with ⟨stop, st1⟩
    have hst1 : st1 = { st with lastObj := some st.obj } := by
      have := stop_no_improvement_stats st
      rw [hstop] at this
      exact this
    have hst1a : st1.innerMovesDone = st.innerMovesDone := by rw [hst1]
    have hst1b : st1.movesDone = st.movesDone := by rw [hst1]
    cases stop with
    | true =>
      have : out = (active, st1) := by
        simpa [fmOuter, hstop] using hout.symm
      rw [this]
      constructor
      · show st1.movesDone ≤ ctx.n
        omega
      · show st1.movesDone = st1.innerMovesDone
        omega
    | false =>
      cases gtOpt with
      | none => simp [fmOuter, hstop] at hout
      | some s =>
        rcases hip : innerPass ctx tie innerFuel s (List.replicate ctx.n false)
            st1 with ⟨s1, locks1, st2⟩
        have hic := innerPass_counters ctx tie innerFuel s
          (List.replicate ctx.n false) st1
        rw [hip] at hic
        have hic1 : st1.innerMovesDone = st1.movesDone →
            st2.innerMovesDone = st2.movesDone := fun h => hic.1 h
        have hic2 : st1.innerMovesDone ≤ ctx.n →
            st2.innerMovesDone ≤ ctx.n := fun h => hic.2.1 h
        rcases hrb : recover_best s1 st2 with ⟨gt', active', st3⟩
        have hrc := recover_best_counters s1 st2
        rw [hrb] at hrc
        have hrc1 : st3.innerMovesDone = st2.innerMovesDone := hrc.1
        have hrc2 : st3.movesDone = st2.movesDone := hrc.2
        have hout' : fmOuter ctx tie innerFuel fuel gt' active' st3 = .ok out := by
          have heq : fmOuter ctx tie innerFuel (fuel + 1) (some s) active st
              = fmOuter ctx tie innerFuel fuel gt' active' st3 := by
            simp [fmOuter, hstop, hip, hrb]
          rw [← heq]
          exact hout
        refine ih gt' active' st3 out hout' ?_ ?_
        · have e1 := hic1 (by omega)
          omega
        · have e2 := hic2 (by omega)
          omega

/-- C9.  With the default `stop_inner` (`all_locked`), the counter it
consults — `stats["inner__moves_done"]` — is incremented by every move
and never reset between passes (`recover_best` resets only
`inner__moves`, `inner__moves_neg` and `inner__moves_neg_row`): over a
whole `fm_part` run the total number of moves is at most `nbr_n`, and any
inner pass entered with the counter already at `nbr_n` performs zero
moves. -/
theorem fm_moves_bound (ctx : FMCtx) (tie : TieBreak) (nbr_p : Nat)
    (parts0 : List Nat) (nbr_c outerFuel innerFuel : Nat)
    (out : List Nat × FMStats) :
    (fm_part ctx tie nbr_p parts0 nbr_c outerFuel innerFuel = .ok out →
      out.2.movesDone ≤ ctx.n ∧ out.2.movesDone = out.2.innerMovesDone)
    ∧ (∀ (fuel : Nat) (s : GTState) (locks : List Bool) (st : FMStats),
        st.innerMovesDone ≥ ctx.n →
        innerPass ctx tie fuel s locks st = (s, locks, st)) := by
  constructor
  · intro hrun
    by_cases hp : nbr_p = 2
    · unfold fm_part at hrun
      rw [if_pos hp] at hrun
      exact fmOuter_counters ctx tie innerFuel outerFuel _ parts0 _ out hrun
        rfl (by simp)
    · unfold fm_part at hrun
      rw [if_neg hp] at hrun
      simp at hrun
  · intro fuel s locks st h
    exact (innerPass_counters ctx tie fuel s locks st).2.2 h

/-- Witness for `fm_moves_bound` on the concrete single-edge run: the two
moves performed over all passes are within the bound `nbr_n = 2`. -/
theorem fm_moves_bound_witness :
    (fm_part fmCtxEdge .last 2 [0, 0] 1 10 10).toOption
        = some ([1, 1], ⟨0, 0, 2, 2, 0, 0, some 0⟩)
    ∧ (([1, 1], (⟨0, 0, 2, 2, 0, 0, some 0⟩ : FMStats)) :
        List Nat × FMStats).2.movesDone ≤ fmCtxEdge.n := by
  constructor
  · with_unfolding_all decide
  · refine ((fm_moves_bound fmCtxEdge .last 2 [0, 0] 1 10 10
      ([1, 1], ⟨0, 0, 2, 2, 0, 0, some 0⟩)).1 ?_).1
    have h : (fm_part fmCtxEdge .last 2 [0, 0] 1 10 10).toOption
        = some ([1, 1], ⟨0, 0, 2, 2, 0, 0, some 0⟩) := by
      with_unfolding_all decide
    rcases hr : fm_part fmCtxEdge .last 2 [0, 0] 1 10 10 with e | v
    · rw [hr] at h; simp [Except.toOption] at h
    · rw [hr] at h
      simp [Except.toOption] at h
      rw [h]

/-! ### Gain/cut coherence of the bipartition gain table (towards C1)

The following lemmas establish the classic FM facts on simple graphs:
moving a vertex changes the cut by exactly its tabulated gain, and the
incremental `±2w` neighbour updates keep every tabulated gain equal to
its from-scratch value. -/

/-- Simple-graph well-formedness: endpoints in range and distinct, and no
two edges join the same pair of vertices (in either orientation).  The
coarsening operator merges parallel edges and drops self-loops, so this
is the code's operating regime. -/
def GraphOK (ctx : FMCtx) : Prop :=
  (∀ e ∈ ctx.edges, e.1 < ctx.n ∧ e.2 < ctx.n ∧ e.1 ≠ e.2)
  ∧ ctx.edges.Pairwise (fun e f =>
      ¬ (e.1 = f.1 ∧ e.2 = f.2) ∧ ¬ (e.1 = f.2 ∧ e.2 = f.1))

/-- Sum over a `filterMap`'s image. -/
theorem sum_filterMap_int {α β : Type} (g : α → Option β) (f : β → Int) :
    ∀ l : List α,
      ((l.filterMap g).map f).sum
        = (l.map (fun x => match g x with | some y => f y | none => 0)).sum := by
  intro l
  induction l with
  | nil => rfl
  | cons x xs ih =>
    cases hg : g x with
    | none => simp [List.filterMap_cons, hg, ih]
    | some y => simp [List.filterMap_cons, hg, ih]

/-- Difference of two mapped sums. -/
theorem map_sum_sub {α : Type} (f g : α → Int) :
    ∀ l : List α,
      (l.map f).sum - (l.map g).sum = (l.map (fun x => f x - g x)).sum := by
  intro l
  induction l with
  | nil => simp
  | cons x xs ih => simp [List.sum_cons, ← ih]; ring

/-- The per-edge term of the gain of moving `i` to `q`. -/
def gainEdgeTerm (ew : List (List Int)) (parts : List Nat) (i q : Nat)
    (ep : Nat × (Nat × Nat)) : Int :=
  if ep.2.1 = i then
    (if parts.getD ep.2.2 0 ≠ parts.getD i 0 then (ew.getD ep.1 []).getD 0 0 else 0)
    - (if parts.getD ep.2.2 0 ≠ q then (ew.getD ep.1 []).getD 0 0 else 0)
  else if ep.2.2 = i then
    (if parts.getD ep.2.1 0 ≠ parts.getD i 0 then (ew.getD ep.1 []).getD 0 0 else 0)
    - (if parts.getD ep.2.1 0 ≠ q then (ew.getD ep.1 []).getD 0 0 else 0)
  else 0

/-- `gainCut` as an edge-indexed sum. -/
theorem gainCut_eq_edge_sum (edges : List (Nat × Nat)) (ew : List (List Int))
    (parts : List Nat) (i q : Nat) :
    gainCut edges ew parts i q
      = (edges.enum.map (gainEdgeTerm ew parts i q)).sum := by
  unfold gainCut nodesOf
  rw [sum_filterMap_int, sum_filterMap_int, map_sum_sub]
  congr 1
  apply List.map_congr_left
  intro ep _
  by_cases h1 : ep.2.1 = i
  · simp [gainEdgeTerm, h1]
  · by_cases h2 : ep.2.2 = i
    · simp [gainEdgeTerm, h1, h2]
    · simp [gainEdgeTerm, h1, h2]

/-- Per-edge cut change caused by moving `i` to `q`. -/
theorem cut_edge_delta (ew : List (List Int)) (parts : List Nat) (i q : Nat)
    (hi : i < parts.length) (ep : Nat × (Nat × Nat)) (hne : ep.2.1 ≠ ep.2.2) :
    (if (parts.set i q).getD ep.2.1 0 ≠ (parts.set i q).getD ep.2.2 0
      then (ew.getD ep.1 []).getD 0 0 else 0)
    = (if parts.getD ep.2.1 0 ≠ parts.getD ep.2.2 0
        then (ew.getD ep.1 []).getD 0 0 else 0)
      - gainEdgeTerm ew parts i q ep := by
  obtain ⟨e, u, v⟩ := ep
  simp only [gainEdgeTerm]
  by_cases h1 : u = i
  · subst h1
    have hv : v ≠ u := fun h => hne h.symm
    rw [getD_set_self _ _ _ _ hi, getD_set_other _ _ _ _ _ (fun h => hv h.symm)]
    simp only [if_pos rfl]
    by_cases e1 : parts.getD v 0 = parts.getD u 0 <;>
      by_cases e2 : parts.getD v 0 = q <;>
      simp [e1, e2, Ne, eq_comm]
  · by_cases h2 : v = i
    · subst h2
      rw [getD_set_self _ _ _ _ hi, getD_set_other _ _ _ _ _ (fun h => h1 h.symm)]
      simp only [if_neg h1, if_pos rfl]
      by_cases e1 : parts.getD u 0 = parts.getD v 0 <;>
        by_cases e2 : parts.getD u 0 = q <;>
        simp [e1, e2, Ne, eq_comm]
    · rw [getD_set_other _ _ _ _ _ (fun h => h1 h.symm),
        getD_set_other _ _ _ _ _ (fun h => h2 h.symm)]
      simp [if_neg h1, if_neg h2]

/-- Moving a vertex changes the cut by exactly its gain. -/
theorem cut_move_delta (edges : List (Nat × Nat)) (ew : List (List Int))
    (parts : List Nat) (i q : Nat) (hi : i < parts.length)
    (hok : ∀ e ∈ edges, e.1 ≠ e.2) :
    cutGraphBranch edges ew (parts.set i q) 0
      = cutGraphBranch edges ew parts 0 - gainCut edges ew parts i q := by
  rw [gainCut_eq_edge_sum]
  unfold cutGraphBranch
  rw [map_sum_sub]
  apply congrArg
  apply List.map_congr_left
  intro ep hep
  have hmem : ep.2 ∈ edges := snd_mem_of_mem_enumFrom edges 0 ep hep
  exact cut_edge_delta ew parts i q hi ep (hok ep.2 hmem)

/-- Unpacking membership in the derived adjacency. -/
theorem mem_nodesOf {edges : List (Nat × Nat)} {i : Nat} {ke : Nat × Nat}
    (h : ke ∈ nodesOf edges i) :
    ∃ ep ∈ edges.enum,
      (ep.2.1 = i ∧ ke = (ep.2.2, ep.1))
      ∨ (¬ ep.2.1 = i ∧ ep.2.2 = i ∧ ke = (ep.2.1, ep.1)) := by
  unfold nodesOf at h
  rcases List.mem_filterMap.mp h with ⟨ep, hmem, hep⟩
  refine ⟨ep, hmem, ?_⟩
  by_cases h1 : ep.2.1 = i
  · left
    refine ⟨h1, ?_⟩
    rw [if_pos h1] at hep
    exact (Option.some.injEq _ _ ▸ hep).symm
  · by_cases h2 : ep.2.2 = i
    · right
      refine ⟨h1, h2, ?_⟩
      rw [if_neg h1, if_pos h2] at hep
      exact (Option.some.injEq _ _ ▸ hep).symm
    · rw [if_neg h1, if_neg h2] at hep
      exact absurd hep (by simp)

/-- In a self-loop-free graph every adjacency entry names a vertex other
than its owner, with the edge id within range. -/
theorem nodesOf_fst_ne {ctx : FMCtx} (hok : GraphOK ctx) (i : Nat)
    {ke : Nat × Nat} (h : ke ∈ nodesOf ctx.edges i) :
    ke.1 ≠ i ∧ ke.1 < ctx.n := by
  rcases mem_nodesOf h with ⟨ep, hmem, hcase⟩
  have hedge := hok.1 ep.2 (snd_mem_of_mem_enumFrom _ 0 ep hmem)
  rcases hcase with ⟨h1, hke⟩ | ⟨_, h2, hke⟩
  · rw [hke]
    refine ⟨?_, hedge.2.1⟩
    intro hh
    exact hedge.2.2 (by rw [h1]; exact hh.symm)
  · rw [hke]
    refine ⟨?_, hedge.1⟩
    intro hh
    exact hedge.2.2 (by rw [h2]; exact hh)

/-- The edges joining `i` and `j`, as enumerated positions. -/
def sharedE (edges : List (Nat × Nat)) (i j : Nat) :
    List (Nat × (Nat × Nat)) :=
  edges.enum.filter (fun ep => ep.2 = (i, j) || ep.2 = (j, i))

/-- The `i`-entries of `j`'s adjacency are exactly the shared edges. -/
theorem adj_filter_eq_sharedE (i j : Nat) (hij : i ≠ j) :
    ∀ L : List (Nat × (Nat × Nat)),
      ((L.filterMap (fun ep =>
          if ep.2.1 = j then some (ep.2.2, ep.1)
          else if ep.2.2 = j then some (ep.2.1, ep.1) else none)).filter
        (fun ke => ke.1 = i))
      = (L.filter (fun ep => ep.2 = (i, j) || ep.2 = (j, i))).map
          (fun ep => (i, ep.1)) := by
  intro L
  induction L with
  | nil => rfl
  | cons ep rest ih =>
    obtain ⟨e, u, v⟩ := ep
    by_cases h1 : u = j <;> by_cases h2 : v = j <;>
      by_cases h3 : u = i <;> by_cases h4 : v = i <;>
      simp_all [List.filterMap_cons, List.filter_cons, Prod.mk.injEq]

/-- Filtering the enumeration by a predicate on the payload keeps as many
elements as filtering the list itself. -/
theorem length_filter_enumFrom {α : Type} (P : α → Bool) :
    ∀ (l : List α) (k : Nat),
      ((l.enumFrom k).filter (fun ep => P ep.2)).length
        = (l.filter P).length := by
  intro l
  induction l with
  | nil => intro k; rfl
  | cons x xs ih =>
    intro k
    show (List.filter _ ((k, x) :: xs.enumFrom (k + 1))).length = _
    rw [List.filter_cons, List.filter_cons]
    by_cases h : P x
    · simp only [h]
      simp [ih xs.length, ih (k + 1)]
    · simp only [h]
      simp [ih (k + 1)]

/-- Without parallel edges, at most one listed edge equals `(i,j)` or
`(j,i)`. -/
theorem filter_pair_length_le_one (i j : Nat) :
    ∀ edges : List (Nat × Nat),
      edges.Pairwise (fun e f =>
        ¬ (e.1 = f.1 ∧ e.2 = f.2) ∧ ¬ (e.1 = f.2 ∧ e.2 = f.1)) →
      (edges.filter (fun x => x = (i, j) || x = (j, i))).length ≤ 1 := by
  intro edges
  induction edges with
  | nil => intro _; simp
  | cons e es ih =>
    intro hpw
    rw [List.pairwise_cons] at hpw
    rw [List.filter_cons]
    by_cases h : (e = (i, j) || e = (j, i)) = true
    · simp only [h]
      have hnil : es.filter (fun f => f = (i, j) || f = (j, i)) = [] := by
        rw [List.filter_eq_nil_iff]
        intro f hf hpf
        have hp := hpw.1 f hf
        rcases Bool.or_eq_true _ _ |>.mp h with he | he <;>
          rcases Bool.or_eq_true _ _ |>.mp hpf with hf' | hf' <;>
          · have he' := of_decide_eq_true he
            have hf'' := of_decide_eq_true hf'
            subst he'
            subst hf''
            first
              | exact hp.1 ⟨rfl, rfl⟩
              | exact hp.2 ⟨rfl, rfl⟩
      rw [hnil]
      simp
    · simp only [h]
      exact ih hpw.2

/-- In a graph without parallel edges at most one edge joins `i` and `j`. -/
theorem sharedE_length_le_one {ctx : FMCtx} (hok : GraphOK ctx) (i j : Nat) :
    (sharedE ctx.edges i j).length ≤ 1 := by
  unfold sharedE
  rw [show (List.filter (fun ep : Nat × (Nat × Nat) =>
        ep.2 = (i, j) || ep.2 = (j, i)) ctx.edges.enum).length
      = (ctx.edges.filter (fun x => x = (i, j) || x = (j, i))).length from
    length_filter_enumFrom (fun x : Nat × Nat => x = (i, j) || x = (j, i))
      ctx.edges 0]
  exact filter_pair_length_le_one i j ctx.edges hok.2

/-- Summing a function of the parts over an adjacency list after setting
one vertex's part: only the entries naming that vertex change. -/
theorem sum_adj_set (parts : List Nat) (i q : Nat) (hi : i < parts.length)
    (F : Nat → Nat → Int) :
    ∀ l : List (Nat × Nat),
      (l.map (fun ke => F ((parts.set i q).getD ke.1 0) ke.2)).sum
        = (l.map (fun ke => F (parts.getD ke.1 0) ke.2)).sum
          + ((l.filter (fun ke => ke.1 = i)).map
              (fun ke => F q ke.2 - F (parts.getD i 0) ke.2)).sum := by
  intro l
  induction l with
  | nil => simp
  | cons ke rest ih =>
    rw [List.map_cons, List.sum_cons, List.map_cons, List.sum_cons,
      List.filter_cons, ih]
    by_cases h : ke.1 = i
    · rw [h, getD_set_self _ _ _ _ hi]
      simp only [decide_True, h]
      simp
      ring
    · rw [getD_set_other _ _ _ _ _ (fun hh => h hh.symm)]
      simp only [h]
      simp
      ring

/-- After moving `i` to the other side, the moved vertex's from-scratch
gain (towards its old side) is the negation of its pre-move gain. -/
theorem gain_moved (ctx : FMCtx) (hok : GraphOK ctx) (parts : List Nat)
    (i : Nat) (hi : i < parts.length) :
    gainCut ctx.edges ctx.ew (parts.set i (1 - parts.getD i 0)) i
        (parts.getD i 0)
      = - gainCut ctx.edges ctx.ew parts i (1 - parts.getD i 0) := by
  have hne : ∀ ke ∈ nodesOf ctx.edges i,
      (parts.set i (1 - parts.getD i 0)).getD ke.1 0 = parts.getD ke.1 0 :=
    fun ke hke => getD_set_other _ _ _ _ _
      (fun h => (nodesOf_fst_ne hok i hke).1 h.symm)
  have hself := getD_set_self parts i (1 - parts.getD i 0) 0 hi
  unfold gainCut
  rw [show ((nodesOf ctx.edges i).map (fun je =>
      if (parts.set i (1 - parts.getD i 0)).getD je.1 0
          ≠ (parts.set i (1 - parts.getD i 0)).getD i 0
      then (ctx.ew.getD je.2 []).getD 0 0 else 0))
    = ((nodesOf ctx.edges i).map (fun je =>
      if parts.getD je.1 0 ≠ 1 - parts.getD i 0
      then (ctx.ew.getD je.2 []).getD 0 0 else 0)) from
    List.map_congr_left (fun ke hke => by rw [hne ke hke, hself])]
  rw [show ((nodesOf ctx.edges i).map (fun je =>
      if (parts.set i (1 - parts.getD i 0)).getD je.1 0 ≠ parts.getD i 0
      then (ctx.ew.getD je.2 []).getD 0 0 else 0))
    = ((nodesOf ctx.edges i).map (fun je =>
      if parts.getD je.1 0 ≠ parts.getD i 0
      then (ctx.ew.getD je.2 []).getD 0 0 else 0)) from
    List.map_congr_left (fun ke hke => by rw [hne ke hke])]
  ring

/-- After moving `i` to the other side, any other vertex's from-scratch
gain changes by `−2w` per shared edge when it sits on the target side,
`+2w` when it sits on the source side — and not at all when it shares no
edge with `i` (the shared-edge list is empty then). -/
theorem gain_other (ctx : FMCtx) (hok : GraphOK ctx) (parts : List Nat)
    (i j : Nat) (hij : j ≠ i) (hi : i < parts.length)
    (hpi : parts.getD i 0 < 2) (hpj : parts.getD j 0 < 2) :
    gainCut ctx.edges ctx.ew (parts.set i (1 - parts.getD i 0)) j
        (1 - parts.getD j 0)
      = gainCut ctx.edges ctx.ew parts j (1 - parts.getD j 0)
        + ((sharedE ctx.edges i j).map (fun ep =>
            if parts.getD j 0 = 1 - parts.getD i 0
            then -2 * (ctx.ew.getD ep.1 []).getD 0 0
            else 2 * (ctx.ew.getD ep.1 []).getD 0 0)).sum := by
  have hQ : (parts.set i (1 - parts.getD i 0)).getD j 0 = parts.getD j 0 :=
    getD_set_other _ _ _ _ _ (fun h => hij h.symm)
  unfold gainCut
  rw [show ((nodesOf ctx.edges j).map (fun je =>
      if (parts.set i (1 - parts.getD i 0)).getD je.1 0
          ≠ (parts.set i (1 - parts.getD i 0)).getD j 0
      then (ctx.ew.getD je.2 []).getD 0 0 else 0))
    = ((nodesOf ctx.edges j).map (fun je =>
      if (parts.set i (1 - parts.getD i 0)).getD je.1 0 ≠ parts.getD j 0
      then (ctx.ew.getD je.2 []).getD 0 0 else 0)) from
    List.map_congr_left (fun ke _ => by rw [hQ])]
  rw [show ((nodesOf ctx.edges j).map (fun je =>
      if (parts.set i (1 - parts.getD i 0)).getD je.1 0 ≠ parts.getD j 0
      then (ctx.ew.getD je.2 []).getD 0 0 else 0)).sum
    = ((nodesOf ctx.edges j).map (fun je =>
        if parts.getD je.1 0 ≠ parts.getD j 0
        then (ctx.ew.getD je.2 []).getD 0 0 else 0)).sum
      + (((nodesOf ctx.edges j).filter (fun ke => ke.1 = i)).map
          (fun ke =>
            (if 1 - parts.getD i 0 ≠ parts.getD j 0
              then (ctx.ew.getD ke.2 []).getD 0 0 else 0)
            - (if parts.getD i 0 ≠ parts.getD j 0
              then (ctx.ew.getD ke.2 []).getD 0 0 else 0))).sum from
    sum_adj_set parts i (1 - parts.getD i 0) hi
      (fun x e => if x ≠ parts.getD j 0 then (ctx.ew.getD e []).getD 0 0 else 0)
      (nodesOf ctx.edges j)]
  rw [show ((nodesOf ctx.edges j).map (fun je =>
      if (parts.set i (1 - parts.getD i 0)).getD je.1 0 ≠ 1 - parts.getD j 0
      then (ctx.ew.getD je.2 []).getD 0 0 else 0)).sum
    = ((nodesOf ctx.edges j).map (fun je =>
        if parts.getD je.1 0 ≠ 1 - parts.getD j 0
        then (ctx.ew.getD je.2 []).getD 0 0 else 0)).sum
      + (((nodesOf ctx.edges j).filter (fun ke => ke.1 = i)).map
          (fun ke =>
            (if 1 - parts.getD i 0 ≠ 1 - parts.getD j 0
              then (ctx.ew.getD ke.2 []).getD 0 0 else 0)
            - (if parts.getD i 0 ≠ 1 - parts.getD j 0
              then (ctx.ew.getD ke.2 []).getD 0 0 else 0))).sum from
    sum_adj_set parts i (1 - parts.getD i 0) hi
      (fun x e => if x ≠ 1 - parts.getD j 0
        then (ctx.ew.getD e []).getD 0 0 else 0)
      (nodesOf ctx.edges j)]
  rw [show ((nodesOf ctx.edges j).filter (fun ke => ke.1 = i))
      = (sharedE ctx.edges i j).map (fun ep => (i, ep.1)) from
    adj_filter_eq_sharedE i j (fun h => hij h.symm) ctx.edges.enum]
  rw [List.map_map, List.map_map]
  have hpoint : ∀ ep ∈ sharedE ctx.edges i j,
      (((fun ke : Nat × Nat =>
          (if 1 - parts.getD i 0 ≠ parts.getD j 0
            then (ctx.ew.getD ke.2 []).getD 0 0 else 0)
          - (if parts.getD i 0 ≠ parts.getD j 0
            then (ctx.ew.getD ke.2 []).getD 0 0 else 0))
        ∘ (fun ep : Nat × (Nat × Nat) => (i, ep.1))) ep)
      - (((fun ke : Nat × Nat =>
          (if 1 - parts.getD i 0 ≠ 1 - parts.getD j 0
            then (ctx.ew.getD ke.2 []).getD 0 0 else 0)
          - (if parts.getD i 0 ≠ 1 - parts.getD j 0
            then (ctx.ew.getD ke.2 []).getD 0 0 else 0))
        ∘ (fun ep : Nat × (Nat × Nat) => (i, ep.1))) ep)
      = (if parts.getD j 0 = 1 - parts.getD i 0
          then -2 * (ctx.ew.getD ep.1 []).getD 0 0
          else 2 * (ctx.ew.getD ep.1 []).getD 0 0) := by
    intro ep _
    have hicase : parts.getD i 0 = 0 ∨ parts.getD i 0 = 1 := by omega
    have hjcase : parts.getD j 0 = 0 ∨ parts.getD j 0 = 1 := by omega
    rcases hicase with hpi0 | hpi0 <;> rcases hjcase with hpj0 | hpj0 <;>
      simp only [Function.comp, hpi0, hpj0] <;> norm_num <;> ring
  have hsplit : ∀ (L : List (Nat × (Nat × Nat)))
      (A B C : Nat × (Nat × Nat) → Int),
      (∀ ep ∈ L, A ep - B ep = C ep) →
      ∀ s1 s2 : Int,
        s1 + (L.map A).sum - (s2 + (L.map B).sum)
          = s1 - s2 + (L.map C).sum := by
    intro L A B C hABC
    intro s1 s2
    have : (L.map A).sum - (L.map B).sum = (L.map C).sum := by
      rw [map_sum_sub]
      exact congrArg _ (List.map_congr_left hABC)
    omega
  have := hsplit (sharedE ctx.edges i j) _ _ _ hpoint
    ((nodesOf ctx.edges j).map (fun je =>
      if parts.getD je.1 0 ≠ parts.getD j 0
      then (ctx.ew.getD je.2 []).getD 0 0 else 0)).sum
    ((nodesOf ctx.edges j).map (fun je =>
      if parts.getD je.1 0 ≠ 1 - parts.getD j 0
      then (ctx.ew.getD je.2 []).getD 0 0 else 0)).sum
  rw [show ∀ a b c d : Int, a + b - (c + d) = a + b - (c + d) from
    fun _ _ _ _ => rfl]
  omega

/-- `sharedE` does not depend on the order of the two vertices. -/
theorem sharedE_comm (edges : List (Nat × Nat)) (i j : Nat) :
    sharedE edges i j = sharedE edges j i := by
  unfold sharedE
  apply List.filter_congr
  intro ep _
  exact Bool.or_comm _ _

/-- The `j`-entries of `i`'s adjacency are exactly the shared edges. -/
theorem adj_i_filter_eq_sharedE (edges : List (Nat × Nat)) (i j : Nat)
    (hij : j ≠ i) :
    (nodesOf edges i).filter (fun ke => ke.1 = j)
      = (sharedE edges i j).map (fun ep => (j, ep.1)) := by
  rw [sharedE_comm]
  exact adj_filter_eq_sharedE j i hij edges.enum

/-- A list of length at most one containing `a` is `[a]`. -/
theorem eq_singleton_of_length_le_one {α : Type} (l : List α) (a : α)
    (h : l.length ≤ 1) (ha : a ∈ l) : l = [a] := by
  cases l with
  | nil => cases ha
  | cons x xs =>
    have hxs : xs = [] := by
      cases xs with
      | nil => rfl
      | cons y ys => simp at h
    subst hxs
    rcases List.mem_singleton.mp ha with h
    rw [h]

/-- Total number of occurrences of a vertex across all buckets. -/
def countAll (t : List (Int × List Nat)) (v : Nat) : Nat :=
  (t.map (fun kl => kl.2.count v)).sum

/-- Well-formedness of the bucket table relative to the per-vertex gain
array: no duplicate keys, every bucket member is in range and holds the
bucket's gain, and no vertex sits in the table twice. -/
def TableOK (n : Nat) (gains : List Int) (t : List (Int × List Nat)) : Prop :=
  (gtKeys t).Nodup
  ∧ (∀ kl ∈ t, ∀ v ∈ kl.2, v < n ∧ gains.getD v 0 = kl.1)
  ∧ (∀ v, v < n → countAll t v ≤ 1)

/-- Coherence of the live gain-table state: the partition and gain
arrays have the right length, parts are binary, every recorded gain is
the from-scratch gain of moving that vertex to the other side, and the
bucket table is well formed. -/
def StateOK (ctx : FMCtx) (s : GTState) : Prop :=
  s.parts.length = ctx.n
  ∧ s.gainNodes.length = ctx.n
  ∧ (∀ i, i < ctx.n → s.parts.getD i 0 < 2)
  ∧ (∀ i, i < ctx.n → s.gainNodes.getD i 0
      = gainCut ctx.edges ctx.ew s.parts i (1 - s.parts.getD i 0))
  ∧ TableOK ctx.n s.gainNodes s.gainTable

/-- The pass invariant: a coherent state whose objective is the cut of
the live partition, whose best objective never exceeds the pass-start
cut, and whose snapshot (if any) has the best objective as its cut. -/
def Inv (ctx : FMCtx) (obj0 : Int) (s : GTState) (st : FMStats) : Prop :=
  StateOK ctx s ∧ st.obj = cutOf ctx s.parts ∧ st.best ≤ obj0
  ∧ (∀ r, s.recovery = some r → cutOf ctx r.parts = st.best)

/-- The `new_gains` association list built by
`GainTableFMCutBipart.move` (src/algos/gain_tables/gain_table_cut.py
lines 252-266): the moved vertex maps to `-g`, and each neighbour — on
its first occurrence only — to its old gain shifted by `±2·w`. -/
def newGainsFold (ctx : FMCtx) (i : Nat) (g : Int) (gains : List Int)
    (parts1 : List Nat) (p_tgt : Nat) : List (Nat × Int) :=
  (nodesOf ctx.edges i).foldl
    (fun acc je =>
      if acc.any (fun kv => kv.1 = je.1) then acc
      else acc ++ [(je.1,
        if parts1.getD je.1 0 = p_tgt then
          gains.getD je.1 0 - 2 * (ctx.ew.getD je.2 []).getD 0 0
        else
          gains.getD je.1 0 + 2 * (ctx.ew.getD je.2 []).getD 0 0)])
    [(i, -g)]

/-- `change_gain` iterated over `new_gains` (src/algos/gain_tables/
gain_table_cut.py lines 268-273 and 206-221): each entry rewrites the
vertex's recorded gain and rebuckets it. -/
def applyGains (ng : List (Nat × Int))
    (p : List Int × List (Int × List Nat)) :
    List Int × List (Int × List Nat) :=
  ng.foldl
    (fun (p : List Int × List (Int × List Nat)) kv =>
      let oldg := p.1.getD kv.1 0
      if oldg = kv.2 then p
      else (p.1.set kv.1 kv.2, gtAppend (gtRemove p.2 oldg kv.1) kv.2 kv.1))
    p

/-- The first-occurrence fold keeps its keys duplicate-free. -/
theorem firstFold_nodup (V : Nat × Nat → Int) :
    ∀ (adj : List (Nat × Nat)) (acc : List (Nat × Int)),
      (acc.map Prod.fst).Nodup →
      ((adj.foldl (fun acc je =>
          if acc.any (fun kv => kv.1 = je.1) then acc
          else acc ++ [(je.1, V je)]) acc).map Prod.fst).Nodup := by
  intro adj
  induction adj with
  | nil => intro acc h; exact h
  | cons je rest ih =>
    intro acc h
    rw [List.foldl_cons]
    by_cases hany : acc.any (fun kv => kv.1 = je.1) = true
    · rw [if_pos hany]; exact ih acc h
    · rw [if_neg hany]
      apply ih
      rw [List.map_append, List.map_cons, List.map_nil, List.nodup_append]
      refine ⟨h, List.nodup_singleton _, fun a ha hb => ?_⟩
      rw [List.mem_singleton] at hb
      subst hb
      rcases List.mem_map.mp ha with ⟨kv, hkv, hfst⟩
      exact hany (List.any_eq_true.mpr ⟨kv, hkv, by simp [hfst]⟩)

/-- The first-occurrence fold only adds entries. -/
theorem firstFold_sub (V : Nat × Nat → Int) :
    ∀ (adj : List (Nat × Nat)) (acc : List (Nat × Int)) (kv : Nat × Int),
      kv ∈ acc →
      kv ∈ adj.foldl (fun acc je =>
        if acc.any (fun kv => kv.1 = je.1) then acc
        else acc ++ [(je.1, V je)]) acc := by
  intro adj
  induction adj with
  | nil => intro acc kv h; exact h
  | cons je rest ih =>
    intro acc kv h
    rw [List.foldl_cons]
    by_cases hany : acc.any (fun kv => kv.1 = je.1) = true
    · rw [if_pos hany]; exact ih acc kv h
    · rw [if_neg hany]
      exact ih _ kv (List.mem_append_left _ h)

/-- Every entry of the first-occurrence fold comes from the seed or from
some adjacency element. -/
theorem firstFold_src (V : Nat × Nat → Int) :
    ∀ (adj : List (Nat × Nat)) (acc : List (Nat × Int)) (kv : Nat × Int),
      kv ∈ adj.foldl (fun acc je =>
        if acc.any (fun kv => kv.1 = je.1) then acc
        else acc ++ [(je.1, V je)]) acc →
      kv ∈ acc ∨ ∃ je ∈ adj, je.1 = kv.1 ∧ kv.2 = V je := by
  intro adj
  induction adj with
  | nil => intro acc kv h; exact Or.inl h
  | cons je rest ih =>
    intro acc kv h
    rw [List.foldl_cons] at h
    by_cases hany : acc.any (fun kv => kv.1 = je.1) = true
    · rw [if_pos hany] at h
      rcases ih acc kv h with h | ⟨je1, hje1, hh⟩
      · exact Or.inl h
      · exact Or.inr ⟨je1, List.mem_cons_of_mem _ hje1, hh⟩
    · rw [if_neg hany] at h
      rcases ih _ kv h with h | ⟨je1, hje1, hh⟩
      · rcases List.mem_append.mp h with h | h
        · exact Or.inl h
        · rw [List.mem_singleton] at h
          subst h
          exact Or.inr ⟨je, List.mem_cons_self _ _, rfl, rfl⟩
      · exact Or.inr ⟨je1, List.mem_cons_of_mem _ hje1, hh⟩

/-- Every adjacency key receives an entry in the first-occurrence fold. -/
theorem firstFold_cover (V : Nat × Nat → Int) :
    ∀ (adj : List (Nat × Nat)) (acc : List (Nat × Int)) (j : Nat),
      j ∈ adj.map Prod.fst →
      ∃ v, (j, v) ∈ adj.foldl (fun acc je =>
        if acc.any (fun kv => kv.1 = je.1) then acc
        else acc ++ [(je.1, V je)]) acc := by
  intro adj
  induction adj with
  | nil => intro acc j hj; cases hj
  | cons je rest ih =>
    intro acc j hj
    rw [List.foldl_cons]
    rw [List.map_cons] at hj
    by_cases hany : acc.any (fun kv => kv.1 = je.1) = true
    · rw [if_pos hany]
      rcases List.mem_cons.mp hj with hj | hj
      · rcases List.any_eq_true.mp hany with ⟨kv, hkv, hdec⟩
        have hfst : kv.1 = je.1 := of_decide_eq_true hdec
        refine ⟨kv.2, firstFold_sub V rest acc (j, kv.2) ?_⟩
        have : kv = (j, kv.2) := by
          rw [← hfst] at hj
          rw [hj]
        rw [← this]
        exact hkv
      · exact ih acc j hj
    · rw [if_neg hany]
      rcases List.mem_cons.mp hj with hj | hj
      · refine ⟨V je, firstFold_sub V rest _ (j, V je) ?_⟩
        apply List.mem_append_right
        rw [List.mem_singleton, hj]
      · exact ih _ j hj

/-- Unfolding one `change_gain` step. -/
theorem applyGains_cons (kv : Nat × Int) (rest : List (Nat × Int))
    (p : List Int × List (Int × List Nat)) :
    applyGains (kv :: rest) p
      = applyGains rest
          (if p.1.getD kv.1 0 = kv.2 then p
           else (p.1.set kv.1 kv.2,
             gtAppend (gtRemove p.2 (p.1.getD kv.1 0) kv.1) kv.2 kv.1)) := rfl

/-- `change_gain` never changes the gain array's length. -/
theorem applyGains_len :
    ∀ (ng : List (Nat × Int)) (p : List Int × List (Int × List Nat)),
      (applyGains ng p).1.length = p.1.length := by
  intro ng
  induction ng with
  | nil => intro p; rfl
  | cons kv rest ih =>
    intro p
    rw [applyGains_cons, ih]
    by_cases h : p.1.getD kv.1 0 = kv.2
    · rw [if_pos h]
    · rw [if_neg h]
      show (p.1.set kv.1 kv.2).length = p.1.length
      exact List.length_set _ _ _

/-- Vertices named by no update keep their recorded gain. -/
theorem applyGains_untouched :
    ∀ (ng : List (Nat × Int)) (p : List Int × List (Int × List Nat)) (j : Nat),
      (∀ kv ∈ ng, kv.1 ≠ j) →
      (applyGains ng p).1.getD j 0 = p.1.getD j 0 := by
  intro ng
  induction ng with
  | nil => intro p j _; rfl
  | cons kv rest ih =>
    intro p j hne
    rw [applyGains_cons,
      ih _ j (fun kv2 h2 => hne kv2 (List.mem_cons_of_mem _ h2))]
    by_cases h : p.1.getD kv.1 0 = kv.2
    · rw [if_pos h]
    · rw [if_neg h]
      show (p.1.set kv.1 kv.2).getD j 0 = p.1.getD j 0
      exact getD_set_other _ _ _ _ _ (hne kv (List.mem_cons_self _ _))

/-- With duplicate-free update keys, each updated vertex ends at its
assigned gain. -/
theorem applyGains_set :
    ∀ (ng : List (Nat × Int)) (p : List Int × List (Int × List Nat))
      (kv : Nat × Int),
      (ng.map Prod.fst).Nodup → kv ∈ ng → kv.1 < p.1.length →
      (applyGains ng p).1.getD kv.1 0 = kv.2 := by
  intro ng
  induction ng with
  | nil => intro p kv _ hmem; cases hmem
  | cons kv0 rest ih =>
    intro p kv hnd hmem hlt
    rw [List.map_cons, List.nodup_cons] at hnd
    rw [applyGains_cons]
    rcases List.mem_cons.mp hmem with heq | hmem
    · subst heq
      have huntouch : ∀ kv2 ∈ rest, kv2.1 ≠ kv.1 := by
        intro kv2 h2 hc
        exact hnd.1 (List.mem_map.mpr ⟨kv2, h2, hc⟩)
      by_cases h : p.1.getD kv.1 0 = kv.2
      · rw [if_pos h, applyGains_untouched rest p kv.1 huntouch]
        exact h
      · rw [if_neg h, applyGains_untouched rest _ kv.1 huntouch]
        show (p.1.set kv.1 kv.2).getD kv.1 0 = kv.2
        exact getD_set_self _ _ _ _ hlt
    · by_cases h : p.1.getD kv0.1 0 = kv0.2
      · rw [if_pos h]
        exact ih p kv hnd.2 hmem hlt
      · rw [if_neg h]
        apply ih _ kv hnd.2 hmem
        show kv.1 < (p.1.set kv0.1 kv0.2).length
        rw [List.length_set]
        exact hlt

/-- `countAll` over a cons. -/
theorem countAll_cons (kl : Int × List Nat) (t : List (Int × List Nat))
    (v : Nat) : countAll (kl :: t) v = kl.2.count v + countAll t v := by
  unfold countAll
  rw [List.map_cons, List.sum_cons]

/-- `countAll` over an append. -/
theorem countAll_append (t1 t2 : List (Int × List Nat)) (v : Nat) :
    countAll (t1 ++ t2) v = countAll t1 v + countAll t2 v := by
  unfold countAll
  rw [List.map_append, List.sum_append]

/-- A vertex counted zero times is in no bucket. -/
theorem countAll_zero_not_mem (t : List (Int × List Nat)) (v : Nat)
    (h : countAll t v = 0) : ∀ kl ∈ t, v ∉ kl.2 := by
  induction t with
  | nil => intro kl hkl; cases hkl
  | cons kl0 rest ih =>
    rw [countAll_cons] at h
    intro kl hkl
    rcases List.mem_cons.mp hkl with heq | hkl
    · subst heq
      exact List.count_eq_zero.mp (by omega)
    · exact ih (by omega) kl hkl

/-- Removing from a bucket keeps the key list. -/
theorem gtKeys_gtRemove (t : List (Int × List Nat)) (g : Int) (v : Nat) :
    gtKeys (gtRemove t g v) = gtKeys t := by
  unfold gtKeys gtRemove
  rw [List.map_map]
  apply List.map_congr_left
  intro kl _
  by_cases h : kl.1 = g
  · simp [Function.comp, h]
  · simp [Function.comp, h]

/-- Appending to an existing key keeps the key list. -/
theorem gtKeys_gtAppend_of_mem (t : List (Int × List Nat)) (g : Int)
    (v : Nat) (h : t.any (fun kl => kl.1 = g) = true) :
    gtKeys (gtAppend t g v) = gtKeys t := by
  unfold gtKeys gtAppend
  rw [if_pos h, List.map_map]
  apply List.map_congr_left
  intro kl _
  by_cases hk : kl.1 = g
  · simp [Function.comp, hk]
  · simp [Function.comp, hk]

/-- Appending to a fresh key adds it at the end of the key list. -/
theorem gtKeys_gtAppend_of_not_mem (t : List (Int × List Nat)) (g : Int)
    (v : Nat) (h : ¬ t.any (fun kl => kl.1 = g) = true) :
    gtKeys (gtAppend t g v) = gtKeys t ++ [g] := by
  unfold gtKeys gtAppend
  rw [if_neg h, List.map_append]
  rfl

/-- A key reported absent by `any` is not in the key list. -/
theorem not_any_key (t : List (Int × List Nat)) (g : Int)
    (h : ¬ t.any (fun kl => kl.1 = g) = true) : g ∉ gtKeys t := by
  intro hg
  rcases List.mem_map.mp hg with ⟨kl, hkl, hfst⟩
  exact h (List.any_eq_true.mpr ⟨kl, hkl, by simp [hfst]⟩)

/-- If a vertex lives only in buckets keyed `g` and at most once in
total, `gain_table[g].remove(v)` erases it completely. -/
theorem countAll_gtRemove_self (t : List (Int × List Nat)) (g : Int)
    (j : Nat) (hin : ∀ kl ∈ t, j ∈ kl.2 → kl.1 = g)
    (hc : countAll t j ≤ 1) :
    countAll (gtRemove t g j) j = 0 := by
  induction t with
  | nil => rfl
  | cons kl rest ih =>
    rw [countAll_cons] at hc
    rw [show gtRemove (kl :: rest) g j
        = (if kl.1 = g then (kl.1, kl.2.erase j) else kl) :: gtRemove rest g j
      from rfl]
    rw [countAll_cons]
    have hrest := ih (fun kl2 h2 => hin kl2 (List.mem_cons_of_mem _ h2))
      (by omega)
    by_cases h : kl.1 = g
    · rw [if_pos h, hrest]
      show (kl.2.erase j).count j + 0 = 0
      rw [List.count_erase_self]
      omega
    · rw [if_neg h, hrest]
      have hj : j ∉ kl.2 := fun hmem => h (hin kl (List.mem_cons_self _ _) hmem)
      rw [List.count_eq_zero.mpr hj]

/-- Removing one vertex does not change another's count. -/
theorem countAll_gtRemove_other (t : List (Int × List Nat)) (g : Int)
    (j m : Nat) (hm : m ≠ j) :
    countAll (gtRemove t g j) m = countAll t m := by
  induction t with
  | nil => rfl
  | cons kl rest ih =>
    rw [show gtRemove (kl :: rest) g j
        = (if kl.1 = g then (kl.1, kl.2.erase j) else kl) :: gtRemove rest g j
      from rfl]
    rw [countAll_cons, countAll_cons, ih]
    by_cases h : kl.1 = g
    · rw [if_pos h]
      show (kl.2.erase j).count m + _ = _
      rw [List.count_erase_of_ne hm]
    · rw [if_neg h]

/-- Appending a vertex to the buckets of key `g` adds one occurrence per
`g`-keyed bucket. -/
theorem countAll_appendMap (g : Int) (j : Nat) :
    ∀ t : List (Int × List Nat),
      countAll (t.map (fun kl => if kl.1 = g then (kl.1, kl.2 ++ [j]) else kl)) j
        = countAll t j + (gtKeys t).count g := by
  intro t
  induction t with
  | nil => rfl
  | cons kl rest ih =>
    rw [List.map_cons, countAll_cons, countAll_cons, ih]
    unfold gtKeys
    rw [List.map_cons, List.count_cons]
    by_cases h : kl.1 = g
    · rw [if_pos h]
      show (kl.2 ++ [j]).count j + _ = _
      rw [List.count_append]
      simp [h]
      omega
    · rw [if_neg h]
      simp [h]
      omega

/-- `gain_table[g].append(j)` on a table free of `j` leaves at most one
occurrence of `j`. -/
theorem countAll_gtAppend_self (t : List (Int × List Nat)) (g : Int)
    (j : Nat) (h0 : countAll t j = 0) (hnd : (gtKeys t).Nodup) :
    countAll (gtAppend t g j) j ≤ 1 := by
  unfold gtAppend
  by_cases hany : t.any (fun kl => kl.1 = g) = true
  · rw [if_pos hany, countAll_appendMap, h0]
    have := List.nodup_iff_count_le_one.mp hnd g
    omega
  · rw [if_neg hany, countAll_append, h0]
    show 0 + ((g, [j]).2.count j + 0) ≤ 1
    simp

/-- Appending a vertex to the buckets of key `g` leaves other vertices'
counts alone. -/
theorem countAll_appendMap_other (g : Int) (j m : Nat) (hm : m ≠ j) :
    ∀ t : List (Int × List Nat),
      countAll (t.map (fun kl => if kl.1 = g then (kl.1, kl.2 ++ [j]) else kl)) m
        = countAll t m := by
  intro t
  induction t with
  | nil => rfl
  | cons kl rest ih =>
    rw [List.map_cons, countAll_cons, countAll_cons, ih]
    by_cases h : kl.1 = g
    · rw [if_pos h]
      show (kl.2 ++ [j]).count m + _ = _
      rw [List.count_append]
      simp [hm]
    · rw [if_neg h]

/-- `gain_table[g].append(j)` does not change another vertex's count. -/
theorem countAll_gtAppend_other (t : List (Int × List Nat)) (g : Int)
    (j m : Nat) (hm : m ≠ j) :
    countAll (gtAppend t g j) m = countAll t m := by
  unfold gtAppend
  by_cases hany : t.any (fun kl => kl.1 = g) = true
  · rw [if_pos hany]
    exact countAll_appendMap_other g j m hm t
  · rw [if_neg hany, countAll_append]
    show countAll t m + ((g, [j]).2.count m + 0) = countAll t m
    simp [hm]

/-- Tracing a bucket of `gtRemove` back to the original table. -/
theorem mem_gtRemove (t : List (Int × List Nat)) (g : Int) (j : Nat) :
    ∀ kl2 ∈ gtRemove t g j,
      ∃ kl ∈ t, kl2.1 = kl.1 ∧ ∀ v ∈ kl2.2, v ∈ kl.2 := by
  intro kl2 h
  rcases List.mem_map.mp h with ⟨kl, hkl, heq⟩
  by_cases hk : kl.1 = g
  · rw [if_pos hk] at heq
    refine ⟨kl, hkl, by rw [← heq], ?_⟩
    intro v hv
    rw [← heq] at hv
    exact List.mem_of_mem_erase hv
  · rw [if_neg hk] at heq
    subst heq
    exact ⟨kl, hkl, rfl, fun v hv => hv⟩

/-- Tracing a bucket of `gtAppend` back to the original table. -/
theorem mem_gtAppend (t : List (Int × List Nat)) (g : Int) (j : Nat) :
    ∀ kl2 ∈ gtAppend t g j,
      (∃ kl ∈ t, kl2.1 = kl.1 ∧ ∀ v ∈ kl2.2, v ∈ kl.2 ∨ (v = j ∧ kl2.1 = g))
      ∨ kl2 = (g, [j]) := by
  unfold gtAppend
  by_cases hany : t.any (fun kl => kl.1 = g) = true
  · rw [if_pos hany]
    intro kl2 h
    rcases List.mem_map.mp h with ⟨kl, hkl, heq⟩
    left
    by_cases hk : kl.1 = g
    · rw [if_pos hk] at heq
      refine ⟨kl, hkl, by rw [← heq], ?_⟩
      intro v hv
      rw [← heq] at hv
      rcases List.mem_append.mp hv with hv | hv
      · exact Or.inl hv
      · refine Or.inr ⟨List.mem_singleton.mp hv, ?_⟩
        rw [← heq]
        exact hk
    · rw [if_neg hk] at heq
      subst heq
      exact ⟨kl, hkl, rfl, fun v hv => Or.inl hv⟩
  · rw [if_neg hany]
    intro kl2 h
    rcases List.mem_append.mp h with h | h
    · exact Or.inl ⟨kl2, h, rfl, fun v hv => Or.inl hv⟩
    · exact Or.inr (List.mem_singleton.mp h)

/-- One `change_gain` step preserves table well-formedness. -/
theorem tableOK_update (n : Nat) (gains : List Int)
    (t : List (Int × List Nat)) (hlen : gains.length = n)
    (h : TableOK n gains t) (j : Nat) (v : Int) (hj : j < n) :
    TableOK n (gains.set j v)
      (gtAppend (gtRemove t (gains.getD j 0) j) v j) := by
  obtain ⟨hnd, hmem, hcnt⟩ := h
  have hin : ∀ kl ∈ t, j ∈ kl.2 → kl.1 = gains.getD j 0 := by
    intro kl hkl hjm
    exact ((hmem kl hkl j hjm).2).symm
  have hrem0 : countAll (gtRemove t (gains.getD j 0) j) j = 0 :=
    countAll_gtRemove_self t _ j hin (hcnt j hj)
  have hndr : (gtKeys (gtRemove t (gains.getD j 0) j)).Nodup := by
    rw [gtKeys_gtRemove]
    exact hnd
  refine ⟨?_, ?_, ?_⟩
  · by_cases hany : (gtRemove t (gains.getD j 0) j).any
        (fun kl => kl.1 = v) = true
    · rw [gtKeys_gtAppend_of_mem _ _ _ hany]
      exact hndr
    · rw [gtKeys_gtAppend_of_not_mem _ _ _ hany, List.nodup_append]
      refine ⟨hndr, List.nodup_singleton _, fun a ha hb => ?_⟩
      rw [List.mem_singleton] at hb
      subst hb
      exact not_any_key _ _ hany ha
  · intro kl2 hkl2 m hm
    have hrm := countAll_zero_not_mem _ _ hrem0
    rcases mem_gtAppend _ _ _ kl2 hkl2 with ⟨kl1, hkl1, hfst, hsub⟩ | heq
    · rcases hsub m hm with hmm | ⟨hmj, hkey⟩
      · rcases mem_gtRemove t _ j kl1 hkl1 with ⟨kl0, hkl0, hfst0, hsub0⟩
        have hm0 := hmem kl0 hkl0 m (hsub0 m hmm)
        have hmne : m ≠ j := fun hc => hrm kl1 hkl1 (hc ▸ hmm)
        refine ⟨hm0.1, ?_⟩
        rw [getD_set_other _ _ _ _ _ (fun hc => hmne hc.symm), hm0.2,
          ← hfst0, ← hfst]
      · subst hmj
        refine ⟨hj, ?_⟩
        rw [getD_set_self _ _ _ _ (by rw [hlen]; exact hj)]
        exact hkey.symm
    · subst heq
      rw [List.mem_singleton] at hm
      subst hm
      exact ⟨hj, getD_set_self _ _ _ _ (by rw [hlen]; exact hj)⟩
  · intro m hmn
    by_cases hmj : m = j
    · subst hmj
      exact countAll_gtAppend_self _ _ _ hrem0 hndr
    · rw [countAll_gtAppend_other _ _ _ _ hmj,
        countAll_gtRemove_other _ _ _ _ hmj]
      exact hcnt m hmn

/-- Applying a block of in-range gain changes preserves table
well-formedness and the gain array's length. -/
theorem applyGains_tableOK (n : Nat) :
    ∀ (ng : List (Nat × Int)) (p : List Int × List (Int × List Nat)),
      p.1.length = n → TableOK n p.1 p.2 → (∀ kv ∈ ng, kv.1 < n) →
      (applyGains ng p).1.length = n
        ∧ TableOK n (applyGains ng p).1 (applyGains ng p).2 := by
  intro ng
  induction ng with
  | nil => intro p hlen hok _; exact ⟨hlen, hok⟩
  | cons kv rest ih =>
    intro p hlen hok hall
    rw [applyGains_cons]
    by_cases h : p.1.getD kv.1 0 = kv.2
    · rw [if_pos h]
      exact ih p hlen hok (fun kv2 h2 => hall kv2 (List.mem_cons_of_mem _ h2))
    · rw [if_neg h]
      refine ih _ ?_ ?_ (fun kv2 h2 => hall kv2 (List.mem_cons_of_mem _ h2))
      · show (p.1.set kv.1 kv.2).length = n
        rw [List.length_set]
        exact hlen
      · exact tableOK_update n p.1 p.2 hlen hok kv.1 kv.2
          (hall kv (List.mem_cons_self _ _))

/-- Whatever bucket `select__best_valid` settles on, the returned list is
that bucket's admissible candidates. -/
theorem selectBestValid_eq (s : GTState) (locks : List Bool) :
    ∀ (fuel : Nat) (lg : List Int) (g : Int) (l : List (Nat × Nat × Nat)),
      selectBestValid s locks fuel lg = some (g, l) →
      l = selectCandidates s locks g := by
  intro fuel
  induction fuel with
  | zero =>
    intro lg g l h
    simp [selectBestValid] at h
  | succ fuel ih =>
    intro lg g l h
    cases hmax : listMax lg with
    | none =>
      simp [selectBestValid, hmax] at h
    | some gmax =>
      simp only [selectBestValid, hmax] at h
      by_cases he : (selectCandidates s locks gmax).isEmpty = true
      · rw [if_pos he] at h
        exact ih _ g l h
      · rw [if_neg he] at h
        simp only [Option.some.injEq] at h
        obtain ⟨h1, h2⟩ := Prod.mk.injEq _ _ _ _ ▸ h
        rw [← h2, ← h1]

/-- The tie-break policy picks one of the candidates. -/
theorem breakTies_mem (tie : TieBreak) :
    ∀ (l : List (Nat × Nat × Nat)) (c : Nat × Nat × Nat),
      breakTies tie l = some c → c ∈ l := by
  cases tie with
  | first =>
    intro l c h
    cases l with
    | nil => simp [breakTies] at h
    | cons x xs =>
      have hx : x = c := by
        simp [breakTies] at h
        exact h
      rw [← hx]
      exact List.mem_cons_self _ _
  | last =>
    intro l
    induction l with
    | nil => intro c h; simp [breakTies] at h
    | cons x xs ih =>
      intro c h
      cases xs with
      | nil =>
        have hx : x = c := by
          simp [breakTies] at h
          exact h
        rw [← hx]
        exact List.mem_cons_self _ _
      | cons y ys =>
        have h2 : breakTies .last (y :: ys) = some c := by
          rw [← h]
          show (y :: ys).getLast? = (x :: y :: ys).getLast?
          rw [List.getLast?_cons_cons]
        exact List.mem_cons_of_mem _ (ih c h2)

/-- Unpacking a bucket lookup. -/
theorem gtLookup_mem (t : List (Int × List Nat)) (g : Int) (i : Nat)
    (hi : i ∈ gtLookup t g) :
    ∃ kl ∈ t, kl.1 = g ∧ i ∈ kl.2 := by
  unfold gtLookup at hi
  cases hf : t.find? (fun kl => kl.1 = g) with
  | none =>
    rw [hf] at hi
    simp at hi
  | some kl =>
    rw [hf] at hi
    have hp := List.find?_some hf
    simp only [decide_eq_true_eq] at hp
    refine ⟨kl, List.mem_of_find?_eq_some hf, hp, ?_⟩
    simpa using hi

/-- Each admissible candidate comes from the bucket and always proposes
the move to the other side. -/
theorem selectCandidates_mem (s : GTState) (locks : List Bool) (g : Int)
    (c : Nat × Nat × Nat) (hc : c ∈ selectCandidates s locks g) :
    c.1 ∈ gtLookup s.gainTable g
      ∧ c.2.1 = s.parts.getD c.1 0 ∧ c.2.2 = 1 - s.parts.getD c.1 0 := by
  unfold selectCandidates at hc
  rcases List.mem_filterMap.mp hc with ⟨i, hi, hif⟩
  by_cases hP : ¬ (locks.getD i false)
      ∧ s.constraints.can_move i (s.parts.getD i 0) (1 - s.parts.getD i 0)
        = true
  · rw [if_pos hP] at hif
    injection hif with hif
    rw [← hif]
    exact ⟨hi, rfl, rfl⟩
  · rw [if_neg hP] at hif
    cases hif

/-- The normal form of a successful `GainTableFMCutBipart.move`. -/
theorem fmMove_moved (ctx : FMCtx) (tie : TieBreak) (s : GTState)
    (locks : List Bool) (st : FMStats) (g : Int)
    (l : List (Nat × Nat × Nat)) (i p_src p_tgt : Nat)
    (hsel : selectBestValid s locks (gtKeys s.gainTable).length
        (gtKeys s.gainTable) = some (g, l))
    (htie : breakTies tie l = some (i, p_src, p_tgt)) :
    fmMove ctx tie s locks st
      = ({ gainNodes := (applyGains (newGainsFold ctx i g s.gainNodes
              (s.parts.set i p_tgt) p_tgt) (s.gainNodes, s.gainTable)).1,
           gainTable := (applyGains (newGainsFold ctx i g s.gainNodes
              (s.parts.set i p_tgt) p_tgt) (s.gainNodes, s.gainTable)).2,
           constraints := s.constraints.moved i p_src p_tgt,
           parts := s.parts.set i p_tgt,
           recovery := if g < 0 ∧ st.obj - g < st.best then some (gtCopy s)
             else s.recovery },
         locks.set i true,
         { st with
           obj := st.obj - g
           best := if g < 0 ∧ st.obj - g < st.best then st.obj else st.best
           movesDone := st.movesDone + 1
           innerMovesDone := st.innerMovesDone + 1
           innerMovesNeg := if g ≤ 0 then st.innerMovesNeg + 1
             else st.innerMovesNeg
           innerMovesNegRow := if g ≤ 0 then st.innerMovesNegRow + 1 else 0 },
         true) := by
  by_cases hc : g < 0 ∧ st.obj - g < st.best
  · simp only [fmMove, hsel, htie, if_pos hc, newGainsFold, applyGains]
  · simp only [fmMove, hsel, htie, if_neg hc, newGainsFold, applyGains]

/-- `newGainsFold` as a first-occurrence fold with an explicit value
function. -/
theorem newGainsFold_eq (ctx : FMCtx) (i : Nat) (g : Int)
    (gains : List Int) (parts1 : List Nat) (p_tgt : Nat) :
    newGainsFold ctx i g gains parts1 p_tgt
      = (nodesOf ctx.edges i).foldl (fun acc je =>
          if acc.any (fun kv => kv.1 = je.1) then acc
          else acc ++ [(je.1, (fun je : Nat × Nat =>
            if parts1.getD je.1 0 = p_tgt then
              gains.getD je.1 0 - 2 * (ctx.ew.getD je.2 []).getD 0 0
            else gains.getD je.1 0 + 2 * (ctx.ew.getD je.2 []).getD 0 0) je)])
        [(i, -g)] := rfl

/-- `new_gains` has no vertex twice. -/
theorem newGainsFold_nodup (ctx : FMCtx) (i : Nat) (g : Int)
    (gains : List Int) (parts1 : List Nat) (p_tgt : Nat) :
    ((newGainsFold ctx i g gains parts1 p_tgt).map Prod.fst).Nodup := by
  rw [newGainsFold_eq]
  exact firstFold_nodup _ _ _ (by simp)

/-- The moved vertex's entry of `new_gains`. -/
theorem newGainsFold_head (ctx : FMCtx) (i : Nat) (g : Int)
    (gains : List Int) (parts1 : List Nat) (p_tgt : Nat) :
    ((i : Nat), -g) ∈ newGainsFold ctx i g gains parts1 p_tgt := by
  rw [newGainsFold_eq]
  exact firstFold_sub _ _ _ _ (List.mem_singleton.mpr rfl)

/-- Every `new_gains` entry is the moved vertex's or some neighbour's. -/
theorem newGainsFold_src (ctx : FMCtx) (i : Nat) (g : Int)
    (gains : List Int) (parts1 : List Nat) (p_tgt : Nat) :
    ∀ kv ∈ newGainsFold ctx i g gains parts1 p_tgt,
      kv = ((i : Nat), -g)
      ∨ ∃ je ∈ nodesOf ctx.edges i, je.1 = kv.1
          ∧ kv.2 = (if parts1.getD je.1 0 = p_tgt then
              gains.getD je.1 0 - 2 * (ctx.ew.getD je.2 []).getD 0 0
            else gains.getD je.1 0 + 2 * (ctx.ew.getD je.2 []).getD 0 0) := by
  intro kv hkv
  rw [newGainsFold_eq] at hkv
  rcases firstFold_src _ _ _ kv hkv with h | ⟨je, hje, hfst, hval⟩
  · exact Or.inl (List.mem_singleton.mp h)
  · exact Or.inr ⟨je, hje, hfst, hval⟩

/-- Every neighbour of the moved vertex receives a `new_gains` entry. -/
theorem newGainsFold_cover (ctx : FMCtx) (i : Nat) (g : Int)
    (gains : List Int) (parts1 : List Nat) (p_tgt : Nat) (j : Nat)
    (hj : j ∈ (nodesOf ctx.edges i).map Prod.fst) :
    ∃ v, (j, v) ∈ newGainsFold ctx i g gains parts1 p_tgt := by
  rw [newGainsFold_eq]
  exact firstFold_cover _ _ _ j hj

/-- Core preservation result: one accepted move of vertex `i` with its
recorded gain `g` keeps the pass invariant, for any resulting state and
statistics with the prescribed components (the constraints object and
the counters are irrelevant to the invariant). -/
theorem move_inv_core (ctx : FMCtx) (hok : GraphOK ctx) (s : GTState)
    (st : FMStats) (obj0 g : Int) (i : Nat)
    (hinv : Inv ctx obj0 s st) (hin : i < ctx.n)
    (hgi : s.gainNodes.getD i 0 = g)
    (s1 : GTState) (st1 : FMStats)
    (h1 : s1.gainNodes = (applyGains (newGainsFold ctx i g s.gainNodes
        (s.parts.set i (1 - s.parts.getD i 0)) (1 - s.parts.getD i 0))
        (s.gainNodes, s.gainTable)).1)
    (h2 : s1.gainTable = (applyGains (newGainsFold ctx i g s.gainNodes
        (s.parts.set i (1 - s.parts.getD i 0)) (1 - s.parts.getD i 0))
        (s.gainNodes, s.gainTable)).2)
    (h3 : s1.parts = s.parts.set i (1 - s.parts.getD i 0))
    (h4 : s1.recovery = if g < 0 ∧ st.obj - g < st.best
        then some (gtCopy s) else s.recovery)
    (h5 : st1.obj = st.obj - g)
    (h6 : st1.best = if g < 0 ∧ st.obj - g < st.best
        then st.obj else st.best) :
    Inv ctx obj0 s1 st1 := by
  obtain ⟨⟨hplen, hglen, hbin, hgain, htab⟩, hobj, hbest, hrec⟩ := hinv
  have hgtrue : g = gainCut ctx.edges ctx.ew s.parts i
      (1 - s.parts.getD i 0) := by
    rw [← hgi]
    exact hgain i hin
  have hiplen : i < s.parts.length := by rw [hplen]; exact hin
  have hpi2 : s.parts.getD i 0 < 2 := hbin i hin
  have higlen : i < s.gainNodes.length := by rw [hglen]; exact hin
  have hnd := newGainsFold_nodup ctx i g s.gainNodes
    (s.parts.set i (1 - s.parts.getD i 0)) (1 - s.parts.getD i 0)
  have hhead := newGainsFold_head ctx i g s.gainNodes
    (s.parts.set i (1 - s.parts.getD i 0)) (1 - s.parts.getD i 0)
  have hsrc := newGainsFold_src ctx i g s.gainNodes
    (s.parts.set i (1 - s.parts.getD i 0)) (1 - s.parts.getD i 0)
  have hrange : ∀ kv ∈ newGainsFold ctx i g s.gainNodes
      (s.parts.set i (1 - s.parts.getD i 0)) (1 - s.parts.getD i 0),
      kv.1 < ctx.n := by
    intro kv hkv
    rcases hsrc kv hkv with h | ⟨je, hje, hfst, _⟩
    · rw [h]; exact hin
    · rw [← hfst]; exact (nodesOf_fst_ne hok i hje).2
  have htabAG := applyGains_tableOK ctx.n
    (newGainsFold ctx i g s.gainNodes
      (s.parts.set i (1 - s.parts.getD i 0)) (1 - s.parts.getD i 0))
    (s.gainNodes, s.gainTable) hglen htab hrange
  have hLi : (applyGains (newGainsFold ctx i g s.gainNodes
      (s.parts.set i (1 - s.parts.getD i 0)) (1 - s.parts.getD i 0))
      (s.gainNodes, s.gainTable)).1.getD i 0 = -g :=
    applyGains_set _ _ (i, -g) hnd hhead higlen
  unfold Inv StateOK
  refine ⟨⟨?_, ?_, ?_, ?_, ?_⟩, ?_, ?_, ?_⟩
  · rw [h3, List.length_set]
    exact hplen
  · rw [h1, applyGains_len]
    exact hglen
  · intro j hj
    rw [h3]
    by_cases hji : j = i
    · subst hji
      rw [getD_set_self _ _ _ _ hiplen]
      omega
    · rw [getD_set_other _ _ _ _ _ (fun hc => hji hc.symm)]
      exact hbin j hj
  · intro j hj
    rw [h1, h3]
    by_cases hji : j = i
    · subst hji
      rw [getD_set_self _ _ _ _ hiplen]
      have hq : 1 - (1 - s.parts.getD j 0) = s.parts.getD j 0 := by omega
      rw [hq, hLi, gain_moved ctx hok s.parts j hiplen, hgtrue]
    · have hpj : (s.parts.set i (1 - s.parts.getD i 0)).getD j 0
          = s.parts.getD j 0 :=
        getD_set_other _ _ _ _ _ (fun hc => hji hc.symm)
      by_cases hjadj : j ∈ (nodesOf ctx.edges i).map Prod.fst
      · obtain ⟨v, hv⟩ := newGainsFold_cover ctx i g s.gainNodes
          (s.parts.set i (1 - s.parts.getD i 0)) (1 - s.parts.getD i 0) j hjadj
        have hLj : (applyGains (newGainsFold ctx i g s.gainNodes
            (s.parts.set i (1 - s.parts.getD i 0)) (1 - s.parts.getD i 0))
            (s.gainNodes, s.gainTable)).1.getD j 0 = v :=
          applyGains_set _ _ (j, v) hnd hv
            (show j < s.gainNodes.length by rw [hglen]; exact hj)
        rcases hsrc (j, v) hv with hh | ⟨je, hje, hfst, hval0⟩
        · exact absurd (congrArg Prod.fst hh) hji
        · have hval : v = (if (s.parts.set i (1 - s.parts.getD i 0)).getD je.1 0
                = 1 - s.parts.getD i 0 then
              s.gainNodes.getD je.1 0 - 2 * (ctx.ew.getD je.2 []).getD 0 0
            else
              s.gainNodes.getD je.1 0 + 2 * (ctx.ew.getD je.2 []).getD 0 0) :=
            hval0
          have hfst2 : je.1 = j := hfst
          have hjefil : je ∈ (nodesOf ctx.edges i).filter
              (fun ke => ke.1 = j) :=
            List.mem_filter.mpr ⟨hje, by simp [hfst2]⟩
          rw [adj_i_filter_eq_sharedE ctx.edges i j hji] at hjefil
          rcases List.mem_map.mp hjefil with ⟨ep, hep, hje_eq⟩
          have hsE : sharedE ctx.edges i j = [ep] :=
            eq_singleton_of_length_le_one _ ep
              (sharedE_length_le_one hok i j) hep
          have hje2 : je.2 = ep.1 := by rw [← hje_eq]
          have hgo := gain_other ctx hok s.parts i j hji hiplen hpi2
            (hbin j hj)
          rw [hsE] at hgo
          simp only [List.map_cons, List.map_nil, List.sum_cons,
            List.sum_nil, add_zero] at hgo
          rw [hfst2, hpj, hje2, hgain j hj] at hval
          rw [hpj, hgo, hLj, hval]
          by_cases hcnd : s.parts.getD j 0 = 1 - s.parts.getD i 0
          · rw [if_pos hcnd, if_pos hcnd]
            ring
          · rw [if_neg hcnd, if_neg hcnd]
      · have hnone : ∀ kv ∈ newGainsFold ctx i g s.gainNodes
            (s.parts.set i (1 - s.parts.getD i 0)) (1 - s.parts.getD i 0),
            kv.1 ≠ j := by
          intro kv hkv hc
          rcases hsrc kv hkv with h | ⟨je, hje, hfst, _⟩
          · apply hji
            rw [← hc, h]
          · apply hjadj
            rw [← hc, ← hfst]
            exact List.mem_map_of_mem _ hje
        have hLj := applyGains_untouched
          (newGainsFold ctx i g s.gainNodes
            (s.parts.set i (1 - s.parts.getD i 0)) (1 - s.parts.getD i 0))
          (s.gainNodes, s.gainTable) j hnone
        have hsE : sharedE ctx.edges i j = [] := by
          cases hE : sharedE ctx.edges i j with
          | nil => rfl
          | cons ep rest =>
            exfalso
            apply hjadj
            have hmemf : ((j : Nat), ep.1) ∈ (nodesOf ctx.edges i).filter
                (fun ke => ke.1 = j) := by
              rw [adj_i_filter_eq_sharedE ctx.edges i j hji, hE,
                List.map_cons]
              exact List.mem_cons_self _ _
            exact List.mem_map.mpr ⟨(j, ep.1),
              (List.mem_filter.mp hmemf).1, rfl⟩
        have hgo := gain_other ctx hok s.parts i j hji hiplen hpi2
          (hbin j hj)
        rw [hsE] at hgo
        simp only [List.map_nil, List.sum_nil, add_zero] at hgo
        rw [hpj, hgo, hLj]
        exact hgain j hj
  · rw [h1, h2]
    exact htabAG.2
  · rw [h5, h3, hobj, hgtrue]
    unfold cutOf
    exact (cut_move_delta ctx.edges ctx.ew s.parts i (1 - s.parts.getD i 0)
      hiplen (fun e he => (hok.1 e he).2.2)).symm
  · rw [h6]
    by_cases hcnd : g < 0 ∧ st.obj - g < st.best
    · rw [if_pos hcnd]
      have hc1 := hcnd.1
      have hc2 := hcnd.2
      omega
    · rw [if_neg hcnd]
      exact hbest
  · rw [h4, h6]
    by_cases hcnd : g < 0 ∧ st.obj - g < st.best
    · rw [if_pos hcnd, if_pos hcnd]
      intro r hr
      injection hr with hr
      rw [← hr]
      exact hobj.symm
    · rw [if_neg hcnd, if_neg hcnd]
      exact hrec

/-- `GainTableFMCutBipart.move` preserves the pass invariant. -/
theorem fmMove_inv (ctx : FMCtx) (hok : GraphOK ctx) (tie : TieBreak)
    (s : GTState) (locks : List Bool) (st : FMStats) (obj0 : Int)
    (hinv : Inv ctx obj0 s st) :
    Inv ctx obj0 (fmMove ctx tie s locks st).1
      (fmMove ctx tie s locks st).2.2.1 := by
  rcases hsel : selectBestValid s locks (gtKeys s.gainTable).length
      (gtKeys s.gainTable) with _ | ⟨g, l⟩
  · simp only [fmMove, hsel]
    exact hinv
  · rcases htie : breakTies tie l with _ | ⟨i, p_src, p_tgt⟩
    · simp only [fmMove, hsel, htie]
      exact hinv
    · have hmem : (i, p_src, p_tgt) ∈ selectCandidates s locks g := by
        rw [← selectBestValid_eq s locks _ _ g l hsel]
        exact breakTies_mem tie l (i, p_src, p_tgt) htie
      have hc := selectCandidates_mem s locks g (i, p_src, p_tgt) hmem
      have hlook : i ∈ gtLookup s.gainTable g := hc.1
      have hpt : p_tgt = 1 - s.parts.getD i 0 := hc.2.2
      have hinv2 := hinv
      obtain ⟨⟨hplen, hglen, hbin, hgain, htab⟩, _, _, _⟩ := hinv2
      rcases gtLookup_mem s.gainTable g i hlook with ⟨kl, hkl, hklg, hikl⟩
      have hmm := htab.2.1 kl hkl i hikl
      have hin : i < ctx.n := hmm.1
      have hgi : s.gainNodes.getD i 0 = g := by rw [hmm.2, hklg]
      subst hpt
      rw [fmMove_moved ctx tie s locks st g l i p_src
        (1 - s.parts.getD i 0) hsel htie]
      exact move_inv_core ctx hok s st obj0 g i hinv hin hgi _ _
        rfl rfl rfl rfl rfl rfl

/-- The inner pass preserves the pass invariant. -/
theorem innerPass_inv (ctx : FMCtx) (hok : GraphOK ctx) (tie : TieBreak) :
    ∀ (fuel : Nat) (s : GTState) (locks : List Bool) (st : FMStats)
      (obj0 : Int), Inv ctx obj0 s st →
      Inv ctx obj0 (innerPass ctx tie fuel s locks st).1
        (innerPass ctx tie fuel s locks st).2.2 := by
  intro fuel
  induction fuel with
  | zero => intro s locks st obj0 h; exact h
  | succ fuel ih =>
    intro s locks st obj0 h
    by_cases hstop : stop_all_locked st ctx.n
    · have hps : innerPass ctx tie (fuel + 1) s locks st = (s, locks, st) := by
        simp [innerPass, hstop]
      rw [hps]
      exact h
    · rcases hmv : fmMove ctx tie s locks st with ⟨s1, locks1, st1, moved⟩
      have hmi := fmMove_inv ctx hok tie s locks st obj0 h
      rw [hmv] at hmi
      cases moved with
      | true =>
        have hps : innerPass ctx tie (fuel + 1) s locks st
            = innerPass ctx tie fuel s1 locks1 st1 := by
          simp [innerPass, hstop, hmv]
        rw [hps]
        exact ih s1 locks1 st1 obj0 hmi
      | false =>
        have hps : innerPass ctx tie (fuel + 1) s locks st
            = (s1, locks1, st1) := by
          simp [innerPass, hstop, hmv]
        rw [hps]
        exact hmi

/-- What `recover_best` guarantees at end of pass: the active partition
cuts no worse than the pass-start cut, unless the pass ended worse than
the best with no snapshot to restore — in which case the next pass gets
no gain table and the worsened live partition stays active. -/
theorem recover_best_cut (ctx : FMCtx) (s1 : GTState) (st2 : FMStats)
    (obj0 : Int) (hobj : st2.obj = cutOf ctx s1.parts)
    (hbest : st2.best ≤ obj0)
    (hrec : ∀ r, s1.recovery = some r → cutOf ctx r.parts = st2.best) :
    cutOf ctx (recover_best s1 st2).2.1 ≤ obj0
    ∨ ((recover_best s1 st2).1 = none ∧ st2.best < st2.obj) := by
  unfold recover_best
  by_cases h : st2.obj > st2.best
  · rw [if_pos h]
    cases hr : s1.recovery with
    | none =>
      right
      refine ⟨?_, h⟩
      simp [hr]
    | some r =>
      left
      have hcut := hrec r hr
      simp only [hr]
      show cutOf ctx r.parts ≤ obj0
      rw [hcut]
      exact hbest
  · rw [if_neg h]
    left
    show cutOf ctx
      ({ s1 with gainTable := clean_gains s1.gainTable } : GTState).parts
        ≤ obj0
    show cutOf ctx s1.parts ≤ obj0
    rw [← hobj]
    omega

/-- C1.  Amended pass law.  Start an FM inner pass in a coherent state
whose objective and best objective both equal the cut of the live
partition (as at the start of a refinement).  After the pass and
`recover_best`, the active partition's λ−1 cut is at most the pre-pass
cut — equality is possible through zero-gain and mutually compensating
moves, so "strictly less or unchanged partition" is false — unless the
pass ends with `obj_value` above `best_obj_value` while no snapshot was
ever taken, in which case `recover_best` hands back no gain table and
the strictly worsened live partition stays active. -/
theorem fm_pass_amended (ctx : FMCtx) (tie : TieBreak) (fuel : Nat)
    (s : GTState) (locks : List Bool) (st : FMStats)
    (hok : GraphOK ctx) (hstate : StateOK ctx s)
    (hobj : st.obj = cutOf ctx s.parts) (hbest : st.best = st.obj)
    (hrec : ∀ r, s.recovery = some r → cutOf ctx r.parts = st.best) :
    cutOf ctx (recover_best (innerPass ctx tie fuel s locks st).1
        (innerPass ctx tie fuel s locks st).2.2).2.1
      ≤ cutOf ctx s.parts
    ∨ ((recover_best (innerPass ctx tie fuel s locks st).1
        (innerPass ctx tie fuel s locks st).2.2).1 = none
      ∧ (innerPass ctx tie fuel s locks st).2.2.best
        < (innerPass ctx tie fuel s locks st).2.2.obj) := by
  have hinv0 : Inv ctx (cutOf ctx s.parts) s st :=
    ⟨hstate, hobj, by rw [hbest, hobj], hrec⟩
  have hinv := innerPass_inv ctx hok tie fuel s locks st
    (cutOf ctx s.parts) hinv0
  exact recover_best_cut ctx _ _ _ hinv.2.1 hinv.2.2.1 hinv.2.2.2

/-- C1 witness: the amended pass law instantiated on the 5-path run
started from `parts = [0, 1, 1, 0, 0]`. -/
theorem fm_pass_amended_witness :
    cutOf fmCtxPath5 (recover_best
        (innerPass fmCtxPath5 .last 5 fmPath5S0
          (List.replicate 5 false) fmPath5St0).1
        (innerPass fmCtxPath5 .last 5 fmPath5S0
          (List.replicate 5 false) fmPath5St0).2.2).2.1
      ≤ cutOf fmCtxPath5 fmPath5S0.parts
    ∨ ((recover_best (innerPass fmCtxPath5 .last 5 fmPath5S0
          (List.replicate 5 false) fmPath5St0).1
        (innerPass fmCtxPath5 .last 5 fmPath5S0
          (List.replicate 5 false) fmPath5St0).2.2).1 = none
      ∧ (innerPass fmCtxPath5 .last 5 fmPath5S0
          (List.replicate 5 false) fmPath5St0).2.2.best
        < (innerPass fmCtxPath5 .last 5 fmPath5S0
          (List.replicate 5 false) fmPath5St0).2.2.obj) :=
  fm_pass_amended fmCtxPath5 .last 5 fmPath5S0 (List.replicate 5 false)
    fmPath5St0 (by unfold GraphOK; with_unfolding_all decide)
    (by unfold StateOK TableOK; with_unfolding_all decide)
    rfl rfl (fun r hr => Option.noConfusion hr)

/-! ## The vector-of-numbers refiners (src/algos/refine_algos/
vn_first_part.py and vn_best_part.py) -/

/-- Python `max` over a list of rationals (total here, with `0` for the
empty list, which the refiners never hand it). -/
def pymax (l : List Rat) : Rat := l.foldl max (l.headD 0)

/-- `max(max(imb_cp) for imb_cp in imbs)` — the aggregate imbalance
(src/algos/refine_algos/vn_first_part.py lines 87 and 100). -/
def maxImb (imbs : List (List Rat)) : Rat := pymax (imbs.map pymax)

/-- The loop state of `vn_first_part` (src/algos/refine_algos/
vn_first_part.py lines 74-76 and 96-107): the partition, the tracked
imbalance matrix and aggregate, and the move counters. -/
structure VNState where
  parts : List Nat
  imbs : List (List Rat)
  imb : Rat
  movesDone : Nat
  movesTslm : Nat
  movesTested : Nat
deriving DecidableEq, Repr

/-- One candidate test of `vn_first_part` (lines 99-112): compute the
after-move imbalances, accept the move exactly when the new aggregate is
strictly below the tracked one. -/
def vnTrial (nwgts : List (List Rat)) (nbr_p : Nat) (st : VNState)
    (i p_tgt : Nat) : VNState × Bool :=
  let p_src := st.parts.getD i 0
  let ws := nwgts.getD i []
  let new_imbs := imbalances_after_move ws p_src p_tgt nbr_p st.imbs
  let new_imb := maxImb new_imbs
  if new_imb < st.imb then
    ({ parts := st.parts.set i p_tgt, imbs := new_imbs, imb := new_imb,
       movesDone := st.movesDone + 1, movesTslm := 0,
       movesTested := st.movesTested }, true)
  else (st, false)

/-- The `for p_tgt in iter_parts_fct(...)` loop (lines 98-112): try the
targets in order, stop at the first accepted move. -/
def vnTryParts (nwgts : List (List Rat)) (nbr_p : Nat) :
    List Nat → VNState → Nat → VNState
  | [], st, _ => st
  | p_tgt :: rest, st, i =>
    match vnTrial nwgts nbr_p st i p_tgt with
    | (st1, true) => st1
    | (st1, false) => vnTryParts nwgts nbr_p rest st1 i

/-- The `vn_first_part` node loop (lines 93-114), the iterators
(`iter_nodes_first_cycle`, `iter_bipart` / `iter_parts_first_cycle`,
src/operators/iterators.py) modelled by the finite schedule of node
visits and per-visit target sequences they yield: each visit bumps
`moves_tested` and `moves_tslm`, runs the target loop, and breaks once
`moves_tslm > stop_after`. -/
def vn_first_run (nwgts : List (List Rat)) (nbr_p stopA : Nat) :
    List (Nat × List Nat) → VNState → VNState
  | [], st => st
  | (i, ptgts) :: rest, st =>
    let st1 := vnTryParts nwgts nbr_p ptgts
      { st with
        movesTested := st.movesTested + 1
        movesTslm := st.movesTslm + 1 } i
    if st1.movesTslm > stopA then st1
    else vn_first_run nwgts nbr_p stopA rest st1

/-- Tracking invariant of the `vn_first_part` loop: the stored imbalance
matrix is the from-scratch `imbalances` of the live partition on
normalized weights (whose totals are all `1`), and the stored aggregate
is its maximum. -/
def VNTrack (nwgts targets : List (List Rat)) (nbr_n nbr_p nbr_c : Nat)
    (st : VNState) : Prop :=
  st.parts.length = nbr_n
  ∧ (∀ j, j < nbr_n → st.parts.getD j 0 < nbr_p)
  ∧ st.imbs
      = imbalances nwgts st.parts (List.replicate nbr_c 1) targets nbr_p nbr_c
  ∧ st.imb = maxImb st.imbs

/-- The driver-visible state of `GainTableNumbersBipart`
(src/algos/refine_algos/vn_best_part.py): the partition, the unbalance
table and its tracked maximum with its criterion and part. -/
structure VNBState where
  parts : List Nat
  unbal : List (List Rat)
  umax : Rat
  cumax : Nat
  pumax : Nat
deriving DecidableEq, Repr

/-- `move_node`'s effect on the driver-visible state
(src/algos/refine_algos/vn_best_part.py lines 607-615): write the
partition entry and install the imbalance data computed by `find_move`.
(The gain-table rebucketing it also performs feeds only `find_move`,
which the driver model takes as a function of the state.) -/
def vnb_move_node (gt : VNBState) (index p_tgt : Nat) (new_umax : Rat)
    (new_cumax new_pumax : Nat) (new_unbals : List (List Rat)) : VNBState :=
  { parts := gt.parts.set index p_tgt
    unbal := new_unbals
    umax := new_umax
    cumax := new_cumax
    pumax := new_pumax }

/-- The `vn_best_part` driver loop (src/algos/refine_algos/
vn_best_part.py lines 809-821), fuel-indexed, with `find_move` — which
returns `(index, p_tgt, new_umax, new_cumax, new_pumax, new_unbals)` —
abstracted as a function of the state: break as soon as the proposed
`new_umax` fails to be strictly below `umax`, otherwise apply
`move_node` and continue. -/
def vn_best_run
    (find : VNBState → Nat × Nat × Rat × Nat × Nat × List (List Rat)) :
    Nat → VNBState → VNBState
  | 0, gt => gt
  | fuel + 1, gt =>
    let r := find gt
    if gt.umax ≤ r.2.2.1 then gt
    else vn_best_run find fuel
      (vnb_move_node gt r.1 r.2.1 r.2.2.1 r.2.2.2.1 r.2.2.2.2.1 r.2.2.2.2.2)

/-- `vn_best_part` (src/algos/refine_algos/vn_best_part.py lines 786-801
with lines 205-212).  The dispatch takes `GainTableNumbersBipart` for
`nbr_p = 2` and `GainTableNumbersKPart` otherwise; the k-way table's
`init_gains` evaluates `sorted(range(n))` and `range(nc)` where `n` and
`nc` are undefined (the locals are `nbr_n` and `nbr_c`), so the
constructor raises `NameError` before any move is examined. -/
def vn_best_part (nbr_p : Nat)
    (find : VNBState → Nat × Nat × Rat × Nat × Nat × List (List Rat))
    (fuel : Nat) (gt0 : VNBState) : Except CrackErr VNBState :=
  if nbr_p = 2 then .ok (vn_best_run find fuel gt0)
  else .error (.nameError "name n is not defined")

/-- Writing back an entry's own default-read value never changes a
list. -/
theorem set_getD_self {α : Type} :
    ∀ (l : List α) (n : Nat) (d : α), l.set n (l.getD n d) = l
  | [], _, _ => rfl
  | _ :: _, 0, _ => rfl
  | x :: xs, n + 1, d => congrArg (x :: ·) (set_getD_self xs n d)

/-- A move from a part to itself leaves the row unchanged. -/
theorem rowAfterMove_self (nbr_p : Nat) (w : Rat) (p : Nat)
    (row : List Rat) : rowAfterMove nbr_p w p p row = row := by
  show (row.set p (row.getD p 0 - (nbr_p : Rat) * w)).set p
      ((row.set p (row.getD p 0 - (nbr_p : Rat) * w)).getD p 0
        + (nbr_p : Rat) * w) = row
  by_cases hp : p < row.length
  · rw [getD_set_self _ _ _ _ hp, List.set_set]
    have hval : row.getD p 0 - (nbr_p : Rat) * w + (nbr_p : Rat) * w
        = row.getD p 0 := by ring
    rw [hval]
    exact set_getD_self row p 0
  · have h1 : row.set p (row.getD p 0 - (nbr_p : Rat) * w) = row :=
      set_getD_out row p _ (by omega)
    rw [h1]
    exact set_getD_out row p _ (by omega)

/-- A move from a part to itself leaves the whole matrix unchanged. -/
theorem imbalances_after_move_self (ws : List Rat) (p nbr_p : Nat) :
    ∀ imbs : List (List Rat),
      imbalances_after_move ws p p nbr_p imbs = imbs := by
  induction ws with
  | nil =>
    intro imbs
    unfold imbalances_after_move
    simp
  | cons w ws ih =>
    intro imbs
    cases imbs with
    | nil => rfl
    | cons row rows =>
      show rowAfterMove nbr_p w p p row ::
          (List.zipWith _ ws rows ++ rows.drop ws.length) = row :: rows
      rw [rowAfterMove_self]
      exact congrArg (row :: ·) (ih rows)

/-- Part-weight delta of one vertex move, over an enumerated suffix:
only the entry whose index is the moved vertex changes parts, so the
part's summed weight shifts by that vertex's weight. -/
theorem pwgt_enumFrom_set (parts : List Nat) (i p_tgt : Nat)
    (hi : i < parts.length) (f : List Rat → Rat) (p : Nat) :
    ∀ (l : List (List Rat)) (k : Nat),
      (((l.enumFrom k).filter
          (fun iw => (parts.set i p_tgt).getD iw.1 0 = p)).map
        (fun iw => f iw.2)).sum
      = (((l.enumFrom k).filter (fun iw => parts.getD iw.1 0 = p)).map
          (fun iw => f iw.2)).sum
        + (if k ≤ i ∧ i < k + l.length then
            (if p_tgt = p then f (l.getD (i - k) []) else 0)
            - (if parts.getD i 0 = p then f (l.getD (i - k) []) else 0)
          else 0) := by
  intro l
  induction l with
  | nil =>
    intro k
    simp only [List.enumFrom, List.filter_nil, List.map_nil, List.sum_nil,
      List.length_nil]
    rw [if_neg (by omega)]
    norm_num
  | cons w rest ih =>
    intro k
    have hlc := List.length_cons w rest
    rw [show List.enumFrom k (w :: rest)
        = (k, w) :: List.enumFrom (k + 1) rest from rfl]
    by_cases hk : k = i
    · subst hk
      rw [if_pos (by omega)]
      rw [Nat.sub_self, List.getD_cons_zero]
      have htail := ih (k + 1)
      rw [if_neg (by omega), add_zero] at htail
      simp only [List.filter_cons, decide_eq_true_eq]
      rw [getD_set_self parts k p_tgt 0 hi]
      by_cases h1 : p_tgt = p <;> by_cases h2 : parts.getD k 0 = p
      · simp only [if_pos h1, if_pos h2, List.map_cons, List.sum_cons]
        rw [htail]
        ring
      · simp only [if_pos h1, if_neg h2, List.map_cons, List.sum_cons]
        rw [htail]
        ring
      · simp only [if_neg h1, if_pos h2, List.map_cons, List.sum_cons]
        rw [htail]
        ring
      · simp only [if_neg h1, if_neg h2]
        rw [htail]
        ring
    · by_cases hcase : k ≤ i ∧ i < k + (w :: rest).length
      · rw [if_pos hcase]
        obtain ⟨hc1, hc2⟩ := hcase
        have hidx : (w :: rest).getD (i - k) [] = rest.getD (i - (k + 1)) [] := by
          rw [show i - k = (i - (k + 1)) + 1 from by omega]
          exact List.getD_cons_succ
        rw [hidx]
        have htail := ih (k + 1)
        rw [if_pos (by omega)] at htail
        simp only [List.filter_cons, decide_eq_true_eq]
        rw [getD_set_other parts i k p_tgt 0 (fun hc => hk hc.symm)]
        by_cases hd : parts.getD k 0 = p
        · simp only [if_pos hd, List.map_cons, List.sum_cons]
          rw [htail]
          ring
        · simp only [if_neg hd]
          rw [htail]
      · rw [if_neg hcase]
        rw [not_and_or] at hcase
        have htail := ih (k + 1)
        rw [if_neg (by omega), add_zero] at htail
        simp only [List.filter_cons, decide_eq_true_eq]
        rw [getD_set_other parts i k p_tgt 0 (fun hc => hk hc.symm)]
        by_cases hd : parts.getD k 0 = p
        · simp only [if_pos hd, List.map_cons, List.sum_cons]
          rw [htail]
          ring
        · simp only [if_neg hd]
          rw [htail]
          ring

/-- Reading an in-range entry of a map over `range`. -/
theorem rangeMap_getD (f : Nat → Rat) (n p : Nat) (hp : p < n) :
    ((List.range n).map f).getD p 0 = f p := by
  rw [List.getD_eq_getElem _ _ (by simpa using hp), List.getElem_map,
    List.getElem_range]

/-- One row of the from-scratch `imbalances`. -/
theorem imbalances_getD (wgts : List (List Rat)) (parts : List Nat)
    (tots : List Rat) (targets : List (List Rat)) (nbr_p nbr_c : Nat)
    (c : Nat) (hc : c < nbr_c) :
    (imbalances wgts parts tots targets nbr_p nbr_c).getD c []
      = (List.range nbr_p).map (fun p =>
          (nbr_p : Rat) *
            ((((wgts.enum.filter (fun iw => parts.getD iw.1 0 = p)).map
              (fun iw => iw.2.getD c 0)).sum) / tots.getD c 0
              - (targets.getD c []).getD p 0)) := by
  unfold imbalances
  rw [List.getD_eq_getElem _ _ (by simpa using hc), List.getElem_map,
    List.getElem_range]

/-- Extensionality through `getD` at one default. -/
theorem ext_getD {α : Type} (d : α) (l1 l2 : List α)
    (hlen : l1.length = l2.length)
    (h : ∀ n, n < l1.length → l1.getD n d = l2.getD n d) : l1 = l2 := by
  apply List.ext_getElem hlen
  intro n h1 h2
  rw [← List.getD_eq_getElem l1 d h1, ← List.getD_eq_getElem l2 d h2]
  exact h n h1

/-- The incremental update of `vn_first_part` tracks the from-scratch
imbalances: on normalized weights (all totals `1`), applying
`imbalances_after_move` for a genuine move of vertex `i` gives exactly
`imbalances` of the updated partition. -/
theorem imbalances_set (nwgts : List (List Rat)) (targets : List (List Rat))
    (parts : List Nat) (nbr_p nbr_c : Nat) (i p_tgt : Nat)
    (hi : i < parts.length) (hlen : nwgts.length = parts.length)
    (hip : parts.getD i 0 < nbr_p) (htp : p_tgt < nbr_p)
    (hne : parts.getD i 0 ≠ p_tgt) (hws : (nwgts.getD i []).length = nbr_c) :
    imbalances_after_move (nwgts.getD i []) (parts.getD i 0) p_tgt nbr_p
      (imbalances nwgts parts (List.replicate nbr_c 1) targets nbr_p nbr_c)
    = imbalances nwgts (parts.set i p_tgt) (List.replicate nbr_c 1) targets
        nbr_p nbr_c := by
  have hclen : (imbalances nwgts parts (List.replicate nbr_c 1) targets
      nbr_p nbr_c).length = nbr_c := by
    unfold imbalances
    simp
  have hclen2 : (imbalances nwgts (parts.set i p_tgt)
      (List.replicate nbr_c 1) targets nbr_p nbr_c).length = nbr_c := by
    unfold imbalances
    simp
  apply ext_getD []
  · rw [imbalances_after_move_length, hclen, hclen2]
  · intro c hcc
    rw [imbalances_after_move_length, hclen] at hcc
    rw [imbalances_after_move_getD _ _ _ _ _ (by rw [hws, hclen]) c
      (by rw [hclen]; exact hcc)]
    rw [imbalances_getD _ _ _ _ _ _ c hcc, imbalances_getD _ _ _ _ _ _ c hcc]
    have htot : (List.replicate nbr_c (1 : Rat)).getD c 0 = 1 :=
      getD_replicate_of_lt 1 0 nbr_c c hcc
    have hdelta : ∀ p : Nat,
        ((nwgts.enum.filter
          (fun iw => (parts.set i p_tgt).getD iw.1 0 = p)).map
            (fun iw => iw.2.getD c 0)).sum
        = ((nwgts.enum.filter (fun iw => parts.getD iw.1 0 = p)).map
            (fun iw => iw.2.getD c 0)).sum
          + ((if p_tgt = p then (nwgts.getD i []).getD c 0 else 0)
            - (if parts.getD i 0 = p
              then (nwgts.getD i []).getD c 0 else 0)) := by
      intro p
      have h0 := pwgt_enumFrom_set parts i p_tgt hi
        (fun row => row.getD c 0) p nwgts 0
      rw [if_pos (by omega)] at h0
      rw [Nat.sub_zero] at h0
      exact h0
    apply ext_getD 0
    · rw [rowAfterMove_length]
      simp
    · intro p hpp
      rw [rowAfterMove_length, List.length_map, List.length_range] at hpp
      by_cases hps : p = parts.getD i 0
      · rw [hps]
        rw [rowAfterMove_src _ _ _ _ _ hne (by simpa using hip)]
        rw [rangeMap_getD _ _ _ hip, rangeMap_getD _ _ _ hip]
        rw [hdelta (parts.getD i 0)]
        rw [if_neg (fun hc => hne hc.symm), if_pos rfl, htot]
        ring
      · by_cases hpt : p = p_tgt
        · rw [hpt]
          rw [rowAfterMove_tgt _ _ _ _ _ hne (by simpa using htp)]
          rw [rangeMap_getD _ _ _ htp, rangeMap_getD _ _ _ htp]
          rw [hdelta p_tgt]
          rw [if_pos rfl, if_neg hne, htot]
          ring
        · rw [rowAfterMove_other _ _ _ _ _ _ hps hpt]
          rw [rangeMap_getD _ _ _ hpp, rangeMap_getD _ _ _ hpp]
          rw [hdelta p]
          rw [if_neg (fun hc => hpt hc.symm), if_neg (fun hc => hps hc.symm)]
          ring

/-- A rejected candidate changes nothing. -/
theorem vnTrial_rejected (nwgts : List (List Rat)) (nbr_p : Nat)
    (st : VNState) (i p_tgt : Nat)
    (h : ¬ maxImb (imbalances_after_move (nwgts.getD i [])
        (st.parts.getD i 0) p_tgt nbr_p st.imbs) < st.imb) :
    vnTrial nwgts nbr_p st i p_tgt = (st, false) := by
  simp only [vnTrial]
  rw [if_neg h]

/-- An accepted candidate installs the after-move data. -/
theorem vnTrial_accepted (nwgts : List (List Rat)) (nbr_p : Nat)
    (st : VNState) (i p_tgt : Nat)
    (h : maxImb (imbalances_after_move (nwgts.getD i [])
        (st.parts.getD i 0) p_tgt nbr_p st.imbs) < st.imb) :
    vnTrial nwgts nbr_p st i p_tgt
      = ({ parts := st.parts.set i p_tgt,
           imbs := imbalances_after_move (nwgts.getD i [])
             (st.parts.getD i 0) p_tgt nbr_p st.imbs,
           imb := maxImb (imbalances_after_move (nwgts.getD i [])
             (st.parts.getD i 0) p_tgt nbr_p st.imbs),
           movesDone := st.movesDone + 1, movesTslm := 0,
           movesTested := st.movesTested }, true) := by
  simp only [vnTrial]
  rw [if_pos h]

/-- An accepted move keeps the tracking invariant, bumps `moves_done`,
and strictly decreases the tracked — hence true — aggregate imbalance. -/
theorem vnTrack_accepted (nwgts targets : List (List Rat))
    (nbr_n nbr_p nbr_c : Nat) (hn : nwgts.length = nbr_n)
    (hw : ∀ j, j < nbr_n → (nwgts.getD j []).length = nbr_c)
    (st : VNState) (hinv : VNTrack nwgts targets nbr_n nbr_p nbr_c st)
    (i p_tgt : Nat) (hi : i < nbr_n) (hp : p_tgt < nbr_p)
    (hacc : maxImb (imbalances_after_move (nwgts.getD i [])
        (st.parts.getD i 0) p_tgt nbr_p st.imbs) < st.imb) :
    VNTrack nwgts targets nbr_n nbr_p nbr_c (vnTrial nwgts nbr_p st i p_tgt).1
    ∧ (vnTrial nwgts nbr_p st i p_tgt).1.imb < st.imb
    ∧ (vnTrial nwgts nbr_p st i p_tgt).1.movesDone = st.movesDone + 1 := by
  obtain ⟨hplen, hpr, himbs, himb⟩ := hinv
  have hne : st.parts.getD i 0 ≠ p_tgt := by
    intro hsame
    rw [hsame, imbalances_after_move_self, ← himb] at hacc
    exact lt_irrefl _ hacc
  rw [vnTrial_accepted nwgts nbr_p st i p_tgt hacc]
  refine ⟨⟨?_, ?_, ?_, rfl⟩, hacc, rfl⟩
  · show (st.parts.set i p_tgt).length = nbr_n
    rw [List.length_set]
    exact hplen
  · intro j hj
    show (st.parts.set i p_tgt).getD j 0 < nbr_p
    by_cases hji : j = i
    · subst hji
      rw [getD_set_self _ _ _ _ (by rw [hplen]; exact hj)]
      exact hp
    · rw [getD_set_other _ _ _ _ _ (fun hc => hji hc.symm)]
      exact hpr j hj
  · show imbalances_after_move (nwgts.getD i []) (st.parts.getD i 0) p_tgt
        nbr_p st.imbs
      = imbalances nwgts (st.parts.set i p_tgt) (List.replicate nbr_c 1)
        targets nbr_p nbr_c
    rw [himbs]
    exact imbalances_set nwgts targets st.parts nbr_p nbr_c i p_tgt
      (by rw [hplen]; exact hi) (by rw [hn, hplen]) (hpr i hi) hp hne
      (hw i hi)

/-- No candidate from the current state strictly decreases the tracked
aggregate imbalance. -/
def VNStuck (nwgts : List (List Rat)) (nbr_p nbr_n : Nat)
    (st : VNState) : Prop :=
  ∀ i p_tgt, i < nbr_n → p_tgt < nbr_p →
    ¬ maxImb (imbalances_after_move (nwgts.getD i []) (st.parts.getD i 0)
        p_tgt nbr_p st.imbs) < st.imb

/-- The target loop of a stuck state does nothing. -/
theorem vnTryParts_stuck (nwgts : List (List Rat)) (nbr_p nbr_n : Nat)
    (st : VNState) (h : VNStuck nwgts nbr_p nbr_n st) (i : Nat)
    (hi : i < nbr_n) :
    ∀ ptgts : List Nat, (∀ p ∈ ptgts, p < nbr_p) →
      vnTryParts nwgts nbr_p ptgts st i = st := by
  intro ptgts
  induction ptgts with
  | nil => intro _; rfl
  | cons p rest ih =>
    intro hall
    have hrej := vnTrial_rejected nwgts nbr_p st i p
      (h i p hi (hall p (List.mem_cons_self _ _)))
    simp only [vnTryParts, hrej]
    exact ih (fun q hq => hall q (List.mem_cons_of_mem _ hq))

/-- The target loop preserves tracking, never raises the aggregate, and
strictly lowers it whenever it performs the move. -/
theorem vnTryParts_law (nwgts targets : List (List Rat))
    (nbr_n nbr_p nbr_c : Nat) (hn : nwgts.length = nbr_n)
    (hw : ∀ j, j < nbr_n → (nwgts.getD j []).length = nbr_c) :
    ∀ (ptgts : List Nat) (st : VNState) (i : Nat),
      (∀ p ∈ ptgts, p < nbr_p) → i < nbr_n →
      VNTrack nwgts targets nbr_n nbr_p nbr_c st →
      VNTrack nwgts targets nbr_n nbr_p nbr_c
        (vnTryParts nwgts nbr_p ptgts st i)
      ∧ (vnTryParts nwgts nbr_p ptgts st i).imb ≤ st.imb
      ∧ st.movesDone ≤ (vnTryParts nwgts nbr_p ptgts st i).movesDone
      ∧ ((vnTryParts nwgts nbr_p ptgts st i).movesDone ≠ st.movesDone →
        (vnTryParts nwgts nbr_p ptgts st i).imb < st.imb) := by
  intro ptgts
  induction ptgts with
  | nil =>
    intro st i _ _ hinv
    exact ⟨hinv, le_refl _, Nat.le_refl _, fun h => absurd rfl h⟩
  | cons p rest ih =>
    intro st i hall hi hinv
    by_cases hacc : maxImb (imbalances_after_move (nwgts.getD i [])
        (st.parts.getD i 0) p nbr_p st.imbs) < st.imb
    · have hmv := vnTrack_accepted nwgts targets nbr_n nbr_p nbr_c hn hw
        st hinv i p hi (hall p (List.mem_cons_self _ _)) hacc
      have heq := vnTrial_accepted nwgts nbr_p st i p hacc
      rw [heq] at hmv
      simp only [vnTryParts, heq]
      exact ⟨hmv.1, le_of_lt hmv.2.1, by omega, fun _ => hmv.2.1⟩
    · have hrej := vnTrial_rejected nwgts nbr_p st i p hacc
      simp only [vnTryParts, hrej]
      exact ih st i (fun q hq => hall q (List.mem_cons_of_mem _ hq)) hi hinv

/-- The node loop preserves tracking, never raises the aggregate, and
strictly lowers it whenever it moved at all. -/
theorem vn_first_run_law (nwgts targets : List (List Rat))
    (nbr_n nbr_p nbr_c stopA : Nat) (hn : nwgts.length = nbr_n)
    (hw : ∀ j, j < nbr_n → (nwgts.getD j []).length = nbr_c) :
    ∀ (sched : List (Nat × List Nat)) (st : VNState),
      (∀ v ∈ sched, v.1 < nbr_n ∧ ∀ p ∈ v.2, p < nbr_p) →
      VNTrack nwgts targets nbr_n nbr_p nbr_c st →
      VNTrack nwgts targets nbr_n nbr_p nbr_c
        (vn_first_run nwgts nbr_p stopA sched st)
      ∧ (vn_first_run nwgts nbr_p stopA sched st).imb ≤ st.imb
      ∧ st.movesDone ≤ (vn_first_run nwgts nbr_p stopA sched st).movesDone
      ∧ ((vn_first_run nwgts nbr_p stopA sched st).movesDone
          ≠ st.movesDone →
        (vn_first_run nwgts nbr_p stopA sched st).imb < st.imb) := by
  intro sched
  induction sched with
  | nil =>
    intro st _ hinv
    exact ⟨hinv, le_refl _, Nat.le_refl _, fun h => absurd rfl h⟩
  | cons v rest ih =>
    intro st hall hinv
    obtain ⟨i, ptgts⟩ := v
    have hv := hall (i, ptgts) (List.mem_cons_self _ _)
    have hstep := vnTryParts_law nwgts targets nbr_n nbr_p nbr_c hn hw
      ptgts
      { st with
        movesTested := st.movesTested + 1
        movesTslm := st.movesTslm + 1 } i hv.2 hv.1 hinv
    simp only [vn_first_run]
    by_cases hstop : (vnTryParts nwgts nbr_p ptgts
        { st with
          movesTested := st.movesTested + 1
          movesTslm := st.movesTslm + 1 } i).movesTslm > stopA
    · rw [if_pos hstop]
      exact hstep
    · rw [if_neg hstop]
      have hrest := ih (vnTryParts nwgts nbr_p ptgts
          { st with
            movesTested := st.movesTested + 1
            movesTslm := st.movesTslm + 1 } i)
        (fun u hu => hall u (List.mem_cons_of_mem _ hu)) hstep.1
      refine ⟨hrest.1, le_trans hrest.2.1 hstep.2.1,
        le_trans hstep.2.2.1 hrest.2.2.1, fun hmv => ?_⟩
      by_cases hmid : (vnTryParts nwgts nbr_p ptgts
          { st with
            movesTested := st.movesTested + 1
            movesTslm := st.movesTslm + 1 } i).movesDone = st.movesDone
      · have hmv2 : (vn_first_run nwgts nbr_p stopA rest
            (vnTryParts nwgts nbr_p ptgts
              { st with
                movesTested := st.movesTested + 1
                movesTslm := st.movesTslm + 1 } i)).movesDone
            ≠ (vnTryParts nwgts nbr_p ptgts
              { st with
                movesTested := st.movesTested + 1
                movesTslm := st.movesTslm + 1 } i).movesDone := by
          rw [hmid]
          exact hmv
        exact lt_of_lt_of_le (hrest.2.2.2 hmv2) hstep.2.1
      · exact lt_of_le_of_lt hrest.2.1 (hstep.2.2.2 hmid)

/-- A stuck node loop only counts tested moves. -/
theorem vn_first_run_stuck (nwgts : List (List Rat))
    (nbr_p nbr_n stopA : Nat) :
    ∀ (sched : List (Nat × List Nat)) (st : VNState),
      (∀ v ∈ sched, v.1 < nbr_n ∧ ∀ p ∈ v.2, p < nbr_p) →
      VNStuck nwgts nbr_p nbr_n st →
      (vn_first_run nwgts nbr_p stopA sched st).parts = st.parts
      ∧ (vn_first_run nwgts nbr_p stopA sched st).imbs = st.imbs
      ∧ (vn_first_run nwgts nbr_p stopA sched st).imb = st.imb
      ∧ (vn_first_run nwgts nbr_p stopA sched st).movesDone
        = st.movesDone := by
  intro sched
  induction sched with
  | nil =>
    intro st _ _
    exact ⟨rfl, rfl, rfl, rfl⟩
  | cons v rest ih =>
    intro st hall hstuck
    obtain ⟨i, ptgts⟩ := v
    have hv := hall (i, ptgts) (List.mem_cons_self _ _)
    have hstv : VNStuck nwgts nbr_p nbr_n
        { st with
          movesTested := st.movesTested + 1
          movesTslm := st.movesTslm + 1 } := hstuck
    have hstep := vnTryParts_stuck nwgts nbr_p nbr_n _ hstv i hv.1
      ptgts hv.2
    simp only [vn_first_run, hstep]
    by_cases hstop : st.movesTslm + 1 > stopA
    · rw [if_pos hstop]
      exact ⟨rfl, rfl, rfl, rfl⟩
    · rw [if_neg hstop]
      have hrest := ih
          { st with
            movesTested := st.movesTested + 1
            movesTslm := st.movesTslm + 1 }
        (fun u hu => hall u (List.mem_cons_of_mem _ hu)) hstv
      exact hrest

/-- The `vn_best_part` driver either applies no move at all or ends with
a strictly smaller tracked maximum imbalance. -/
theorem vn_best_run_law
    (find : VNBState → Nat × Nat × Rat × Nat × Nat × List (List Rat)) :
    ∀ (fuel : Nat) (gt : VNBState),
      vn_best_run find fuel gt = gt
      ∨ (vn_best_run find fuel gt).umax < gt.umax := by
  intro fuel
  induction fuel with
  | zero => intro gt; exact Or.inl rfl
  | succ fuel ih =>
    intro gt
    simp only [vn_best_run]
    by_cases hbr : gt.umax ≤ (find gt).2.2.1
    · rw [if_pos hbr]
      exact Or.inl rfl
    · rw [if_neg hbr]
      right
      have hlt : (vnb_move_node gt (find gt).1 (find gt).2.1 (find gt).2.2.1
          (find gt).2.2.2.1 (find gt).2.2.2.2.1 (find gt).2.2.2.2.2).umax
          < gt.umax := lt_of_not_le hbr
      rcases ih (vnb_move_node gt (find gt).1 (find gt).2.1 (find gt).2.2.1
          (find gt).2.2.2.1 (find gt).2.2.2.2.1 (find gt).2.2.2.2.2) with
        h | h
      · rw [h]
        exact hlt
      · exact lt_trans h hlt

/-- Three vertices with one normalized criterion. -/
def vnDemoW : List (List Rat) := [[1/2], [1/3], [1/6]]

/-- Even bipartition targets for one criterion. -/
def vnDemoT : List (List Rat) := [[1/2, 1/2]]

/-- A coherent `vn_first_part` start state on `parts = [0, 0, 1]`. -/
def vnDemoState : VNState :=
  { parts := [0, 0, 1]
    imbs := imbalances vnDemoW [0, 0, 1] (List.replicate 1 1) vnDemoT 2 1
    imb := maxImb (imbalances vnDemoW [0, 0, 1] (List.replicate 1 1)
      vnDemoT 2 1)
    movesDone := 0, movesTslm := 0, movesTested := 0 }

/-- A `find_move` oracle proposing no improvement. -/
def vnbDemoFind (gt : VNBState) :
    Nat × Nat × Rat × Nat × Nat × List (List Rat) :=
  (0, 0, gt.umax, 0, 0, gt.unbal)

/-- C8.  Amended monotonicity law of the VN refiners.  For
`vn_first_part`, from any state whose tracked imbalance data is the
from-scratch `imbalances` of its partition: a candidate move is applied
exactly when it strictly decreases the aggregate imbalance (a rejected
candidate changes nothing), the tracking survives every move — so the
tracked aggregate is the true one throughout — and a whole run never
raises the aggregate, strictly lowers it whenever any move was done, and
moves nothing when no candidate improves.  For `vn_best_part` on a
bipartition, each driver iteration either breaks before moving or
applies `move_node` with a strictly smaller maximum imbalance, so a run
either changes nothing or strictly improves.  (With `nbr_p > 2` the
driver is never reached — see the companion counterexample.) -/
theorem vn_strict_decrease (nwgts targets : List (List Rat))
    (nbr_n nbr_p nbr_c stopA : Nat)
    (hn : nwgts.length = nbr_n)
    (hw : ∀ j, j < nbr_n → (nwgts.getD j []).length = nbr_c)
    (st : VNState) (hinv : VNTrack nwgts targets nbr_n nbr_p nbr_c st) :
    (∀ i p_tgt, i < nbr_n → p_tgt < nbr_p →
      ((vnTrial nwgts nbr_p st i p_tgt).2 = true →
        (vnTrial nwgts nbr_p st i p_tgt).1.imb < st.imb
        ∧ VNTrack nwgts targets nbr_n nbr_p nbr_c
          (vnTrial nwgts nbr_p st i p_tgt).1)
      ∧ ((vnTrial nwgts nbr_p st i p_tgt).2 = false →
        (vnTrial nwgts nbr_p st i p_tgt).1 = st))
    ∧ (∀ sched : List (Nat × List Nat),
        (∀ v ∈ sched, v.1 < nbr_n ∧ ∀ p ∈ v.2, p < nbr_p) →
        VNTrack nwgts targets nbr_n nbr_p nbr_c
          (vn_first_run nwgts nbr_p stopA sched st)
        ∧ (vn_first_run nwgts nbr_p stopA sched st).imb ≤ st.imb
        ∧ ((vn_first_run nwgts nbr_p stopA sched st).movesDone
            ≠ st.movesDone →
          (vn_first_run nwgts nbr_p stopA sched st).imb < st.imb))
    ∧ (VNStuck nwgts nbr_p nbr_n st →
        ∀ sched : List (Nat × List Nat),
        (∀ v ∈ sched, v.1 < nbr_n ∧ ∀ p ∈ v.2, p < nbr_p) →
        (vn_first_run nwgts nbr_p stopA sched st).parts = st.parts
        ∧ (vn_first_run nwgts nbr_p stopA sched st).movesDone
          = st.movesDone)
    ∧ (∀ (find : VNBState → Nat × Nat × Rat × Nat × Nat × List (List Rat))
        (fuel : Nat) (gt : VNBState),
        vn_best_run find fuel gt = gt
        ∨ (vn_best_run find fuel gt).umax < gt.umax) := by
  refine ⟨?_, ?_, ?_, ?_⟩
  · intro i p_tgt hi hp
    by_cases hacc : maxImb (imbalances_after_move (nwgts.getD i [])
        (st.parts.getD i 0) p_tgt nbr_p st.imbs) < st.imb
    · have h := vnTrack_accepted nwgts targets nbr_n nbr_p nbr_c hn hw
        st hinv i p_tgt hi hp hacc
      refine ⟨fun _ => ⟨h.2.1, h.1⟩, fun hf => ?_⟩
      rw [vnTrial_accepted nwgts nbr_p st i p_tgt hacc] at hf
      cases hf
    · rw [vnTrial_rejected nwgts nbr_p st i p_tgt hacc]
      exact ⟨fun ht => (nomatch ht), fun _ => rfl⟩
  · intro sched hsched
    have h := vn_first_run_law nwgts targets nbr_n nbr_p nbr_c stopA hn hw
      sched st hsched hinv
    exact ⟨h.1, h.2.1, h.2.2.2⟩
  · intro hstuck sched hsched
    have h := vn_first_run_stuck nwgts nbr_p nbr_n stopA sched st hsched
      hstuck
    exact ⟨h.1, h.2.2.2⟩
  · intro find fuel gt
    exact vn_best_run_law find fuel gt

/-- C8 witness: the amended law instantiated on three vertices with
weights `1/2, 1/3, 1/6`, even bipartition targets and the start
partition `[0, 0, 1]`. -/
theorem vn_strict_decrease_witness :
    (∀ i p_tgt, i < 3 → p_tgt < 2 →
      ((vnTrial vnDemoW 2 vnDemoState i p_tgt).2 = true →
        (vnTrial vnDemoW 2 vnDemoState i p_tgt).1.imb < vnDemoState.imb
        ∧ VNTrack vnDemoW vnDemoT 3 2 1
          (vnTrial vnDemoW 2 vnDemoState i p_tgt).1)
      ∧ ((vnTrial vnDemoW 2 vnDemoState i p_tgt).2 = false →
        (vnTrial vnDemoW 2 vnDemoState i p_tgt).1 = vnDemoState))
    ∧ (∀ sched : List (Nat × List Nat),
        (∀ v ∈ sched, v.1 < 3 ∧ ∀ p ∈ v.2, p < 2) →
        VNTrack vnDemoW vnDemoT 3 2 1
          (vn_first_run vnDemoW 2 3 sched vnDemoState)
        ∧ (vn_first_run vnDemoW 2 3 sched vnDemoState).imb
          ≤ vnDemoState.imb
        ∧ ((vn_first_run vnDemoW 2 3 sched vnDemoState).movesDone
            ≠ vnDemoState.movesDone →
          (vn_first_run vnDemoW 2 3 sched vnDemoState).imb
            < vnDemoState.imb))
    ∧ (VNStuck vnDemoW 2 3 vnDemoState →
        ∀ sched : List (Nat × List Nat),
        (∀ v ∈ sched, v.1 < 3 ∧ ∀ p ∈ v.2, p < 2) →
        (vn_first_run vnDemoW 2 3 sched vnDemoState).parts
          = vnDemoState.parts
        ∧ (vn_first_run vnDemoW 2 3 sched vnDemoState).movesDone
          = vnDemoState.movesDone)
    ∧ (∀ (find : VNBState → Nat × Nat × Rat × Nat × Nat × List (List Rat))
        (fuel : Nat) (gt : VNBState),
        vn_best_run find fuel gt = gt
        ∨ (vn_best_run find fuel gt).umax < gt.umax) :=
  vn_strict_decrease vnDemoW vnDemoT 3 2 1 3 rfl
    (by with_unfolding_all decide) vnDemoState
    (by unfold VNTrack; exact ⟨rfl, by decide, rfl, rfl⟩)

/-- C8 counterexample to the unamended claim: with `nbr_p = 3` the
claimed "each refiner stops once no candidate move strictly decreases
the imbalance" fails for `vn_best_part` — the k-way gain table raises
`NameError` while being built (undefined `n`, `nc` in
`GainTableNumbersKPart.init_gains`, src/algos/refine_algos/
vn_best_part.py lines 205-212), so no move is ever examined; the same
call on a bipartition runs and terminates normally. -/
theorem vn_best_kway_counterexample :
    vn_best_part 3 vnbDemoFind 10
        { parts := [0, 1, 2]
          unbal := [[0], [0], [0]]
          umax := 0
          cumax := 0
          pumax := 0 }
      = .error (.nameError "name n is not defined")
    ∧ vn_best_part 2 vnbDemoFind 10
        { parts := [0, 1]
          unbal := [[0], [0]]
          umax := 0
          cumax := 0
          pumax := 0 }
      = .ok { parts := [0, 1]
              unbal := [[0], [0]]
              umax := 0
              cumax := 0
              pumax := 0 } := by
  constructor
  · rfl
  · show (if (2 : Nat) = 2 then _ else _) = _
    rw [if_pos rfl]
    unfold vn_best_run
    rw [if_pos (by unfold vnbDemoFind; exact le_refl _)]

end Crack
